import Mathlib

/-!
Lumira calculator widget: the arithmetic state machine of `CalculatorTool`.

Source: `src/tools.js`, class `CalculatorTool` (constructor, `inputNumber`,
`inputDecimal`, `setOperation`, `calculate`, `toggleSign`, `percentage`,
`allClear`, `reset`, `updateDisplay`, `open`) and the buttons its `createModal`
markup wires to them, `ToolManager.closeModal`, and `src/app.js`,
`LumiraApp.addToSearchHistory`.

The class stores `display` (a string), `previousValue` (a Number or `null`),
`currentOperation` (a string or `null`) and `shouldResetDisplay` (a boolean).
`updateDisplay` only writes to the DOM and changes none of these fields, so the
state transformers below leave it out; the text it writes is `displayText`.

ECMAScript Numbers are modelled as IEEE-754 binary64 values, both zeros and the
subnormals included, with round-to-nearest, ties-to-even arithmetic;
`parseFloat`, `Number::toString` and `toExponential(6)` follow ECMA-262 (exact
decimal conversion, shortest round-tripping digits). Everything is computable
over `Nat` and `Int`, so concrete key sequences evaluate by `decide`.
-/

set_option exponentiation.threshold 8192
set_option maxRecDepth 8192

namespace Lumira

/-! ## ECMAScript Numbers -/

/-- An ECMAScript Number. A finite value is a sign and a magnitude counted in
units of `2^-1074` (the smallest positive double), so that every finite double,
both zeros included, is `fin neg mag` for exactly one pair. -/
inductive JSNum where
  | nan : JSNum
  | inf (neg : Bool) : JSNum
  | fin (neg : Bool) (mag : Nat) : JSNum
deriving DecidableEq

namespace JSNum

/-- The magnitude of the Number 1 in units of `2^-1074`. -/
def unit : Nat := 2 ^ 1074

/-- The magnitude of the largest finite double, `(2^53 - 1) * 2^971`. -/
def maxMag : Nat := (2 ^ 53 - 1) * 2 ^ 2045

/-- Nearest natural number to `N / D`, ties to the even one. -/
def roundDiv (N D : Nat) : Nat :=
  if 2 * (N % D) < D then N / D
  else if D < 2 * (N % D) then N / D + 1
  else if (N / D) % 2 = 0 then N / D
  else N / D + 1

/-- One step of the binary search of `excessBits`. -/
def excessStep (q acc i : Nat) : Nat :=
  if 2 ^ 52 ≤ q / 2 ^ (acc + i) then acc + i else acc

/-- The number of low bits a magnitude `q` has beyond a 53-bit significand:
the largest `sh < 4096` with `2^52 ≤ q / 2^sh`, and `0` when `q < 2^52`. -/
def excessBits (q : Nat) : Nat :=
  [2048, 1024, 512, 256, 128, 64, 32, 16, 8, 4, 2, 1].foldl (excessStep q) 0

/-- The ratio `N / D` (in units of `2^-1074`) rounded to 53 significant bits,
ties to even, with no bound on the exponent. -/
def roundScaled (N D : Nat) : Nat :=
  roundDiv N (D * 2 ^ excessBits (N / D)) * 2 ^ excessBits (N / D)

/-- A rounded magnitude as a Number: beyond the largest double it overflows to
an infinity. -/
def ofMag (neg : Bool) (m : Nat) : JSNum :=
  if maxMag < m then inf neg else fin neg m

/-- The Number nearest to `(-1)^neg * c * 10^p`. -/
def ofDecimal (neg : Bool) (c : Nat) (p : Int) : JSNum :=
  match p with
  | Int.ofNat k => ofMag neg (roundScaled (c * 10 ^ k * unit) 1)
  | Int.negSucc k => ofMag neg (roundScaled (c * unit) (10 ^ (k + 1)))

/-- The Number of a natural number literal. -/
def ofNat (n : Nat) : JSNum := ofDecimal false n 0

/-- Unary minus. -/
def neg : JSNum → JSNum
  | nan => nan
  | inf s => inf (!s)
  | fin s m => fin (!s) m

/-- Number addition, `x + y`. -/
def add : JSNum → JSNum → JSNum
  | nan, _ => nan
  | _, nan => nan
  | inf a, inf b => if a = b then inf a else nan
  | inf a, fin _ _ => inf a
  | fin _ _, inf b => inf b
  | fin a m, fin b n =>
    if a = b then ofMag a (roundScaled (m + n) 1)
    else if m = n then fin false 0
    else if n < m then ofMag a (roundScaled (m - n) 1)
    else ofMag b (roundScaled (n - m) 1)

/-- Number subtraction, `x - y`. -/
def sub (x y : JSNum) : JSNum := add x (neg y)

/-- Number multiplication, `x * y`. -/
def mul : JSNum → JSNum → JSNum
  | nan, _ => nan
  | _, nan => nan
  | inf a, inf b => inf (xor a b)
  | inf a, fin b n => if n = 0 then nan else inf (xor a b)
  | fin a m, inf b => if m = 0 then nan else inf (xor a b)
  | fin a m, fin b n => ofMag (xor a b) (roundScaled (m * n) unit)

/-- Number division, `x / y`. -/
def div : JSNum → JSNum → JSNum
  | nan, _ => nan
  | _, nan => nan
  | inf _, inf _ => nan
  | inf a, fin b _ => inf (xor a b)
  | fin a _, inf b => fin (xor a b) 0
  | fin a m, fin b n =>
    if n = 0 then (if m = 0 then nan else inf (xor a b))
    else ofMag (xor a b) (roundScaled (m * unit) n)

/-- The function `Math.abs`. -/
def abs : JSNum → JSNum
  | nan => nan
  | inf _ => inf false
  | fin _ m => fin false m

/-- The comparison `x < y`; false when either side is `NaN`. -/
def lt : JSNum → JSNum → Bool
  | nan, _ => false
  | _, nan => false
  | inf a, inf b => a && !b
  | inf a, fin _ _ => a
  | fin _ _, inf b => !b
  | fin a m, fin b n =>
    match a, b with
    | false, false => decide (m < n)
    | true, true => decide (n < m)
    | true, false => decide (0 < m ∨ 0 < n)
    | false, true => false

/-- The comparison `x > y`. -/
def gt (x y : JSNum) : Bool := lt y x

/-- Strict equality with zero, `x === 0`: true of both zeros. -/
def isZero : JSNum → Bool
  | fin _ 0 => true
  | _ => false

/-! ### Number to string conversions -/

/-- Searches the least `j` with `unit ≤ mag * 10^(j+1)`: the number of zeros
between the decimal point and the first significant digit of a value below 1. -/
def leadingZeros (mag : Nat) : Nat → Nat → Nat
  | 0, j => j
  | fuel + 1, j => if unit ≤ mag * 10 ^ (j + 1) then j else leadingZeros mag fuel (j + 1)

/-- The decimal exponent `n` of a positive magnitude, `10^(n-1) ≤ value < 10^n`. -/
def decExp (mag : Nat) : Int :=
  if unit ≤ mag then ((Nat.toDigits 10 (mag / unit)).length : Int)
  else -((leadingZeros mag 400 0 : Nat) : Int)

/-- Numerator and denominator of `value * 10^p` for the value of magnitude `mag`. -/
def scaleDec (mag : Nat) (p : Int) : Nat × Nat :=
  match p with
  | Int.ofNat j => (mag * 10 ^ j, unit)
  | Int.negSucc j => (mag, unit * 10 ^ (j + 1))

/-- The two `k`-digit decimals around the value, the closer one first (the even
one first on a tie). -/
def candidates (mag : Nat) (n : Int) (k : Nat) : List Nat :=
  let N := (scaleDec mag ((k : Int) - n)).1
  let D := (scaleDec mag ((k : Int) - n)).2
  if 2 * (N % D) < D then [N / D, N / D + 1]
  else if D < 2 * (N % D) then [N / D + 1, N / D]
  else if (N / D) % 2 = 0 then [N / D, N / D + 1]
  else [N / D + 1, N / D]

/-- The first candidate `s` with `k` digits for which `s * 10^(n-k)` converts
back to the double of magnitude `mag`. -/
def roundTrip (mag : Nat) (n : Int) (k : Nat) : Option Nat :=
  (candidates mag n k).find? (fun s => decide (ofDecimal false s (n - (k : Int)) = fin false mag))

/-- Searches the least number of digits `k` (from the given one upwards) that
round-trips; returns the digits of `s` and the exponent `n` of Number::toString.
A candidate rounded up to `10^k` is the one-digit decimal `1` of the next decade. -/
def shortestFrom (mag : Nat) (n : Int) : Nat → Nat → List Char × Int
  | 0, k => (Nat.toDigits 10 ((candidates mag n k).headD 0), n)
  | fuel + 1, k =>
    match roundTrip mag n k with
    | some s => if s = 10 ^ k then (['1'], n + 1) else (Nat.toDigits 10 s, n)
    | none => shortestFrom mag n fuel (k + 1)

/-- The shortest digit string and exponent that identify a positive double
(17 digits always do). -/
def shortest (mag : Nat) : List Char × Int :=
  shortestFrom mag (decExp mag) 17 1

/-- The decimal digits of the absolute value of an integer. -/
def absDigits (e : Int) : List Char := Nat.toDigits 10 e.natAbs

/-- The exponent suffix `e+d` or `e-d`. -/
def expSuffix (e : Int) : List Char :=
  'e' :: (if e < 0 then '-' else '+') :: absDigits e

/-- Lays out digits `ds` with decimal exponent `n` as Number::toString does. -/
def layout (ds : List Char) (n : Int) : List Char :=
  if (ds.length : Int) ≤ n ∧ n ≤ 21 then ds ++ List.replicate (n.toNat - ds.length) '0'
  else if 0 < n ∧ n ≤ 21 then ds.take n.toNat ++ '.' :: ds.drop n.toNat
  else if -6 < n ∧ n ≤ 0 then '0' :: '.' :: (List.replicate (-n).toNat '0' ++ ds)
  else if ds.length = 1 then ds ++ expSuffix (n - 1)
  else ds.take 1 ++ '.' :: (ds.drop 1 ++ expSuffix (n - 1))

/-- The characters of Number::toString(x) in radix 10. -/
def toChars : JSNum → List Char
  | nan => "NaN".data
  | inf false => "Infinity".data
  | inf true => "-Infinity".data
  | fin _ 0 => "0".data
  | fin s (m + 1) =>
    (if s then ['-'] else []) ++ layout (shortest (m + 1)).1 (shortest (m + 1)).2

/-- The method `Number.prototype.toString()`. -/
def toString (x : JSNum) : String := String.mk (toChars x)

/-- The integer nearest to `N / D`, ties upwards. -/
def roundHalfUp (N D : Nat) : Nat :=
  if 2 * (N % D) < D then N / D else N / D + 1

/-- The 7-digit significand and the exponent of `toExponential(6)` for a
positive magnitude. -/
def expParts (mag : Nat) : Nat × Int :=
  let e := decExp mag - 1
  let n := roundHalfUp (scaleDec mag (6 - e)).1 (scaleDec mag (6 - e)).2
  if n = 10 ^ 7 then (10 ^ 6, e + 1) else (n, e)

/-- The characters of `x.toExponential(6)`. -/
def expChars : JSNum → List Char
  | nan => "NaN".data
  | inf false => "Infinity".data
  | inf true => "-Infinity".data
  | fin _ 0 => "0.000000e+0".data
  | fin s (m + 1) =>
    (if s then ['-'] else []) ++
      ((Nat.toDigits 10 (expParts (m + 1)).1).take 1 ++
        '.' :: ((Nat.toDigits 10 (expParts (m + 1)).1).drop 1 ++ expSuffix (expParts (m + 1)).2))

/-- The method call `x.toExponential(6)`. -/
def toExponential6 (x : JSNum) : String := String.mk (expChars x)

/-! ### parseFloat -/

/-- ECMAScript white space and line terminators, skipped at the start by `parseFloat`. -/
def isStrWhiteSpace (c : Char) : Bool :=
  c.toNat ∈ [0x09, 0x0A, 0x0B, 0x0C, 0x0D, 0x20, 0xA0, 0x1680, 0x2028, 0x2029, 0x202F,
    0x205F, 0x3000, 0xFEFF] || (0x2000 ≤ c.toNat && c.toNat ≤ 0x200A)

/-- The value of a list of decimal digit characters. -/
def digitsVal (ds : List Char) : Nat :=
  ds.foldl (fun acc c => 10 * acc + (c.toNat - 48)) 0

/-- The value of an ExponentPart at the start of `cs` (`0` when there is none). -/
def exponentPart (cs : List Char) : Int :=
  match cs with
  | [] => 0
  | c :: r =>
    if c = 'e' ∨ c = 'E' then
      match r with
      | '-' :: t => if (t.takeWhile Char.isDigit).isEmpty then 0
          else -((digitsVal (t.takeWhile Char.isDigit) : Nat) : Int)
      | '+' :: t => ((digitsVal (t.takeWhile Char.isDigit) : Nat) : Int)
      | _ => ((digitsVal (r.takeWhile Char.isDigit) : Nat) : Int)
    else 0

/-- The unsigned part of `parseFloat`: `Infinity`, or digits with an optional
fraction and exponent; `NaN` when no prefix is a decimal literal. -/
def parseUnsigned (neg : Bool) (cs : List Char) : JSNum :=
  if "Infinity".data.isPrefixOf cs then inf neg
  else
    let ip := cs.takeWhile Char.isDigit
    let r1 := cs.dropWhile Char.isDigit
    match r1 with
    | '.' :: t =>
      let fp := t.takeWhile Char.isDigit
      if ip.isEmpty ∧ fp.isEmpty then nan
      else ofDecimal neg (digitsVal (ip ++ fp))
        (exponentPart (t.dropWhile Char.isDigit) - (fp.length : Int))
    | _ =>
      if ip.isEmpty then nan
      else ofDecimal neg (digitsVal ip) (exponentPart r1)

/-- The global function `parseFloat` applied to a string. -/
def parseFloat (s : String) : JSNum :=
  match s.data.dropWhile isStrWhiteSpace with
  | '-' :: r => parseUnsigned true r
  | '+' :: r => parseUnsigned false r
  | cs => parseUnsigned false cs

/-- The comparison `x >= y`; false when either side is `NaN`. -/
def ge : JSNum → JSNum → Bool
  | nan, _ => false
  | _, nan => false
  | x, y => !lt x y

/-- The method call `x.toFixed(10)`: the nearest multiple of `10^-10`, ties
upwards, written with exactly ten fractional digits; `Number::toString` for
values that are not finite or are at least `10^21`. -/
def toFixed10 : JSNum → String
  | nan => "NaN"
  | inf false => "Infinity"
  | inf true => "-Infinity"
  | fin s m =>
    if 10 ^ 21 * unit ≤ m then toString (fin s m)
    else
      String.mk ((if s && decide (m ≠ 0) then ['-'] else []) ++
        ((List.replicate (11 - (Nat.toDigits 10 (roundHalfUp (m * 10 ^ 10) unit)).length) '0' ++
            Nat.toDigits 10 (roundHalfUp (m * 10 ^ 10) unit)).reverse.drop 10).reverse ++
        '.' ::
        ((List.replicate (11 - (Nat.toDigits 10 (roundHalfUp (m * 10 ^ 10) unit)).length) '0' ++
            Nat.toDigits 10 (roundHalfUp (m * 10 ^ 10) unit)).reverse.take 10).reverse)

/-- Whether a Number is a finite integer (`n % 1 === 0`). -/
def isInteger : JSNum → Bool
  | fin _ m => m % unit == 0
  | _ => false

/-- Removes ECMAScript white space at both ends of a string. -/
def trimWhiteSpace (cs : List Char) : List Char :=
  ((cs.dropWhile isStrWhiteSpace).reverse.dropWhile isStrWhiteSpace).reverse

/-- An ExponentPart, or nothing: `e` or `E`, an optional sign, at least one digit. -/
def isExponentPartOrEmpty (cs : List Char) : Bool :=
  match cs with
  | [] => true
  | c :: r =>
    (c == 'e' || c == 'E') &&
      (match r with
       | '+' :: t => !t.isEmpty && t.all Char.isDigit
       | '-' :: t => !t.isEmpty && t.all Char.isDigit
       | _ => !r.isEmpty && r.all Char.isDigit)

/-- A whole string that is a StrUnsignedDecimalLiteral: `Infinity`, or digits
with an optional fraction and exponent, with a digit before or after the point. -/
def isStrUnsignedDecimal (cs : List Char) : Bool :=
  cs == "Infinity".data ||
    (match cs.dropWhile Char.isDigit with
     | '.' :: t =>
       (!(cs.takeWhile Char.isDigit).isEmpty || !(t.takeWhile Char.isDigit).isEmpty) &&
         isExponentPartOrEmpty (t.dropWhile Char.isDigit)
     | r => !(cs.takeWhile Char.isDigit).isEmpty && isExponentPartOrEmpty r)

/-- A whole string that is a NonDecimalIntegerLiteral: `0x`, `0o` or `0b` (in
either case) followed by at least one digit of that base. -/
def isNonDecimalInteger (cs : List Char) : Bool :=
  match cs with
  | '0' :: x :: ds =>
    !ds.isEmpty &&
      (((x == 'x' || x == 'X') &&
          ds.all (fun c => c.isDigit || ('a' ≤ c && c ≤ 'f') || ('A' ≤ c && c ≤ 'F'))) ||
       ((x == 'o' || x == 'O') && ds.all (fun c => '0' ≤ c && c ≤ '7')) ||
       ((x == 'b' || x == 'B') && ds.all (fun c => c == '0' || c == '1')))
  | _ => false

/-- The test `!isNaN(s)` on a string: `Number(s)` is not `NaN`, which holds when
the trimmed string is empty or is, as a whole, a numeric literal. -/
def isNumericString (t : String) : Bool :=
  (trimWhiteSpace t.data).isEmpty || isNonDecimalInteger (trimWhiteSpace t.data) ||
    (match trimWhiteSpace t.data with
     | '+' :: r => isStrUnsignedDecimal r
     | '-' :: r => isStrUnsignedDecimal r
     | cs => isStrUnsignedDecimal cs)

/-- Commas between groups of three characters, counted from the front of a
reversed digit list. -/
def groupReversed : List Char → List Char
  | a :: b :: c :: d :: rest => a :: b :: c :: ',' :: groupReversed (d :: rest)
  | l => l

/-- A digit string with thousands grouping separators. -/
def groupThousands (ds : List Char) : List Char := (groupReversed ds.reverse).reverse

/-- The method `x.toLocaleString()` in the `en-US` locale (ECMA-402 defaults):
the value rounded to at most three fraction digits, halves away from zero, the
integer part in groups of three separated by commas, a minus sign for negative
values and for negative zero. The result of this method depends on the locale
of the browser; `en-US` is the locale in which the grouping separator is the
comma. -/
def toLocaleString : JSNum → String
  | nan => "NaN"
  | inf false => "∞"
  | inf true => "-∞"
  | fin s m =>
    String.mk ((if s then ['-'] else []) ++
      groupThousands (Nat.toDigits 10 (roundHalfUp (m * 1000) unit / 1000)) ++
      (if roundHalfUp (m * 1000) unit % 1000 = 0 then []
       else '.' :: ((List.replicate
          (3 - (Nat.toDigits 10 (roundHalfUp (m * 1000) unit % 1000)).length) '0' ++
          Nat.toDigits 10 (roundHalfUp (m * 1000) unit % 1000)).reverse.dropWhile
            (fun c => c == '0')).reverse))

end JSNum

/-! ## The calculator state (`CalculatorTool`, constructor, tools.js 445-452) -/

/-- The mutable fields of a `CalculatorTool` instance. `waitingForNewNumber` is
set by the constructor and never read or written again. -/
structure CalculatorTool where
  display : String
  previousValue : Option JSNum
  currentOperation : Option String
  waitingForNewNumber : Bool
  shouldResetDisplay : Bool
deriving DecidableEq

namespace CalculatorTool

open JSNum

/-- The field values the constructor sets. -/
def initial : CalculatorTool :=
  { display := "0", previousValue := none, currentOperation := none,
    waitingForNewNumber := false, shouldResetDisplay := false }

/-- JavaScript truthiness of `currentOperation`: `null` and the empty string
are falsy. -/
def truthy : Option String → Bool
  | none => false
  | some op => op != ""

/-- The method `inputNumber(num)`, tools.js 558-569. `display.length` counts
UTF-16 units in JavaScript; the displays here are ASCII, where the count of
characters is the same. -/
def inputNumber (s : CalculatorTool) (num : String) : CalculatorTool :=
  if s.shouldResetDisplay || s.display == "0" then
    { s with display := num, shouldResetDisplay := false }
  else if s.display.length < 12 then
    { s with display := s.display ++ num }
  else s

/-- The method `inputDecimal()`, tools.js 571-579. -/
def inputDecimal (s : CalculatorTool) : CalculatorTool :=
  if s.shouldResetDisplay then
    { s with display := "0.", shouldResetDisplay := false }
  else if !s.display.data.contains '.' then
    { s with display := s.display ++ "." }
  else s

/-- The method `reset()`, tools.js 664-668. -/
def reset (s : CalculatorTool) : CalculatorTool :=
  { s with previousValue := none, currentOperation := none, shouldResetDisplay := false }

/-- The display text `calculate` chooses for a result, tools.js 620-625. -/
def resultText (result : JSNum) : String :=
  if (abs result).gt (ofNat 999999999999) ||
      ((abs result).lt (ofDecimal false 1 (-9)) && !result.isZero) then
    toExponential6 result
  else JSNum.toString result

/-- The tail of `calculate` after the `switch`, tools.js 620-634. -/
def storeResult (s : CalculatorTool) (result : JSNum) : CalculatorTool :=
  { s with display := resultText result, previousValue := none, currentOperation := none,
           shouldResetDisplay := true }

/-- The method `calculate()`, tools.js 591-636. Nothing in the `try` block can
throw, so the `catch` branch is never entered. -/
def calculate (s : CalculatorTool) : CalculatorTool :=
  match s.currentOperation, s.previousValue with
  | some op, some prev =>
    if op = "" then s
    else if op = "+" then storeResult s (add prev (parseFloat s.display))
    else if op = "-" then storeResult s (sub prev (parseFloat s.display))
    else if op = "×" then storeResult s (mul prev (parseFloat s.display))
    else if op = "÷" then
      if (parseFloat s.display).isZero then reset { s with display := "Error" }
      else storeResult s (div prev (parseFloat s.display))
    else s
  | _, _ => s

/-- The exceptions the built-in methods called in the `try` block of
`calculate` can raise. -/
inductive JSError where
  | rangeError
deriving DecidableEq

/-- The argument check of `Number.prototype.toExponential(fractionDigits)` for
a finite number (ECMA-262 21.1.3.2): a RangeError outside 0..100. The other
calls of the `try` block (`parseFloat` of a string, the four arithmetic
operators on numbers, `Math.abs`, `toString()` without a radix) raise nothing. -/
def checkFractionDigits (fractionDigits : Int) : Except JSError Unit :=
  if fractionDigits < 0 ∨ 100 < fractionDigits then Except.error JSError.rangeError
  else Except.ok ()

/-- The formatting statements of the `try` block, tools.js 620-625, with the
exception `toExponential(6)` could raise. -/
def resultTextTry (result : JSNum) : Except JSError String :=
  if (abs result).gt (ofNat 999999999999) ||
      ((abs result).lt (ofDecimal false 1 (-9)) && !result.isZero) then
    match checkFractionDigits 6 with
    | Except.ok _ => Except.ok (toExponential6 result)
    | Except.error e => Except.error e
  else Except.ok (JSNum.toString result)

/-- The statements after the `switch` with the `catch` branch, tools.js
620-634: a raised exception stores `"Error"` in the display. -/
def storeResultOrCatch (s : CalculatorTool) (result : JSNum) : CalculatorTool :=
  match resultTextTry result with
  | Except.ok text =>
    { s with display := text, previousValue := none, currentOperation := none,
             shouldResetDisplay := true }
  | Except.error _ =>
    { s with display := "Error", previousValue := none, currentOperation := none,
             shouldResetDisplay := true }

/-- The method `calculate()` with its `try`/`catch` kept, tools.js 591-636. -/
def calculateWithCatch (s : CalculatorTool) : CalculatorTool :=
  match s.currentOperation, s.previousValue with
  | some op, some prev =>
    if op = "" then s
    else if op = "+" then storeResultOrCatch s (add prev (parseFloat s.display))
    else if op = "-" then storeResultOrCatch s (sub prev (parseFloat s.display))
    else if op = "×" then storeResultOrCatch s (mul prev (parseFloat s.display))
    else if op = "÷" then
      if (parseFloat s.display).isZero then reset { s with display := "Error" }
      else storeResultOrCatch s (div prev (parseFloat s.display))
    else s
  | _, _ => s

/-- The method `setOperation(operation)`, tools.js 581-589. -/
def setOperation (s : CalculatorTool) (operation : String) : CalculatorTool :=
  let s1 := if truthy s.currentOperation && !s.shouldResetDisplay then calculate s else s
  { s1 with previousValue := some (parseFloat s1.display), currentOperation := some operation,
            shouldResetDisplay := true }

/-- The method `toggleSign()`, tools.js 638-647. -/
def toggleSign (s : CalculatorTool) : CalculatorTool :=
  if s.display != "0" then
    match s.display.data with
    | '-' :: rest => { s with display := String.mk rest }
    | cs => { s with display := String.mk ('-' :: cs) }
  else s

/-- The method `percentage()`, tools.js 649-654. -/
def percentage (s : CalculatorTool) : CalculatorTool :=
  { s with display := JSNum.toString (div (parseFloat s.display) (ofNat 100)),
           shouldResetDisplay := true }

/-- The method `allClear()`, tools.js 656-662. -/
def allClear (s : CalculatorTool) : CalculatorTool :=
  { s with display := "0", previousValue := none, currentOperation := none,
           shouldResetDisplay := false }

/-- The text `updateDisplay()` writes into the `#calc-display` element,
tools.js 539-556. -/
def displayText (display : String) : String :=
  if isNumericString display && display != "" then
    if (abs (parseFloat display)).ge (ofNat 1000000000) then
      toExponential6 (parseFloat display)
    else if (parseFloat display).isInteger then
      JSNum.toLocaleString (parseFloat display)
    else JSNum.toString (parseFloat (toFixed10 (parseFloat display)))
  else display

end CalculatorTool

/-! ## The widget around the calculator (`open`, tools.js 670-674) -/

/-- A calculator with the parts of the page that `open()` writes: whether its
modal carries the class `active` (and is `toolManager.activeModal`), and the
text of its `#calc-display` element. -/
structure CalculatorWidget where
  tool : CalculatorTool
  modalActive : Bool
  shownText : String
deriving DecidableEq

/-- The method `open()` of `CalculatorTool`, tools.js 670-674: it registers
and shows the modal and calls `updateDisplay()`; it assigns none of the
calculator fields. (`open` is a keyword of Lean, hence the longer name.) -/
def CalculatorWidget.openModal (w : CalculatorWidget) : CalculatorWidget :=
  { w with modalActive := true, shownText := CalculatorTool.displayText w.tool.display }

/-- The method `ToolManager.closeModal()`, tools.js 24-29, when the calculator
modal is the active one: the class `active` is removed. -/
def CalculatorWidget.closeModal (w : CalculatorWidget) : CalculatorWidget :=
  { w with modalActive := false }

/-! ## The search history (`LumiraApp.addToSearchHistory`, app.js 530-535) -/

/-- The method `addToSearchHistory(query)`: the new value of `searchHistory`.
`limit` is `CONFIG.APP.SEARCH_HISTORY_LIMIT`, whose definition is not among
the sources; the write to `localStorage` stores the same list. -/
def addToSearchHistory (limit : Nat) (searchHistory : List String) (query : String) :
    List String :=
  (query :: searchHistory.filter (fun item => item != query)).take limit

/-! ## The buttons of the widget (`createModal`, tools.js 459-481) -/

/-- The four operator buttons. -/
inductive Operator where
  | plus | minus | times | divide
deriving DecidableEq

/-- The string an operator button passes to `setOperation`. -/
def Operator.symbol : Operator → String
  | .plus => "+"
  | .minus => "-"
  | .times => "×"
  | .divide => "÷"

/-- The string a digit button passes to `inputNumber`. -/
def digitString (d : Fin 10) : String := String.singleton (Nat.digitChar d.val)

/-- A button press: the public operations with the arguments the markup gives them. -/
inductive Key where
  | digit (d : Fin 10)
  | decimal
  | operation (o : Operator)
  | equals
  | sign
  | percent
  | clear
deriving DecidableEq

open CalculatorTool in
/-- The method a button calls. -/
def press (s : CalculatorTool) : Key → CalculatorTool
  | .digit d => inputNumber s (digitString d)
  | .decimal => inputDecimal s
  | .operation o => setOperation s o.symbol
  | .equals => calculate s
  | .sign => toggleSign s
  | .percent => percentage s
  | .clear => allClear s

/-- The state after a sequence of button presses from the constructed state. -/
def run (keys : List Key) : CalculatorTool := keys.foldl press CalculatorTool.initial

/-- States reachable from the constructed state by the public operations. -/
inductive Reachable : CalculatorTool → Prop where
  | init : Reachable CalculatorTool.initial
  | step {s : CalculatorTool} (k : Key) : Reachable s → Reachable (press s k)

open JSNum CalculatorTool

/-! ## Specification-side definitions -/

/-- Typing a sequence of digit buttons, one `inputNumber` call each. -/
def typeDigits (s : CalculatorTool) (ds : List (Fin 10)) : CalculatorTool :=
  ds.foldl (fun t d => inputNumber t (digitString d)) s

/-- The display the specification promises after typing `ds` from the cleared
state: leading zeros removed, cut to 12 characters, `"0"` when nothing remains. -/
def typedDisplay (ds : List (Fin 10)) : String :=
  if (ds.dropWhile (fun d => d == 0)).isEmpty then "0"
  else String.mk (((ds.dropWhile (fun d => d == 0)).map (fun d => Nat.digitChar d.val)).take 12)

/-- Digits, optionally followed by a decimal point and further digits: the
unsigned decimal numerals (`"42"`, `"0."`, `"3.14"`). -/
def isDecimalBody (cs : List Char) : Bool :=
  !(cs.takeWhile Char.isDigit).isEmpty &&
    (match cs.dropWhile Char.isDigit with
     | [] => true
     | c :: r => c == '.' && r.all Char.isDigit)

/-- An unsigned decimal numeral followed by `e`, a sign and at least one digit:
the exponential-notation numerals (`"1.000000e+24"`, `"5e-7"`). -/
def isExponentialBody (cs : List Char) : Bool :=
  isDecimalBody (cs.takeWhile (fun c => c != 'e')) &&
    (match cs.dropWhile (fun c => c != 'e') with
     | _ :: sgn :: ds => (sgn == '+' || sgn == '-') && !ds.isEmpty && ds.all Char.isDigit
     | _ => false)

/-- The text `Error` followed by typed characters: digits with at most one
decimal point among them. -/
def isErrorBody (cs : List Char) : Bool :=
  "Error".data.isPrefixOf cs &&
    (match (cs.drop 5).dropWhile Char.isDigit with
     | [] => true
     | c :: r => c == '.' && r.all Char.isDigit)

/-- A string without its leading minus sign, when it has one. -/
def unsigned (cs : List Char) : List Char :=
  match cs with
  | '-' :: r => r
  | _ => cs

/-- The unsigned texts the code can produce: a decimal numeral, an
exponential-notation numeral, `NaN`, `Infinity`, or `Error` followed by typed
digits and at most one decimal point. -/
def isCodeBody (b : List Char) : Bool :=
  isDecimalBody b || isExponentialBody b || b == "NaN".data || b == "Infinity".data ||
    isErrorBody b

/-- The unsigned texts that typing can extend: a decimal numeral or `Error`
followed by typed characters. -/
def isTypedBody (b : List Char) : Bool :=
  isDecimalBody b || isErrorBody b

/-- The displays the specification allows: a decimal numeral, the literal
`Error`, or an exponential-notation numeral (numerals may carry a minus sign). -/
def isSpecDisplay (t : String) : Bool :=
  isDecimalBody (unsigned t.data) || t == "Error" || isExponentialBody (unsigned t.data)

/-- The displays the code can produce: an optional minus sign and then one of
the texts of `isCodeBody`. -/
def isCodeDisplay (t : String) : Bool := isCodeBody (unsigned t.data)

/-- The displays that typing can extend: an optional minus sign and then one of
the texts of `isTypedBody`. -/
def isTypedDisplay (t : String) : Bool := isTypedBody (unsigned t.data)

/-- Typing the decimal numeral of `n`, one `inputNumber` call per digit. -/
def typeNat (s : CalculatorTool) (n : Nat) : CalculatorTool :=
  (Nat.toDigits 10 n).foldl (fun t c => inputNumber t (String.singleton c)) s

/-- The Number operation `calculate` performs for an operator button. -/
def Operator.apply : Operator → JSNum → JSNum → JSNum
  | .plus => add
  | .minus => sub
  | .times => mul
  | .divide => div

/-- The exact integer operation an operator button stands for (division,
which the integers do not have, is truncated). -/
def Operator.evalInt : Operator → Int → Int → Int
  | .plus, x, y => x + y
  | .minus, x, y => x - y
  | .times, x, y => x * y
  | .divide, x, y => Int.tdiv x y

/-- The plain decimal numeral of an integer: a minus sign for negative numbers,
then the decimal digits of the absolute value. -/
def intNumeral (z : Int) : String :=
  String.mk ((if z < 0 then ['-'] else []) ++ Nat.toDigits 10 z.natAbs)

/-- The Number `x` is the integer `z`; either zero stands for `0`. -/
def IsInt (x : JSNum) (z : Int) : Prop :=
  ∃ s : Bool, x = fin s (z.natAbs * unit) ∧ (z ≠ 0 → s = decide (z < 0))

/-- Removes the zeros at the end of a fraction, and the decimal point when no
fraction digit is left. -/
def stripFraction (cs : List Char) : List Char :=
  match (cs.reverse.dropWhile (fun c => c == '0')) with
  | '.' :: r => r.reverse
  | r => r.reverse

/-- The `formatResult` of the specification (section 4.1), following its words:
exponential notation with 6 fractional digits when `|n| >= 1e9` or
`0 < |n| < 1e-9`; otherwise thousands grouping when `n` is an integer;
otherwise `n` rounded to 10 decimal places with trailing zeros stripped. -/
def specFormatResult (n : JSNum) : String :=
  if (abs n).ge (ofNat 1000000000) ||
      ((abs n).lt (ofDecimal false 1 (-9)) && !n.isZero) then
    toExponential6 n
  else if n.isInteger then
    match n with
    | fin s m => String.mk ((if s && decide (m ≠ 0) then ['-'] else []) ++
        groupThousands (Nat.toDigits 10 (m / unit)))
    | _ => JSNum.toString n
  else String.mk (stripFraction (toFixed10 n).data)

/-- The keys that type a number: the digit buttons and the decimal point. -/
def Key.isTyping : Key → Bool
  | .digit _ => true
  | .decimal => true
  | _ => false

/-- The digits of a decimal numeral read as one natural number, the decimal
point left out: `"1.5"` gives `15`. -/
def decimalMantissa (t : String) : Nat := digitsVal (t.data.filter Char.isDigit)

/-- The number of digits after the decimal point of a decimal numeral, so that
its value is `decimalMantissa t / 10 ^ decimalPlaces t`. -/
def decimalPlaces (t : String) : Nat := ((t.data.dropWhile Char.isDigit).drop 1).length

/-- The range in which `calculate` shows the plain `toString()` of a result:
absolute value at most 999999999999 and, unless zero, at least 1e-9. -/
def inPlainRange (x : JSNum) : Bool :=
  !((abs x).gt (ofNat 999999999999) || ((abs x).lt (ofDecimal false 1 (-9)) && !x.isZero))

/-- A typed decimal numeral: digits, at most 12 of them, the part before the
decimal point not empty, with at most one decimal point. -/
def IsTypedNumeral (t : String) : Prop :=
  ∃ A B : List Char, A ≠ [] ∧ (∀ c ∈ A, c ∈ "0123456789".data) ∧
    (∀ c ∈ B, c ∈ "0123456789".data) ∧ A.length + B.length ≤ 12 ∧
    (t.data = A ∨ t.data = A ++ '.' :: B)

/-- A rendered text with its grouping separators removed. -/
def removeSeparators (t : String) : String := String.mk (t.data.filter (fun c => c != ','))

/-- The state a widget is in after the buttons `keys` were pressed in a shown
calculator: the calculator after the presses, the text the last
`updateDisplay()` wrote. -/
def widgetAfter (keys : List Key) : CalculatorWidget :=
  { tool := run keys, modalActive := true, shownText := displayText (run keys).display }

/-! ## Frame lemmas and reachability -/

theorem parseFloat_zero : parseFloat "0" = fin false 0 := by decide

@[simp] theorem inputNumber_currentOperation (s : CalculatorTool) (num : String) :
    (inputNumber s num).currentOperation = s.currentOperation := by
  unfold inputNumber; split_ifs <;> rfl

@[simp] theorem inputNumber_previousValue (s : CalculatorTool) (num : String) :
    (inputNumber s num).previousValue = s.previousValue := by
  unfold inputNumber; split_ifs <;> rfl

@[simp] theorem inputDecimal_currentOperation (s : CalculatorTool) :
    (inputDecimal s).currentOperation = s.currentOperation := by
  unfold inputDecimal; split_ifs <;> rfl

@[simp] theorem inputDecimal_previousValue (s : CalculatorTool) :
    (inputDecimal s).previousValue = s.previousValue := by
  unfold inputDecimal; split_ifs <;> rfl

@[simp] theorem toggleSign_currentOperation (s : CalculatorTool) :
    (toggleSign s).currentOperation = s.currentOperation := by
  unfold toggleSign; split_ifs
  · split <;> rfl
  · rfl

@[simp] theorem toggleSign_previousValue (s : CalculatorTool) :
    (toggleSign s).previousValue = s.previousValue := by
  unfold toggleSign; split_ifs
  · split <;> rfl
  · rfl

@[simp] theorem toggleSign_shouldResetDisplay (s : CalculatorTool) :
    (toggleSign s).shouldResetDisplay = s.shouldResetDisplay := by
  unfold toggleSign; split_ifs
  · split <;> rfl
  · rfl

/-- Pressing further buttons keeps a state reachable. -/
theorem reachable_foldl (keys : List Key) :
    ∀ s : CalculatorTool, Reachable s → Reachable (keys.foldl press s) := by
  induction keys with
  | nil => intro s h; exact h
  | cons k keys ih => intro s h; exact ih _ (Reachable.step k h)

/-- Every run of button presses ends in a reachable state. -/
theorem reachable_run (keys : List Key) : Reachable (run keys) :=
  reachable_foldl keys _ Reachable.init

/-- The division-by-zero branch of `calculate`. -/
theorem calculate_divide_zero (s : CalculatorTool) (prev : JSNum)
    (hop : s.currentOperation = some "÷") (hprev : s.previousValue = some prev)
    (hz : (parseFloat s.display).isZero = true) :
    calculate s = { display := "Error", previousValue := none, currentOperation := none,
                    waitingForNewNumber := s.waitingForNewNumber,
                    shouldResetDisplay := false } := by
  unfold calculate
  rw [hop, hprev]
  simp [hz, reset]

theorem calculate_iff (s : CalculatorTool)
    (h : s.currentOperation ≠ none ↔ s.previousValue ≠ none) :
    (calculate s).currentOperation ≠ none ↔ (calculate s).previousValue ≠ none := by
  unfold calculate
  split
  · split_ifs <;> simp_all [storeResult, reset]
  · exact h

theorem press_iff (s : CalculatorTool) (k : Key)
    (h : s.currentOperation ≠ none ↔ s.previousValue ≠ none) :
    (press s k).currentOperation ≠ none ↔ (press s k).previousValue ≠ none := by
  cases k with
  | digit d => simpa [press] using h
  | decimal => simpa [press] using h
  | operation o => simp [press, setOperation]
  | equals => exact calculate_iff s h
  | sign => simpa [press] using h
  | percent => simpa [press, percentage] using h
  | clear => simp [press, allClear]

/-- In reachable states the pending operator and the stored operand are set together. -/
theorem reachable_iff (s : CalculatorTool) (h : Reachable s) :
    s.currentOperation ≠ none ↔ s.previousValue ≠ none := by
  induction h with
  | init => simp [initial]
  | step k _ ih => exact press_iff _ k ih

/-! ## Chained evaluation (C1) -/

/-- Claim C1, as stated, fails: after `3`, `+`, `4`, `×`, `=` from the cleared
state the display is not `"28"`. -/
theorem chain_without_operand_not_28 :
    ¬ ((run [.clear, .digit 3, .operation .plus, .digit 4, .operation .times, .equals]).display
          = "28" ∧
       (run [.clear, .digit 3, .operation .plus, .digit 4, .operation .times]).display = "7") := by
  decide

/-- Claim C1, amended: after `3`, `+`, `4`, `×`, `=` from the cleared state the
display is `"49"` (the folded `7` is also the right operand), and the display is
`"7"` right after the `×` step. -/
theorem chain_without_operand_squares :
    (run [.clear, .digit 3, .operation .plus, .digit 4, .operation .times, .equals]).display
        = "49" ∧
    (run [.clear, .digit 3, .operation .plus, .digit 4, .operation .times]).display = "7" := by
  decide

/-! ## Division by zero (C3, C4, C5) -/

/-- Claim C3: from every reachable state, `setOperation('÷')`, `inputNumber('0')`,
`calculate()` leaves the display equal to `"Error"`. -/
theorem divide_by_zero_absorbing (s : CalculatorTool) (_h : Reachable s) :
    (calculate (inputNumber (setOperation s "÷") "0")).display = "Error" := by
  have h1 : (inputNumber (setOperation s "÷") "0") =
      { (setOperation s "÷") with display := "0", shouldResetDisplay := false } := by
    simp [inputNumber, setOperation]
  rw [h1]
  rw [calculate_divide_zero _ (parseFloat
    (if truthy s.currentOperation && !s.shouldResetDisplay then calculate s else s).display)]
  · simp [setOperation]
  · simp [setOperation]
  · simp [parseFloat_zero, isZero]

/-- Witness for C3: `clear`, `9`, `÷`, `0`, `=` gives `"Error"`. -/
theorem divide_by_zero_absorbing_witness :
    Reachable (run [.clear, .digit 9]) ∧
    (calculate (inputNumber (setOperation (run [.clear, .digit 9]) "÷") "0")).display
      = "Error" :=
  ⟨reachable_run _, divide_by_zero_absorbing _ (reachable_run _)⟩

/-- Claim C4: with `÷` pending, `previousValue` set and a display that parses to
zero, `calculate()` yields display `"Error"`, `previousValue` and
`currentOperation` null and `shouldResetDisplay` false; the display is the
literal text, not a formatted number. -/
theorem calculate_divide_by_zero_state (s : CalculatorTool) (prev : JSNum)
    (hop : s.currentOperation = some "÷") (hprev : s.previousValue = some prev)
    (hz : (parseFloat s.display).isZero = true) :
    (calculate s).display = "Error" ∧ (calculate s).previousValue = none ∧
    (calculate s).currentOperation = none ∧ (calculate s).shouldResetDisplay = false := by
  rw [calculate_divide_zero s prev hop hprev hz]
  exact ⟨rfl, rfl, rfl, rfl⟩

/-- Witness for C4: the state after `8`, `÷`, `0`. -/
theorem calculate_divide_by_zero_state_witness :
    (calculate (run [.digit 8, .operation .divide, .digit 0])).display = "Error" ∧
    (calculate (run [.digit 8, .operation .divide, .digit 0])).previousValue = none ∧
    (calculate (run [.digit 8, .operation .divide, .digit 0])).currentOperation = none ∧
    (calculate (run [.digit 8, .operation .divide, .digit 0])).shouldResetDisplay = false :=
  calculate_divide_by_zero_state (run [.digit 8, .operation .divide, .digit 0]) (ofNat 8)
    (by decide) (by decide) (by decide)

/-- Claim C5, as stated, fails: `9 ÷ 0 = %` shows `"NaN"`, repeated squaring of
`999999999999` shows `"Infinity"`, and after the chained division by zero
`9 ÷ 0 +` both `previousValue` and `currentOperation` are set. -/
theorem nan_and_infinity_reachable :
    (run [.digit 9, .operation .divide, .digit 0, .equals, .percent]).display = "NaN" ∧
    (run (List.replicate 12 (.digit 9) ++
      [.operation .times, .equals, .operation .times, .equals, .operation .times, .equals,
       .operation .times, .equals, .operation .times, .equals])).display = "Infinity" ∧
    (run [.digit 9, .operation .divide, .digit 0, .operation .plus]).previousValue = some nan ∧
    (run [.digit 9, .operation .divide, .digit 0, .operation .plus]).currentOperation
      = some "+" := by
  decide

/-- Claim C5, amended: in every reachable state with `÷` pending and a display
that parses to zero, `calculate()` puts the literal `"Error"` in the display,
never `"NaN"` or `"Infinity"`, and leaves `previousValue` and
`currentOperation` absent. -/
theorem division_by_zero_yields_error (s : CalculatorTool) (h : Reachable s)
    (hop : s.currentOperation = some "÷") (hz : (parseFloat s.display).isZero = true) :
    (press s .equals).display = "Error" ∧ (press s .equals).display ≠ "NaN" ∧
    (press s .equals).display ≠ "Infinity" ∧ (press s .equals).previousValue = none ∧
    (press s .equals).currentOperation = none := by
  have hp : s.previousValue ≠ none := (reachable_iff s h).mp (by simp [hop])
  obtain ⟨prev, hprev⟩ := Option.ne_none_iff_exists'.mp hp
  have hc : press s .equals = calculate s := rfl
  rw [hc, calculate_divide_zero s prev hop hprev hz]
  have h1 : ("Error" : String) ≠ "NaN" := by decide
  have h2 : ("Error" : String) ≠ "Infinity" := by decide
  exact ⟨rfl, h1, h2, rfl, rfl⟩

/-- Witness for the amended C5: the state after `9`, `÷`, `0`. -/
theorem division_by_zero_yields_error_witness :
    (press (run [.digit 9, .operation .divide, .digit 0]) .equals).display = "Error" ∧
    (press (run [.digit 9, .operation .divide, .digit 0]) .equals).display ≠ "NaN" ∧
    (press (run [.digit 9, .operation .divide, .digit 0]) .equals).display ≠ "Infinity" ∧
    (press (run [.digit 9, .operation .divide, .digit 0]) .equals).previousValue = none ∧
    (press (run [.digit 9, .operation .divide, .digit 0]) .equals).currentOperation = none :=
  division_by_zero_yields_error _ (reachable_run _) (by decide) (by decide)

/-! ## Pending operator and operand (C6) -/

/-- Claim C6: in every reachable state `currentOperation` is set if and only if
`previousValue` is set. -/
theorem operation_set_iff_previous_set (s : CalculatorTool) (h : Reachable s) :
    s.currentOperation ≠ none ↔ s.previousValue ≠ none :=
  reachable_iff s h

/-- Witness for C6: the state after `5`, `+`. -/
theorem operation_set_iff_previous_set_witness :
    Reachable (run [.digit 5, .operation .plus]) ∧
    ((run [.digit 5, .operation .plus]).currentOperation ≠ none ↔
      (run [.digit 5, .operation .plus]).previousValue ≠ none) :=
  ⟨reachable_run _, operation_set_iff_previous_set _ (reachable_run _)⟩

/-! ## Typing digits (C9, C10) -/

/-- Claim C9 fails on the code: twelve digits followed by the decimal point
leave a display of 13 characters, because `inputDecimal` appends without the
length check that `inputNumber` makes. -/
theorem decimal_point_exceeds_cap :
    (run (.clear :: List.replicate 12 (.digit 1) ++ [.decimal])).display = "111111111111." ∧
    (run (.clear :: List.replicate 12 (.digit 1) ++ [.decimal])).display.length = 13 := by
  decide

theorem digitString_data (d : Fin 10) : (digitString d).data = [Nat.digitChar d.val] := rfl

theorem digitChar_ne_zero (d : Fin 10) (h : d ≠ 0) : Nat.digitChar d.val ≠ '0' := by
  revert h; revert d; decide

theorem string_ne_zero_of_head (t : String) (c : Char) (r : List Char) (h : t.data = c :: r)
    (hc : c ≠ '0') : t ≠ "0" := by
  intro h0
  rw [h0] at h
  injection h with h1 _
  exact hc h1.symm

/-- Appending typed digits to a display that starts with a non-zero character. -/
theorem typeDigits_append (ds : List (Fin 10)) :
    ∀ (s : CalculatorTool) (c : Char) (r : List Char), s.shouldResetDisplay = false →
      s.display.data = c :: r → c ≠ '0' → (c :: r).length ≤ 12 →
      (typeDigits s ds).display
        = String.mk ((c :: r ++ ds.map (fun d => Nat.digitChar d.val)).take 12) := by
  induction ds with
  | nil =>
    intro s c r _ hd _ hlen
    simp only [typeDigits, List.foldl_nil, List.map_nil, List.append_nil]
    rw [List.take_of_length_le hlen, ← hd]
  | cons d ds ih =>
    intro s c r hr hd hc hlen
    have hne : s.display ≠ "0" := string_ne_zero_of_head _ c r hd hc
    have hlen2 : s.display.length = (c :: r).length := by
      rw [← hd]; rfl
    show (typeDigits (inputNumber s (digitString d)) ds).display = _
    by_cases hl : s.display.length < 12
    · have hstep : inputNumber s (digitString d)
          = { s with display := s.display ++ digitString d } := by
        simp [inputNumber, hr, hne, hl]
      rw [hstep]
      rw [ih { s with display := s.display ++ digitString d } c (r ++ [Nat.digitChar d.val]) hr
        (by simp [String.data_append, hd, digitString_data]) hc
        (by simp at hlen2 ⊢; omega)]
      simp
    · have hstep : inputNumber s (digitString d) = s := by
        simp [inputNumber, hr, hne, hl]
      rw [hstep, ih s c r hr hd hc hlen]
      have h12 : (c :: r).length = 12 := by omega
      congr 1
      rw [List.take_append_of_le_length (by omega), List.take_append_of_le_length (by omega)]

/-- Typing digits from a display that is `"0"` and not waiting for a reset. -/
theorem typeDigits_zero (ds : List (Fin 10)) :
    ∀ (s : CalculatorTool), s.shouldResetDisplay = false → s.display = "0" →
      (typeDigits s ds).display = typedDisplay ds := by
  induction ds with
  | nil => intro s _ h0; simpa [typeDigits, typedDisplay] using h0
  | cons d ds ih =>
    intro s hr h0
    show (typeDigits (inputNumber s (digitString d)) ds).display = _
    have hstep : inputNumber s (digitString d)
        = { s with display := digitString d, shouldResetDisplay := false } := by
      simp [inputNumber, h0]
    rw [hstep]
    by_cases hd : d = 0
    · subst hd
      rw [ih _ rfl rfl]
      simp [typedDisplay]
    · rw [typeDigits_append ds _ (Nat.digitChar d.val) [] rfl rfl (digitChar_ne_zero d hd)
        (by simp)]
      simp [typedDisplay, hd]

/-- Claim C10: digits typed with `inputNumber` from the cleared state show as
the typed sequence without its leading zeros, cut to 12 characters, or `"0"`
when nothing remains; a non-empty sequence of at most 12 digits that does not
start with `0` shows exactly as typed. -/
theorem typed_digits_display (s : CalculatorTool) (ds : List (Fin 10)) :
    (typeDigits (allClear s) ds).display = typedDisplay ds ∧
    (ds ≠ [] → ds.head? ≠ some 0 → ds.length ≤ 12 →
      (typeDigits (allClear s) ds).display = String.mk (ds.map (fun d => Nat.digitChar d.val))) := by
  have h := typeDigits_zero ds (allClear s) rfl rfl
  refine ⟨h, ?_⟩
  intro hne hhead hlen
  rw [h]
  cases ds with
  | nil => exact absurd rfl hne
  | cons d ds =>
    have hd : d ≠ 0 := by intro h0; apply hhead; simp [h0]
    simp only [typedDisplay, List.dropWhile_cons, beq_iff_eq, hd, decide_False]
    simp only [Bool.false_eq_true, if_false, List.isEmpty_cons]
    rw [List.take_of_length_le (by simpa using hlen)]

/-- Witness for C10: typing `0 0 4 2 0`, and typing `4 2 0`. -/
theorem typed_digits_display_witness :
    (typeDigits (allClear initial) [0, 0, 4, 2, 0]).display = typedDisplay [0, 0, 4, 2, 0] ∧
    (typeDigits (allClear initial) [4, 2, 0]).display = "420" :=
  ⟨(typed_digits_display initial [0, 0, 4, 2, 0]).1, (typed_digits_display initial [4, 2, 0]).2 (by decide) (by decide) (by decide)⟩

/-! ## Decimal digits (`Nat.toDigits`) -/

theorem digitChar_isDigit (d : Nat) (h : d < 10) : (Nat.digitChar d).isDigit = true := by
  interval_cases d <;> rfl

theorem digitChar_toNat (d : Nat) (h : d < 10) : (Nat.digitChar d).toNat - 48 = d := by
  interval_cases d <;> rfl

theorem toDigitsCore_append (fuel : Nat) :
    ∀ (n : Nat) (acc : List Char),
      Nat.toDigitsCore 10 fuel n acc = Nat.toDigitsCore 10 fuel n [] ++ acc := by
  induction fuel with
  | zero => intro n acc; simp [Nat.toDigitsCore]
  | succ fuel ih =>
    intro n acc
    simp only [Nat.toDigitsCore]
    split_ifs
    · simp
    · rw [ih (n / 10) (Nat.digitChar (n % 10) :: acc), ih (n / 10) [Nat.digitChar (n % 10)]]
      simp

theorem toDigitsCore_fuel (f1 : Nat) :
    ∀ (n f2 : Nat), n < f1 → n < f2 →
      Nat.toDigitsCore 10 f1 n [] = Nat.toDigitsCore 10 f2 n [] := by
  induction f1 with
  | zero => intro n f2 h; omega
  | succ f1 ih =>
    intro n f2 h1 h2
    obtain ⟨f2, rfl⟩ : ∃ k, f2 = k + 1 := ⟨f2 - 1, by omega⟩
    simp only [Nat.toDigitsCore]
    split_ifs with h0
    · rfl
    · rw [toDigitsCore_append f1, toDigitsCore_append f2,
        ih (n / 10) f2 (by omega) (by omega)]

theorem toDigits_lt_ten (n : Nat) (h : n < 10) : Nat.toDigits 10 n = [Nat.digitChar n] := by
  have h0 : n / 10 = 0 := by omega
  have h1 : n % 10 = n := by omega
  simp [Nat.toDigits, Nat.toDigitsCore, h0, h1]

theorem toDigits_ge_ten (n : Nat) (h : 10 ≤ n) :
    Nat.toDigits 10 n = Nat.toDigits 10 (n / 10) ++ [Nat.digitChar (n % 10)] := by
  have h0 : n / 10 ≠ 0 := by omega
  have hL : Nat.toDigitsCore 10 (n + 1) n []
      = Nat.toDigitsCore 10 n (n / 10) [Nat.digitChar (n % 10)] := by
    simp [Nat.toDigitsCore, h0]
  show Nat.toDigitsCore 10 (n + 1) n []
      = Nat.toDigitsCore 10 (n / 10 + 1) (n / 10) [] ++ [Nat.digitChar (n % 10)]
  rw [hL, toDigitsCore_append, toDigitsCore_fuel n (n / 10) (n / 10 + 1) (by omega) (by omega)]

theorem toDigits_all_digit (n : Nat) : ∀ c ∈ Nat.toDigits 10 n, c.isDigit = true := by
  induction n using Nat.strong_induction_on with
  | _ n ih =>
    by_cases h : n < 10
    · rw [toDigits_lt_ten n h]
      intro c hc
      simp only [List.mem_singleton] at hc
      rw [hc]; exact digitChar_isDigit n h
    · rw [toDigits_ge_ten n (by omega)]
      intro c hc
      rcases List.mem_append.mp hc with hc | hc
      · exact ih (n / 10) (by omega) c hc
      · simp only [List.mem_singleton] at hc
        rw [hc]; exact digitChar_isDigit _ (by omega)

theorem toDigits_ne_nil (n : Nat) : Nat.toDigits 10 n ≠ [] := by
  by_cases h : n < 10
  · rw [toDigits_lt_ten n h]; simp
  · rw [toDigits_ge_ten n (by omega)]; simp

theorem digitsVal_append (xs : List Char) (c : Char) :
    digitsVal (xs ++ [c]) = 10 * digitsVal xs + (c.toNat - 48) := by
  simp [digitsVal, List.foldl_append]

theorem digitsVal_toDigits (n : Nat) : digitsVal (Nat.toDigits 10 n) = n := by
  induction n using Nat.strong_induction_on with
  | _ n ih =>
    by_cases h : n < 10
    · rw [toDigits_lt_ten n h]
      simp [digitsVal, digitChar_toNat n h]
    · rw [toDigits_ge_ten n (by omega), digitsVal_append, ih (n / 10) (by omega),
        digitChar_toNat _ (by omega)]
      omega

theorem toDigits_length_le (e : Nat) :
    ∀ n : Nat, n < 10 ^ (e + 1) → (Nat.toDigits 10 n).length ≤ e + 1 := by
  induction e with
  | zero => intro n h; rw [toDigits_lt_ten n (by simpa using h)]; simp
  | succ e ih =>
    intro n h
    by_cases h10 : n < 10
    · rw [toDigits_lt_ten n h10]; simp
    · rw [toDigits_ge_ten n (by omega)]
      have : n / 10 < 10 ^ (e + 1) := by
        rw [Nat.div_lt_iff_lt_mul (by norm_num)]
        calc n < 10 ^ (e + 1 + 1) := h
          _ = 10 ^ (e + 1) * 10 := by ring
      have := ih (n / 10) this
      simp; omega

theorem toDigits_head_ne_zero (n : Nat) (hn : 0 < n) :
    ∃ c r, Nat.toDigits 10 n = c :: r ∧ c ≠ '0' := by
  induction n using Nat.strong_induction_on with
  | _ n ih =>
    by_cases h : n < 10
    · refine ⟨Nat.digitChar n, [], toDigits_lt_ten n h, ?_⟩
      interval_cases n <;> decide
    · obtain ⟨c, r, hcr, hc⟩ := ih (n / 10) (by omega) (by omega)
      exact ⟨c, r ++ [Nat.digitChar (n % 10)], by rw [toDigits_ge_ten n (by omega), hcr]; rfl, hc⟩

theorem toDigits_mul_pow (s : Nat) (hs : 0 < s) (j : Nat) :
    Nat.toDigits 10 (s * 10 ^ j) = Nat.toDigits 10 s ++ List.replicate j '0' := by
  induction j with
  | zero => simp
  | succ j ih =>
    have hpos : 0 < s * 10 ^ j := Nat.mul_pos hs (by positivity)
    have e : s * 10 ^ (j + 1) = (s * 10 ^ j) * 10 := by ring
    rw [toDigits_ge_ten _ (by rw [e]; omega), e, Nat.mul_div_cancel _ (by norm_num),
      Nat.mul_mod_left, ih, List.replicate_succ', ← List.append_assoc]
    rfl

/-! ## The shape of display texts -/

theorem takeWhile_append_stop (p : Char → Bool) (A B : List Char) (c : Char)
    (hA : ∀ a ∈ A, p a = true) (hc : p c = false) :
    (A ++ c :: B).takeWhile p = A ∧ (A ++ c :: B).dropWhile p = c :: B := by
  induction A with
  | nil => simp [List.takeWhile, List.dropWhile, hc]
  | cons a A ih =>
    have ha : p a = true := hA a (List.mem_cons_self _ _)
    have := ih (fun x hx => hA x (List.mem_cons_of_mem _ hx))
    simp [List.takeWhile, List.dropWhile, ha, this.1, this.2]

theorem takeWhile_all (p : Char → Bool) (A : List Char) (hA : ∀ a ∈ A, p a = true) :
    A.takeWhile p = A ∧ A.dropWhile p = [] := by
  induction A with
  | nil => simp
  | cons a A ih =>
    have ha : p a = true := hA a (List.mem_cons_self _ _)
    have := ih (fun x hx => hA x (List.mem_cons_of_mem _ hx))
    simp [List.takeWhile, List.dropWhile, ha, this.1, this.2]

theorem takeWhile_mem (p : Char → Bool) (A : List Char) : ∀ a ∈ A.takeWhile p, p a = true := by
  intro a ha
  exact (List.mem_takeWhile_imp ha)

theorem not_isDigit_point : ('.' : Char).isDigit = false := by decide

theorem isDecimalBody_iff (b : List Char) :
    isDecimalBody b = true ↔
      ∃ A B : List Char, A ≠ [] ∧ (∀ c ∈ A, c.isDigit = true) ∧ (∀ c ∈ B, c.isDigit = true) ∧
        (b = A ∨ b = A ++ '.' :: B) := by
  constructor
  · intro h
    unfold isDecimalBody at h
    simp only [Bool.and_eq_true, Bool.not_eq_true', List.isEmpty_eq_false] at h
    obtain ⟨h1, h2⟩ := h
    have hsplit : b = b.takeWhile Char.isDigit ++ b.dropWhile Char.isDigit :=
      (List.takeWhile_append_dropWhile _ _).symm
    cases hd : b.dropWhile Char.isDigit with
    | nil =>
      refine ⟨b.takeWhile Char.isDigit, [], h1, takeWhile_mem _ _, by simp, Or.inl ?_⟩
      rw [hd, List.append_nil] at hsplit
      exact hsplit
    | cons c r =>
      rw [hd] at h2
      simp only [Bool.and_eq_true, beq_iff_eq, List.all_eq_true] at h2
      refine ⟨b.takeWhile Char.isDigit, r, h1, takeWhile_mem _ _, h2.2, Or.inr ?_⟩
      rw [hd, h2.1] at hsplit
      exact hsplit
  · rintro ⟨A, B, hA, hAd, hBd, h | h⟩
    · rw [h]
      unfold isDecimalBody
      rw [(takeWhile_all _ A hAd).1, (takeWhile_all _ A hAd).2]
      cases A with
      | nil => exact absurd rfl hA
      | cons a A => rfl
    · rw [h]
      unfold isDecimalBody
      rw [(takeWhile_append_stop _ A B '.' hAd not_isDigit_point).1,
        (takeWhile_append_stop _ A B '.' hAd not_isDigit_point).2]
      cases A with
      | nil => exact absurd rfl hA
      | cons a A => simpa using hBd

theorem isErrorBody_iff (b : List Char) :
    isErrorBody b = true ↔
      ∃ A B : List Char, (∀ c ∈ A, c.isDigit = true) ∧ (∀ c ∈ B, c.isDigit = true) ∧
        (b = "Error".data ++ A ∨ b = "Error".data ++ (A ++ '.' :: B)) := by
  constructor
  · intro h
    unfold isErrorBody at h
    simp only [Bool.and_eq_true] at h
    obtain ⟨h1, h2⟩ := h
    obtain ⟨t, ht⟩ := List.isPrefixOf_iff_prefix.mp h1
    subst ht
    have hdrop : ("Error".data ++ t).drop 5 = t := rfl
    rw [hdrop] at h2
    have hsplit : t = t.takeWhile Char.isDigit ++ t.dropWhile Char.isDigit :=
      (List.takeWhile_append_dropWhile _ _).symm
    cases hd : t.dropWhile Char.isDigit with
    | nil =>
      refine ⟨t.takeWhile Char.isDigit, [], takeWhile_mem _ _, by simp, Or.inl ?_⟩
      rw [hd, List.append_nil] at hsplit
      rw [← hsplit]
    | cons c r =>
      rw [hd] at h2
      simp only [Bool.and_eq_true, beq_iff_eq, List.all_eq_true] at h2
      refine ⟨t.takeWhile Char.isDigit, r, takeWhile_mem _ _, h2.2, Or.inr ?_⟩
      rw [hd, h2.1] at hsplit
      rw [← hsplit]
  · rintro ⟨A, B, hAd, hBd, h | h⟩
    · rw [h]
      unfold isErrorBody
      have hdrop : ("Error".data ++ A).drop 5 = A := rfl
      rw [hdrop, (takeWhile_all _ A hAd).2]
      simp [List.isPrefixOf_iff_prefix]
    · rw [h]
      unfold isErrorBody
      have hdrop : ("Error".data ++ (A ++ '.' :: B)).drop 5 = A ++ '.' :: B := rfl
      rw [hdrop, (takeWhile_append_stop _ A B '.' hAd not_isDigit_point).2]
      simp only [Bool.and_eq_true, beq_self_eq_true, true_and, List.all_eq_true]
      exact ⟨List.isPrefixOf_iff_prefix.mpr (List.prefix_append _ _), hBd⟩

theorem isDigit_ne (c x : Char) (hc : c.isDigit = true) (hx : x.isDigit = false) : c ≠ x := by
  intro h; rw [h, hx] at hc; exact Bool.false_ne_true hc

theorem unsigned_cons (c : Char) (r : List Char) (hc : c ≠ '-') : unsigned (c :: r) = c :: r := by
  unfold unsigned
  split
  · rename_i h; injection h with h1 _; exact absurd h1 hc
  · rfl

theorem unsigned_minus (r : List Char) : unsigned ('-' :: r) = r := rfl

theorem isDecimalBody_head (b : List Char) (h : isDecimalBody b = true) :
    ∃ c r, b = c :: r ∧ c.isDigit = true := by
  obtain ⟨A, B, hA, hAd, _, hb | hb⟩ := (isDecimalBody_iff b).mp h
  all_goals
    cases A with
    | nil => exact absurd rfl hA
    | cons a A => exact ⟨a, _, hb, hAd a (List.mem_cons_self _ _)⟩

theorem isDecimalBody_mem (b : List Char) (h : isDecimalBody b = true) :
    ∀ c ∈ b, c.isDigit = true ∨ c = '.' := by
  obtain ⟨A, B, _, hAd, hBd, hb | hb⟩ := (isDecimalBody_iff b).mp h
  · intro c hc; rw [hb] at hc; exact Or.inl (hAd c hc)
  · intro c hc
    rw [hb] at hc
    rcases List.mem_append.mp hc with hc | hc
    · exact Or.inl (hAd c hc)
    · rcases List.mem_cons.mp hc with hc | hc
      · exact Or.inr hc
      · exact Or.inl (hBd c hc)

theorem count_point_digits (A : List Char) (hA : ∀ c ∈ A, c.isDigit = true) :
    A.count '.' = 0 := by
  rw [List.count_eq_zero]
  intro hmem
  have := hA '.' hmem
  rw [not_isDigit_point] at this
  exact Bool.false_ne_true this

theorem isDecimalBody_count (b : List Char) (h : isDecimalBody b = true) : b.count '.' ≤ 1 := by
  obtain ⟨A, B, _, hAd, hBd, hb | hb⟩ := (isDecimalBody_iff b).mp h
  · rw [hb, count_point_digits A hAd]; omega
  · rw [hb, List.count_append, List.count_cons_self, count_point_digits A hAd,
      count_point_digits B hBd]

theorem isErrorBody_count (b : List Char) (h : isErrorBody b = true) : b.count '.' ≤ 1 := by
  obtain ⟨A, B, hAd, hBd, hb | hb⟩ := (isErrorBody_iff b).mp h
  · rw [hb, List.count_append, count_point_digits A hAd]; decide
  · rw [hb, List.count_append, List.count_append, List.count_cons_self, count_point_digits A hAd,
      count_point_digits B hBd]; decide

theorem isExponentialBody_intro (M E : List Char) (sgn : Char) (hM : isDecimalBody M = true)
    (hE : E ≠ []) (hEd : ∀ c ∈ E, c.isDigit = true) (hs : sgn = '+' ∨ sgn = '-') :
    isExponentialBody (M ++ 'e' :: sgn :: E) = true := by
  have hMe : ∀ c ∈ M, (fun c : Char => c != 'e') c = true := by
    intro c hc
    rcases isDecimalBody_mem M hM c hc with h | h
    · simpa using isDigit_ne c 'e' h (by decide)
    · rw [h]; decide
  unfold isExponentialBody
  rw [(takeWhile_append_stop _ M (sgn :: E) 'e' hMe (by decide)).1,
    (takeWhile_append_stop _ M (sgn :: E) 'e' hMe (by decide)).2, hM]
  cases E with
  | nil => exact absurd rfl hE
  | cons x E =>
    rcases hs with hs | hs <;> subst hs <;> simpa using hEd

theorem isExponentialBody_split (b : List Char) (h : isExponentialBody b = true) :
    ∃ M E : List Char, isDecimalBody M = true ∧ (∀ c ∈ E, c.isDigit = true) ∧
      ∃ x sgn : Char, x ≠ '.' ∧ sgn ≠ '.' ∧ b = M ++ x :: sgn :: E := by
  unfold isExponentialBody at h
  simp only [Bool.and_eq_true] at h
  obtain ⟨h1, h2⟩ := h
  have hsplit : b = b.takeWhile (fun c => c != 'e') ++ b.dropWhile (fun c => c != 'e') :=
    (List.takeWhile_append_dropWhile _ _).symm
  cases hd : b.dropWhile (fun c => c != 'e') with
  | nil => rw [hd] at h2; exact absurd h2 (by simp)
  | cons x r =>
    cases r with
    | nil => rw [hd] at h2; exact absurd h2 (by simp)
    | cons sgn E =>
      rw [hd] at h2
      simp only [Bool.and_eq_true, Bool.or_eq_true, beq_iff_eq, List.all_eq_true] at h2
      have hx : x = 'e' := by
        have := List.head_dropWhile_not (fun c : Char => c != 'e') b (by rw [hd]; simp)
        simp only [hd, List.head_cons] at this
        simpa using this
      refine ⟨_, E, h1, h2.2, x, sgn, by rw [hx]; decide, ?_, by rw [hd] at hsplit; exact hsplit⟩
      rcases h2.1.1 with h | h <;> rw [h] <;> decide

theorem isExponentialBody_head (b : List Char) (h : isExponentialBody b = true) :
    ∃ c r, b = c :: r ∧ c.isDigit = true := by
  obtain ⟨M, E, hM, _, x, sgn, _, _, hb⟩ := isExponentialBody_split b h
  obtain ⟨c, r, hcr, hc⟩ := isDecimalBody_head M hM
  exact ⟨c, r ++ x :: sgn :: E, by rw [hb, hcr]; rfl, hc⟩

theorem isExponentialBody_count (b : List Char) (h : isExponentialBody b = true) :
    b.count '.' ≤ 1 := by
  obtain ⟨M, E, hM, hEd, x, sgn, hx, hs, hb⟩ := isExponentialBody_split b h
  have := isDecimalBody_count M hM
  rw [hb, List.count_append, List.count_cons_of_ne hx.symm, List.count_cons_of_ne hs.symm,
    count_point_digits E hEd]
  omega

theorem isErrorBody_head (b : List Char) (h : isErrorBody b = true) :
    ∃ r, b = 'E' :: r := by
  obtain ⟨A, B, _, _, hb | hb⟩ := (isErrorBody_iff b).mp h
  · exact ⟨_, hb⟩
  · exact ⟨_, hb⟩

theorem isCodeBody_cases (b : List Char) (h : isCodeBody b = true) :
    isDecimalBody b = true ∨ isExponentialBody b = true ∨ b = "NaN".data ∨
      b = "Infinity".data ∨ isErrorBody b = true := by
  unfold isCodeBody at h
  simp only [Bool.or_eq_true, beq_iff_eq] at h
  tauto

theorem isCodeBody_head (b : List Char) (h : isCodeBody b = true) :
    ∃ c r, b = c :: r ∧ c ≠ '-' := by
  rcases isCodeBody_cases b h with h | h | h | h | h
  · obtain ⟨c, r, hb, hc⟩ := isDecimalBody_head b h
    exact ⟨c, r, hb, isDigit_ne c '-' hc (by decide)⟩
  · obtain ⟨c, r, hb, hc⟩ := isExponentialBody_head b h
    exact ⟨c, r, hb, isDigit_ne c '-' hc (by decide)⟩
  · exact ⟨'N', _, h, by decide⟩
  · exact ⟨'I', _, h, by decide⟩
  · obtain ⟨r, hb⟩ := isErrorBody_head b h
    exact ⟨'E', r, hb, by decide⟩

theorem isCodeBody_count (b : List Char) (h : isCodeBody b = true) : b.count '.' ≤ 1 := by
  rcases isCodeBody_cases b h with h | h | h | h | h
  · exact isDecimalBody_count b h
  · exact isExponentialBody_count b h
  · rw [h]; decide
  · rw [h]; decide
  · exact isErrorBody_count b h

theorem isTypedBody_code (b : List Char) (h : isTypedBody b = true) : isCodeBody b = true := by
  unfold isTypedBody at h
  unfold isCodeBody
  simp only [Bool.or_eq_true] at h ⊢
  tauto

theorem isCodeBody_unsigned (b : List Char) (h : isCodeBody b = true) : unsigned b = b := by
  obtain ⟨c, r, hb, hc⟩ := isCodeBody_head b h
  rw [hb]; exact unsigned_cons c r hc

/-- A text whose unsigned part is well-shaped is that part, with or without a minus sign. -/
theorem unsigned_cases (cs : List Char) (h : isCodeBody (unsigned cs) = true) :
    cs = unsigned cs ∨ cs = '-' :: unsigned cs := by
  cases cs with
  | nil => exact Or.inl rfl
  | cons c r =>
    by_cases hc : c = '-'
    · subst hc; exact Or.inr rfl
    · rw [unsigned_cons c r hc]; exact Or.inl rfl

theorem isCodeDisplay_count (t : String) (h : isCodeDisplay t = true) :
    t.data.count '.' ≤ 1 := by
  have hb := isCodeBody_count _ h
  rcases unsigned_cases t.data h with h1 | h1
  · rw [h1]; exact hb
  · rw [h1, List.count_cons_of_ne (by decide)]; exact hb

theorem isTypedBody_append_digit (b : List Char) (d : Char) (h : isTypedBody b = true)
    (hd : d.isDigit = true) : isTypedBody (b ++ [d]) = true := by
  unfold isTypedBody at h ⊢
  simp only [Bool.or_eq_true] at h ⊢
  rcases h with h | h
  · left
    obtain ⟨A, B, hA, hAd, hBd, hb | hb⟩ := (isDecimalBody_iff b).mp h
    · refine (isDecimalBody_iff _).mpr ⟨A ++ [d], [], by simp, ?_, by simp, Or.inl (by rw [hb])⟩
      intro c hc
      rcases List.mem_append.mp hc with hc | hc
      · exact hAd c hc
      · simp only [List.mem_singleton] at hc; rw [hc]; exact hd
    · refine (isDecimalBody_iff _).mpr ⟨A, B ++ [d], hA, hAd, ?_, Or.inr (by rw [hb]; simp)⟩
      intro c hc
      rcases List.mem_append.mp hc with hc | hc
      · exact hBd c hc
      · simp only [List.mem_singleton] at hc; rw [hc]; exact hd
  · right
    obtain ⟨A, B, hAd, hBd, hb | hb⟩ := (isErrorBody_iff b).mp h
    · refine (isErrorBody_iff _).mpr ⟨A ++ [d], [], ?_, by simp, Or.inl (by rw [hb]; simp)⟩
      intro c hc
      rcases List.mem_append.mp hc with hc | hc
      · exact hAd c hc
      · simp only [List.mem_singleton] at hc; rw [hc]; exact hd
    · refine (isErrorBody_iff _).mpr ⟨A, B ++ [d], hAd, ?_, Or.inr (by rw [hb]; simp)⟩
      intro c hc
      rcases List.mem_append.mp hc with hc | hc
      · exact hBd c hc
      · simp only [List.mem_singleton] at hc; rw [hc]; exact hd

theorem isTypedBody_append_point (b : List Char) (h : isTypedBody b = true)
    (hp : '.' ∉ b) : isTypedBody (b ++ ['.']) = true := by
  unfold isTypedBody at h ⊢
  simp only [Bool.or_eq_true] at h ⊢
  rcases h with h | h
  · left
    obtain ⟨A, B, hA, hAd, hBd, hb | hb⟩ := (isDecimalBody_iff b).mp h
    · exact (isDecimalBody_iff _).mpr ⟨A, [], hA, hAd, by simp, Or.inr (by rw [hb])⟩
    · exact absurd (by rw [hb]; simp) hp
  · right
    obtain ⟨A, B, hAd, hBd, hb | hb⟩ := (isErrorBody_iff b).mp h
    · exact (isErrorBody_iff _).mpr ⟨A, [], hAd, by simp, Or.inr (by rw [hb]; simp)⟩
    · exact absurd (by rw [hb]; simp) hp

/-- Appending to a display extends its unsigned part. -/
theorem unsigned_append (cs x : List Char) (h : isCodeBody (unsigned cs) = true) :
    unsigned (cs ++ x) = unsigned cs ++ x := by
  obtain ⟨c, r, hb, hc⟩ := isCodeBody_head _ h
  rcases unsigned_cases cs h with h1 | h1
  · rw [hb] at h1
    rw [h1, List.cons_append, unsigned_cons c _ hc, unsigned_cons c _ hc]
    rfl
  · rw [h1, List.cons_append, unsigned_minus, unsigned_minus]

theorem shortestFrom_digits (mag : Nat) (n : Int) :
    ∀ fuel k : Nat, (shortestFrom mag n fuel k).1 ≠ [] ∧
      ∀ c ∈ (shortestFrom mag n fuel k).1, c.isDigit = true := by
  intro fuel
  induction fuel with
  | zero => intro k; exact ⟨toDigits_ne_nil _, toDigits_all_digit _⟩
  | succ fuel ih =>
    intro k
    unfold shortestFrom
    split
    · split_ifs
      · exact ⟨by simp, by intro c hc; simp only [List.mem_singleton] at hc; rw [hc]; rfl⟩
      · exact ⟨toDigits_ne_nil _, toDigits_all_digit _⟩
    · exact ih (k + 1)

theorem expSuffix_eq (e : Int) :
    ∃ sgn : Char, (sgn = '+' ∨ sgn = '-') ∧ expSuffix e = 'e' :: sgn :: absDigits e := by
  unfold expSuffix
  split_ifs
  · exact ⟨'-', Or.inr rfl, rfl⟩
  · exact ⟨'+', Or.inl rfl, rfl⟩

theorem exponent_layout_body (ds : List Char) (e : Int) (hne : ds ≠ [])
    (hd : ∀ c ∈ ds, c.isDigit = true) :
    isExponentialBody (ds.take 1 ++ '.' :: (ds.drop 1 ++ expSuffix e)) = true := by
  obtain ⟨sgn, hs, he⟩ := expSuffix_eq e
  have hM : isDecimalBody (ds.take 1 ++ '.' :: ds.drop 1) = true :=
    (isDecimalBody_iff _).mpr ⟨ds.take 1, ds.drop 1,
      by cases ds with
         | nil => exact absurd rfl hne
         | cons a r => simp,
      fun c hc => hd c (List.mem_of_mem_take hc),
      fun c hc => hd c (List.mem_of_mem_drop hc), Or.inr rfl⟩
  have := isExponentialBody_intro _ (absDigits e) sgn hM (toDigits_ne_nil _)
    (toDigits_all_digit _) hs
  rw [he]
  simpa using this

theorem layout_body (ds : List Char) (n : Int) (hne : ds ≠ [])
    (hd : ∀ c ∈ ds, c.isDigit = true) :
    isDecimalBody (layout ds n) = true ∨ isExponentialBody (layout ds n) = true := by
  unfold layout
  split_ifs with h1 h2 h3 h4
  · left
    refine (isDecimalBody_iff _).mpr ⟨_, [], ?_, ?_, by simp, Or.inl rfl⟩
    · simp [hne]
    · intro c hc
      rcases List.mem_append.mp hc with hc | hc
      · exact hd c hc
      · rw [List.eq_of_mem_replicate hc]; rfl
  · left
    refine (isDecimalBody_iff _).mpr ⟨ds.take n.toNat, ds.drop n.toNat, ?_,
      fun c hc => hd c (List.mem_of_mem_take hc),
      fun c hc => hd c (List.mem_of_mem_drop hc), Or.inr rfl⟩
    cases ds with
    | nil => exact absurd rfl hne
    | cons a r =>
      obtain ⟨m, hm⟩ : ∃ m, n.toNat = m + 1 := ⟨n.toNat - 1, by omega⟩
      rw [hm]; simp
  · left
    refine (isDecimalBody_iff _).mpr ⟨['0'], _, by simp, ?_, ?_, Or.inr rfl⟩
    · intro c hc; simp only [List.mem_singleton] at hc; rw [hc]; rfl
    · intro c hc
      rcases List.mem_append.mp hc with hc | hc
      · rw [List.eq_of_mem_replicate hc]; rfl
      · exact hd c hc
  · right
    obtain ⟨sgn, hs, he⟩ := expSuffix_eq (n - 1)
    rw [he]
    exact isExponentialBody_intro ds _ sgn
      ((isDecimalBody_iff _).mpr ⟨ds, [], hne, hd, by simp, Or.inl rfl⟩)
      (toDigits_ne_nil _) (toDigits_all_digit _) hs
  · right
    exact exponent_layout_body ds (n - 1) hne hd

theorem signed_code (s : Bool) (b : List Char) (h : isCodeBody b = true) :
    isCodeBody (unsigned ((if s then ['-'] else []) ++ b)) = true := by
  cases s
  · simpa [isCodeBody_unsigned b h] using h
  · simpa [unsigned_minus] using h

theorem toString_code (x : JSNum) : isCodeDisplay (JSNum.toString x) = true := by
  unfold isCodeDisplay JSNum.toString
  cases x with
  | nan => decide
  | inf s => cases s <;> decide
  | fin s m =>
    cases m with
    | zero => cases s <;> decide
    | succ m =>
      show isCodeBody (unsigned ((if s then ['-'] else []) ++ layout _ _)) = true
      apply signed_code
      have hs := shortestFrom_digits (m + 1) (decExp (m + 1)) 17 1
      have := layout_body (shortest (m + 1)).1 (shortest (m + 1)).2 hs.1 hs.2
      unfold isCodeBody
      simp only [Bool.or_eq_true]
      tauto

theorem toExponential6_code (x : JSNum) : isCodeDisplay (toExponential6 x) = true := by
  unfold isCodeDisplay toExponential6
  cases x with
  | nan => decide
  | inf s => cases s <;> decide
  | fin s m =>
    cases m with
    | zero => cases s <;> decide
    | succ m =>
      show isCodeBody (unsigned ((if s then ['-'] else []) ++ _)) = true
      apply signed_code
      have := exponent_layout_body (Nat.toDigits 10 (expParts (m + 1)).1) (expParts (m + 1)).2
        (toDigits_ne_nil _) (toDigits_all_digit _)
      unfold isCodeBody
      simp only [Bool.or_eq_true]
      tauto

theorem resultText_code (x : JSNum) : isCodeDisplay (resultText x) = true := by
  unfold resultText
  split_ifs
  · exact toExponential6_code x
  · exact toString_code x

theorem digit_typed (d : Fin 10) : isTypedDisplay (digitString d) = true := by
  revert d; decide

theorem zero_typed : isTypedDisplay "0" = true := by decide

theorem zero_point_typed : isTypedDisplay "0." = true := by decide

theorem error_typed : isTypedDisplay "Error" = true := by decide

theorem typed_display_code (t : String) (h : isTypedDisplay t = true) :
    isCodeDisplay t = true := isTypedBody_code _ h

theorem inputNumber_shape (s : CalculatorTool) (d : Fin 10)
    (h : isCodeDisplay s.display = true ∧
      (s.shouldResetDisplay = false → isTypedDisplay s.display = true)) :
    isCodeDisplay (inputNumber s (digitString d)).display = true ∧
      ((inputNumber s (digitString d)).shouldResetDisplay = false →
        isTypedDisplay (inputNumber s (digitString d)).display = true) := by
  unfold inputNumber
  split_ifs with h1 h2
  · exact ⟨typed_display_code _ (digit_typed d), fun _ => digit_typed d⟩
  · have hr : s.shouldResetDisplay = false := by
      cases hs : s.shouldResetDisplay
      · rfl
      · rw [hs] at h1; simp at h1
    have ht := h.2 hr
    have : isTypedDisplay (s.display ++ digitString d) = true := by
      unfold isTypedDisplay at ht ⊢
      rw [String.data_append, unsigned_append _ _ (isTypedBody_code _ ht), digitString_data]
      exact isTypedBody_append_digit _ _ ht (digitChar_isDigit _ d.isLt)
    exact ⟨typed_display_code _ this, fun _ => this⟩
  · exact h

theorem mem_unsigned (cs : List Char) (c : Char) (h : c ∈ unsigned cs) : c ∈ cs := by
  unfold unsigned at h
  split at h
  · exact List.mem_cons_of_mem _ h
  · exact h

theorem inputDecimal_shape (s : CalculatorTool)
    (h : isCodeDisplay s.display = true ∧
      (s.shouldResetDisplay = false → isTypedDisplay s.display = true)) :
    isCodeDisplay (inputDecimal s).display = true ∧
      ((inputDecimal s).shouldResetDisplay = false →
        isTypedDisplay (inputDecimal s).display = true) := by
  unfold inputDecimal
  split_ifs with h1 h2
  · exact ⟨typed_display_code _ zero_point_typed, fun _ => zero_point_typed⟩
  · have hr : s.shouldResetDisplay = false := by simpa using h1
    have ht := h.2 hr
    have hp : '.' ∉ s.display.data := by simpa using h2
    have : isTypedDisplay (s.display ++ ".") = true := by
      unfold isTypedDisplay at ht ⊢
      rw [String.data_append, unsigned_append _ _ (isTypedBody_code _ ht)]
      exact isTypedBody_append_point _ ht (fun hm => hp (mem_unsigned _ _ hm))
    exact ⟨typed_display_code _ this, fun _ => this⟩
  · exact h

theorem calculate_shape (s : CalculatorTool)
    (h : isCodeDisplay s.display = true ∧
      (s.shouldResetDisplay = false → isTypedDisplay s.display = true)) :
    isCodeDisplay (calculate s).display = true ∧
      ((calculate s).shouldResetDisplay = false →
        isTypedDisplay (calculate s).display = true) := by
  unfold calculate
  split
  · split_ifs
    · exact h
    · exact ⟨resultText_code _, fun hr => absurd hr (by simp [storeResult])⟩
    · exact ⟨resultText_code _, fun hr => absurd hr (by simp [storeResult])⟩
    · exact ⟨resultText_code _, fun hr => absurd hr (by simp [storeResult])⟩
    · exact ⟨typed_display_code _ error_typed, fun _ => error_typed⟩
    · exact ⟨resultText_code _, fun hr => absurd hr (by simp [storeResult])⟩
    · exact h
  · exact h

theorem toggleSign_shape (s : CalculatorTool)
    (h : isCodeDisplay s.display = true ∧
      (s.shouldResetDisplay = false → isTypedDisplay s.display = true)) :
    isCodeDisplay (toggleSign s).display = true ∧
      ((toggleSign s).shouldResetDisplay = false →
        isTypedDisplay (toggleSign s).display = true) := by
  rw [toggleSign_shouldResetDisplay]
  unfold toggleSign
  split_ifs with h0
  · split
    · rename_i rest hd
      unfold isCodeDisplay isTypedDisplay at h ⊢
      rw [hd, unsigned_minus] at h
      show isCodeBody (unsigned rest) = true ∧ (_ → isTypedBody (unsigned rest) = true)
      rw [isCodeBody_unsigned rest h.1]
      exact h
    · rename_i cs hne
      have hu : unsigned s.display.data = s.display.data := by
        unfold unsigned
        split
        · rename_i r hr; exact absurd hr (hne r)
        · rfl
      unfold isCodeDisplay isTypedDisplay at h ⊢
      rw [hu] at h
      exact h
  · exact h

/-- Every button keeps the display well-shaped, and extendable while a number is typed. -/
theorem press_shape (s : CalculatorTool) (k : Key)
    (h : isCodeDisplay s.display = true ∧
      (s.shouldResetDisplay = false → isTypedDisplay s.display = true)) :
    isCodeDisplay (press s k).display = true ∧
      ((press s k).shouldResetDisplay = false → isTypedDisplay (press s k).display = true) := by
  cases k with
  | digit d => exact inputNumber_shape s d h
  | decimal => exact inputDecimal_shape s h
  | operation o =>
    refine ⟨?_, fun hr => absurd hr (by simp [press, setOperation])⟩
    show isCodeDisplay (setOperation s o.symbol).display = true
    unfold setOperation
    split_ifs
    · exact (calculate_shape s h).1
    · exact h.1
  | equals => exact calculate_shape s h
  | sign => exact toggleSign_shape s h
  | percent => exact ⟨toString_code _, fun hr => absurd hr (by simp [press, percentage])⟩
  | clear => exact ⟨typed_display_code _ zero_typed, fun _ => zero_typed⟩

theorem reachable_shape (s : CalculatorTool) (h : Reachable s) :
    isCodeDisplay s.display = true ∧
      (s.shouldResetDisplay = false → isTypedDisplay s.display = true) := by
  induction h with
  | init => exact ⟨typed_display_code _ zero_typed, fun _ => zero_typed⟩
  | step k _ ih => exact press_shape _ k ih

/-! ## Display shape (C7, C8) -/

/-- Claim C7, as stated, fails: after `9 ÷ 0 =` the digit `5` is appended to the
error text, and `"Error5"` is neither a decimal numeral, nor `"Error"`, nor an
exponential-notation numeral. -/
theorem malformed_display_reachable :
    Reachable (run [.digit 9, .operation .divide, .digit 0, .equals, .digit 5]) ∧
    (run [.digit 9, .operation .divide, .digit 0, .equals, .digit 5]).display = "Error5" ∧
    isSpecDisplay (run [.digit 9, .operation .divide, .digit 0, .equals, .digit 5]).display
      = false :=
  ⟨reachable_run _, by decide, by decide⟩

/-- Claim C7, amended: in every reachable state the display is, after an
optional minus sign, a decimal numeral, an exponential-notation numeral,
`NaN`, `Infinity`, or the text `Error` followed by typed digits with at most
one decimal point. -/
theorem reachable_display_shape (s : CalculatorTool) (h : Reachable s) :
    isCodeDisplay s.display = true :=
  (reachable_shape s h).1

/-- Witness for the amended C7: the state after `9 ÷ 0 = 5`. -/
theorem reachable_display_shape_witness :
    Reachable (run [.digit 9, .operation .divide, .digit 0, .equals, .digit 5]) ∧
    isCodeDisplay (run [.digit 9, .operation .divide, .digit 0, .equals, .digit 5]).display
      = true :=
  ⟨reachable_run _, reachable_display_shape _ (reachable_run _)⟩

/-- Claim C8: in every reachable state the display contains at most one `.`. -/
theorem reachable_one_decimal_point (s : CalculatorTool) (h : Reachable s) :
    s.display.data.count '.' ≤ 1 :=
  isCodeDisplay_count s.display (reachable_shape s h).1

/-- Witness for C8: the state after `1 . 5 .`. -/
theorem reachable_one_decimal_point_witness :
    Reachable (run [.digit 1, .decimal, .digit 5, .decimal]) ∧
    (run [.digit 1, .decimal, .digit 5, .decimal]).display.data.count '.' ≤ 1 :=
  ⟨reachable_run _, reachable_one_decimal_point _ (reachable_run _)⟩

/-! ## Exact arithmetic on integers below `2^53` -/

theorem unit_pos : 0 < unit := by unfold unit; positivity

theorem excessStep_inv (q acc i : Nat) (h : acc = 0 ∨ 2 ^ 52 ≤ q / 2 ^ acc) :
    excessStep q acc i = 0 ∨ 2 ^ 52 ≤ q / 2 ^ (excessStep q acc i) := by
  unfold excessStep
  split_ifs with h1
  · exact Or.inr h1
  · exact h

theorem foldl_excessStep_inv (q : Nat) (l : List Nat) :
    ∀ acc, (acc = 0 ∨ 2 ^ 52 ≤ q / 2 ^ acc) →
      (l.foldl (excessStep q) acc = 0 ∨ 2 ^ 52 ≤ q / 2 ^ (l.foldl (excessStep q) acc)) := by
  induction l with
  | nil => intro acc h; exact h
  | cons i l ih => intro acc h; exact ih _ (excessStep_inv q acc i h)

theorem excessBits_inv (q : Nat) : excessBits q = 0 ∨ 2 ^ 52 ≤ q / 2 ^ excessBits q :=
  foldl_excessStep_inv q _ 0 (Or.inl rfl)

/-- An integer below `2^53` has no excess bits beyond the unit scale. -/
theorem excessBits_dvd_unit (n : Nat) (hn : n < 2 ^ 53) : 2 ^ excessBits (n * unit) ∣ unit := by
  rcases excessBits_inv (n * unit) with h | h
  · rw [h]; simp
  · have hle : excessBits (n * unit) ≤ 1074 := by
      by_contra hgt
      have h1 : 2 ^ 1075 ≤ 2 ^ excessBits (n * unit) :=
        Nat.pow_le_pow_right (by norm_num) (by omega)
      have h2 : n * unit / 2 ^ excessBits (n * unit) ≤ n * unit / 2 ^ 1075 :=
        Nat.div_le_div_left h1 (by positivity)
      have h3 : n * unit / 2 ^ 1075 < 2 ^ 52 := by
        rw [Nat.div_lt_iff_lt_mul (by positivity)]
        calc n * unit < 2 ^ 53 * unit := Nat.mul_lt_mul_of_pos_right hn unit_pos
          _ = 2 ^ 52 * 2 ^ 1075 := by unfold unit; rw [← pow_add, ← pow_add]
      omega
    unfold unit
    exact Nat.pow_dvd_pow 2 hle

/-- Rounding leaves an exactly representable ratio unchanged. -/
theorem roundScaled_exact (N D : Nat) (hD : 0 < D) (h : D * 2 ^ excessBits (N / D) ∣ N) :
    roundScaled N D = N / D := by
  unfold roundScaled roundDiv
  obtain ⟨t, ht⟩ := h
  have hpos : 0 < D * 2 ^ excessBits (N / D) := Nat.mul_pos hD (by positivity)
  have hmod : N % (D * 2 ^ excessBits (N / D)) = 0 := Nat.mod_eq_zero_of_dvd ⟨t, ht⟩
  rw [hmod]
  simp only [Nat.mul_zero, hpos, if_true]
  rw [← Nat.div_div_eq_div_mul]
  refine Nat.div_mul_cancel ?_
  have hND : N / D = 2 ^ excessBits (N / D) * t := by
    conv_lhs => rw [ht, Nat.mul_assoc, Nat.mul_div_cancel_left _ hD]
  exact ⟨t, hND⟩

theorem ofMag_int (s : Bool) (n : Nat) (hn : n < 2 ^ 53) : ofMag s (n * unit) = fin s (n * unit) := by
  unfold ofMag
  have : ¬ maxMag < n * unit := by
    have h1 : n * unit ≤ (2 ^ 53 - 1) * unit := Nat.mul_le_mul_right _ (by omega)
    have h2 : (2 ^ 53 - 1) * unit ≤ maxMag := by
      unfold maxMag unit
      exact Nat.mul_le_mul_left _ (Nat.pow_le_pow_right (by norm_num) (by norm_num))
    omega
  simp [this]

theorem roundScaled_int (n : Nat) (hn : n < 2 ^ 53) : roundScaled (n * unit) 1 = n * unit := by
  rw [roundScaled_exact _ 1 (by norm_num)]
  · simp
  · simp only [Nat.div_one, Nat.one_mul]
    exact Dvd.dvd.mul_left (excessBits_dvd_unit n hn) n

theorem roundScaled_mul (a b : Nat) (h : a * b < 2 ^ 53) :
    roundScaled (a * unit * (b * unit)) unit = a * b * unit := by
  have e : a * unit * (b * unit) = unit * (a * b * unit) := by ring
  have hq : a * unit * (b * unit) / unit = a * b * unit := by
    rw [e, Nat.mul_div_cancel_left _ unit_pos]
  rw [roundScaled_exact _ unit unit_pos, hq]
  rw [hq, e]
  exact Nat.mul_dvd_mul_left unit (Dvd.dvd.mul_left (excessBits_dvd_unit (a * b) h) (a * b))

theorem ofDecimal_int (s : Bool) (n : Nat) (hn : n < 2 ^ 53) :
    ofDecimal s n 0 = fin s (n * unit) := by
  show ofMag s (roundScaled (n * 10 ^ 0 * unit) 1) = _
  rw [pow_zero, Nat.mul_one, roundScaled_int n hn, ofMag_int s n hn]

theorem ofDecimal_nat (s : Bool) (c j : Nat) (h : c * 10 ^ j < 2 ^ 53) :
    ofDecimal s c (j : Int) = fin s (c * 10 ^ j * unit) := by
  show ofMag s (roundScaled (c * 10 ^ j * unit) 1) = _
  rw [roundScaled_int _ h, ofMag_int s _ h]

/-! ## Number::toString on integers -/

theorem decExp_int (n : Nat) (hn : 0 < n) :
    decExp (n * unit) = ((Nat.toDigits 10 n).length : Int) := by
  unfold decExp
  have h1 : unit ≤ n * unit := Nat.le_mul_of_pos_left unit hn
  rw [if_pos h1, Nat.mul_div_cancel _ unit_pos]

theorem mem_candidates (mag : Nat) (n : Int) (k c : Nat) :
    c ∈ candidates mag n k ↔
      c = (scaleDec mag ((k : Int) - n)).1 / (scaleDec mag ((k : Int) - n)).2 ∨
      c = (scaleDec mag ((k : Int) - n)).1 / (scaleDec mag ((k : Int) - n)).2 + 1 := by
  unfold candidates
  simp only []
  split_ifs <;> simp <;> tauto

theorem scaleDec_int (n L k : Nat) (hk : k ≤ L) :
    (scaleDec (n * unit) ((k : Int) - (L : Int))).1 / (scaleDec (n * unit) ((k : Int) - (L : Int))).2
      = n / 10 ^ (L - k) := by
  obtain ⟨j, hj⟩ : ∃ j, L = k + j := ⟨L - k, by omega⟩
  subst hj
  cases j with
  | zero =>
    have : ((k : Int) - ((k + 0 : Nat) : Int)) = Int.ofNat 0 := by simp
    rw [this]
    simp [scaleDec, Nat.mul_div_cancel _ unit_pos]
  | succ j =>
    have : ((k : Int) - ((k + (j + 1) : Nat) : Int)) = Int.negSucc j := by
      rw [Int.negSucc_eq]; push_cast; ring
    rw [this]
    simp only [scaleDec, Nat.add_sub_cancel_left]
    rw [Nat.mul_comm n unit, Nat.mul_div_mul_left _ _ unit_pos]

/-- For an integer `n` below `10^12`, a candidate that converts back to `n` is `n`
without some of its trailing zeros. -/
theorem candidate_int (n L k c : Nat) (hn : n < 10 ^ 12) (hL : L ≤ 12) (hk : k ≤ L)
    (hc : c ∈ candidates (n * unit) (L : Int) k)
    (hchk : ofDecimal false c ((L : Int) - (k : Int)) = fin false (n * unit)) :
    c * 10 ^ (L - k) = n := by
  rw [mem_candidates, scaleDec_int n L k hk] at hc
  have hpow : 10 ^ (L - k) ≤ 10 ^ 12 := Nat.pow_le_pow_right (by norm_num) (by omega)
  have hdiv : n / 10 ^ (L - k) * 10 ^ (L - k) ≤ n := Nat.div_mul_le_self _ _
  have hb : c * 10 ^ (L - k) < 2 ^ 53 := by
    have : c * 10 ^ (L - k) ≤ n + 10 ^ (L - k) := by
      rcases hc with hc | hc
      · rw [hc]; exact le_trans hdiv (Nat.le_add_right _ _)
      · rw [hc, Nat.add_mul, Nat.one_mul]; exact Nat.add_le_add_right hdiv _
    have h12 : (10 : Nat) ^ 12 + 10 ^ 12 < 2 ^ 53 := by norm_num
    omega
  have hcast : (L : Int) - (k : Int) = ((L - k : Nat) : Int) := by omega
  rw [hcast, ofDecimal_nat false c (L - k) hb] at hchk
  injection hchk with _ hm
  exact Nat.eq_of_mul_eq_mul_right unit_pos hm

theorem shortestFrom_int (n : Nat) (hn0 : 0 < n) (hn : n < 10 ^ 12) :
    ∀ fuel k : Nat, k ≤ (Nat.toDigits 10 n).length → (Nat.toDigits 10 n).length < k + fuel →
      layout (shortestFrom (n * unit) ((Nat.toDigits 10 n).length : Int) fuel k).1
          (shortestFrom (n * unit) ((Nat.toDigits 10 n).length : Int) fuel k).2
        = Nat.toDigits 10 n := by
  have hL : (Nat.toDigits 10 n).length ≤ 12 := toDigits_length_le 11 n hn
  intro fuel
  induction fuel with
  | zero => intro k h1 h2; omega
  | succ fuel ih =>
    intro k hk hfuel
    unfold shortestFrom
    cases hrt : roundTrip (n * unit) ((Nat.toDigits 10 n).length : Int) k with
    | some c =>
      simp only []
      have hmem : c ∈ candidates (n * unit) ((Nat.toDigits 10 n).length : Int) k :=
        List.mem_of_find?_eq_some hrt
      have hchk := List.find?_some hrt
      simp only [decide_eq_true_eq] at hchk
      have hcn := candidate_int n _ k c hn hL hk hmem hchk
      have hc0 : 0 < c := by
        rcases Nat.eq_zero_or_pos c with h | h
        · rw [h] at hcn; omega
        · exact h
      have hdig := toDigits_mul_pow c hc0 ((Nat.toDigits 10 n).length - k)
      rw [hcn] at hdig
      have hlen : (Nat.toDigits 10 n).length
          = (Nat.toDigits 10 c).length + ((Nat.toDigits 10 n).length - k) := by
        conv_lhs => rw [hdig]
        simp
      split_ifs with h10
      · exfalso
        have h1 : Nat.toDigits 10 c = Nat.toDigits 10 1 ++ List.replicate k '0' := by
          rw [h10]; simpa using toDigits_mul_pow 1 (by norm_num) k
        have h2 : (Nat.toDigits 10 c).length = k + 1 := by
          rw [h1]; simp [toDigits_lt_ten 1 (by norm_num)]
        omega
      · unfold layout
        have hcond : ((Nat.toDigits 10 c).length : Int) ≤ ((Nat.toDigits 10 n).length : Int) ∧
            ((Nat.toDigits 10 n).length : Int) ≤ 21 := by
          constructor <;> omega
        rw [if_pos hcond]
        have : ((Nat.toDigits 10 n).length : Int).toNat - (Nat.toDigits 10 c).length
            = (Nat.toDigits 10 n).length - k := by
          simp only [Int.toNat_ofNat]; omega
        rw [this, ← hdig]
    | none =>
      simp only []
      by_cases hkL : k = (Nat.toDigits 10 n).length
      · exfalso
        have hnone := List.find?_eq_none.mp hrt n
          ((mem_candidates _ _ _ _).mpr (Or.inl (by
            rw [scaleDec_int n _ k hk, hkL]; simp)))
        apply hnone
        simp only [decide_eq_true_eq]
        rw [hkL, Int.sub_self]
        exact ofDecimal_int false n (by
          have : (10 : Nat) ^ 12 < 2 ^ 53 := by norm_num
          omega)
      · exact ih (k + 1) (by omega) (by omega)

theorem shortest_int (n : Nat) (hn0 : 0 < n) (hn : n < 10 ^ 12) :
    layout (shortest (n * unit)).1 (shortest (n * unit)).2 = Nat.toDigits 10 n := by
  unfold shortest
  rw [decExp_int n hn0]
  have hL : (Nat.toDigits 10 n).length ≤ 12 := toDigits_length_le 11 n hn
  have h1 : 1 ≤ (Nat.toDigits 10 n).length := by
    have := toDigits_ne_nil n
    cases hd : Nat.toDigits 10 n with
    | nil => exact absurd hd this
    | cons a r => simp
  exact shortestFrom_int n hn0 hn 17 1 h1 (by omega)

/-! ## Integer arithmetic of the Number operations -/

theorem add_fin (sa sb : Bool) (na nb : Nat) (ha : na < 2 ^ 53) (hb : nb < 2 ^ 53)
    (hs : sa = sb → na + nb < 2 ^ 53) :
    add (fin sa (na * unit)) (fin sb (nb * unit)) =
      if sa = sb then fin sa ((na + nb) * unit)
      else if na = nb then fin false 0
      else if nb < na then fin sa ((na - nb) * unit)
      else fin sb ((nb - na) * unit) := by
  simp only [add]
  have hu := unit_pos
  by_cases h1 : sa = sb
  · rw [if_pos h1, if_pos h1, ← Nat.add_mul, roundScaled_int _ (hs h1), ofMag_int _ _ (hs h1)]
  · rw [if_neg h1, if_neg h1]
    by_cases h2 : na = nb
    · rw [if_pos (by rw [h2]), if_pos h2]
    · rw [if_neg (fun h => h2 (Nat.eq_of_mul_eq_mul_right hu h)), if_neg h2]
      by_cases h3 : nb < na
      · rw [if_pos (Nat.mul_lt_mul_of_pos_right h3 hu), if_pos h3, ← Nat.sub_mul,
          roundScaled_int _ (by omega), ofMag_int _ _ (by omega)]
      · rw [if_neg (fun h => h3 (Nat.lt_of_mul_lt_mul_right h)), if_neg h3, ← Nat.sub_mul,
          roundScaled_int _ (by omega), ofMag_int _ _ (by omega)]

theorem isInt_add (x y : JSNum) (a b : Int) (hx : IsInt x a) (hy : IsInt y b)
    (ha : a.natAbs < 2 ^ 53) (hb : b.natAbs < 2 ^ 53) (hab : (a + b).natAbs < 2 ^ 53) :
    IsInt (add x y) (a + b) := by
  obtain ⟨sa, rfl, hsa⟩ := hx
  obtain ⟨sb, rfl, hsb⟩ := hy
  have hsame : sa = sb → a.natAbs + b.natAbs = (a + b).natAbs := by
    intro h
    by_cases ha0 : a = 0
    · subst ha0; simp
    · by_cases hb0 : b = 0
      · subst hb0; simp
      · have h1 := hsa ha0
        have h2 := hsb hb0
        rw [h1, h2] at h
        simp only [decide_eq_decide] at h
        omega
  rw [add_fin sa sb _ _ ha hb (fun h => by rw [hsame h]; exact hab)]
  by_cases h1 : sa = sb
  · rw [if_pos h1, hsame h1]
    refine ⟨sa, rfl, fun hne => ?_⟩
    by_cases ha0 : a = 0
    · have hb0 : b ≠ 0 := by omega
      rw [h1, hsb hb0, ha0]; simp
    · rw [hsa ha0]
      by_cases hb0 : b = 0
      · rw [hb0]; simp
      · have h2 := hsb hb0
        rw [hsa ha0, h2] at h1
        simp only [decide_eq_decide] at h1
        simp only [decide_eq_decide]
        omega
  · rw [if_neg h1]
    have hdiff : a ≠ 0 → b ≠ 0 → ¬ (a < 0 ↔ b < 0) := by
      intro ha0 hb0 hiff
      apply h1
      rw [hsa ha0, hsb hb0]
      simp only [decide_eq_decide]
      exact hiff
    by_cases h2 : a.natAbs = b.natAbs
    · rw [if_pos h2]
      have hz : a + b = 0 := by
        by_cases ha0 : a = 0
        · omega
        · by_cases hb0 : b = 0
          · omega
          · have := hdiff ha0 hb0; omega
      rw [hz]
      exact ⟨false, by simp, fun h => absurd rfl h⟩
    · rw [if_neg h2]
      by_cases h3 : b.natAbs < a.natAbs
      · rw [if_pos h3]
        have ha0 : a ≠ 0 := by omega
        have hm : a.natAbs - b.natAbs = (a + b).natAbs := by
          by_cases hb0 : b = 0
          · subst hb0; simp
          · have := hdiff ha0 hb0; omega
        rw [hm]
        refine ⟨sa, rfl, fun _ => ?_⟩
        rw [hsa ha0]
        simp only [decide_eq_decide]
        by_cases hb0 : b = 0
        · subst hb0; simp
        · have := hdiff ha0 hb0; omega
      · rw [if_neg h3]
        have hb0 : b ≠ 0 := by omega
        have hm : b.natAbs - a.natAbs = (a + b).natAbs := by
          by_cases ha0 : a = 0
          · subst ha0; simp
          · have := hdiff ha0 hb0; omega
        rw [hm]
        refine ⟨sb, rfl, fun _ => ?_⟩
        rw [hsb hb0]
        simp only [decide_eq_decide]
        by_cases ha0 : a = 0
        · subst ha0; simp
        · have := hdiff ha0 hb0; omega

theorem isInt_neg (x : JSNum) (a : Int) (hx : IsInt x a) : IsInt (neg x) (-a) := by
  obtain ⟨sa, rfl, hsa⟩ := hx
  refine ⟨!sa, by simp [neg], fun hne => ?_⟩
  have ha0 : a ≠ 0 := by omega
  rw [hsa ha0]
  by_cases h : a < 0
  · have : ¬ (-a < 0) := by omega
    simp [h, this]
  · have : -a < 0 := by omega
    simp [h, this]

theorem isInt_sub (x y : JSNum) (a b : Int) (hx : IsInt x a) (hy : IsInt y b)
    (ha : a.natAbs < 2 ^ 53) (hb : b.natAbs < 2 ^ 53) (hab : (a - b).natAbs < 2 ^ 53) :
    IsInt (sub x y) (a - b) := by
  have := isInt_add x (neg y) a (-b) hx (isInt_neg y b hy) ha (by simpa using hb)
    (by rw [← Int.sub_eq_add_neg]; exact hab)
  rw [← Int.sub_eq_add_neg] at this
  exact this

theorem isInt_mul (x y : JSNum) (a b : Int) (hx : IsInt x a) (hy : IsInt y b)
    (hab : (a * b).natAbs < 2 ^ 53) : IsInt (mul x y) (a * b) := by
  obtain ⟨sa, rfl, hsa⟩ := hx
  obtain ⟨sb, rfl, hsb⟩ := hy
  rw [Int.natAbs_mul] at hab
  simp only [mul]
  rw [roundScaled_mul _ _ hab, ofMag_int _ _ hab]
  refine ⟨xor sa sb, by rw [Int.natAbs_mul], fun hne => ?_⟩
  have ha0 : a ≠ 0 := fun h => hne (by rw [h]; simp)
  have hb0 : b ≠ 0 := fun h => hne (by rw [h]; simp)
  rw [hsa ha0, hsb hb0]
  rcases lt_or_gt_of_ne ha0 with h1 | h1 <;> rcases lt_or_gt_of_ne hb0 with h2 | h2
  · have : ¬ (a * b < 0) := not_lt.mpr (le_of_lt (mul_pos_of_neg_of_neg h1 h2))
    simp [h1, h2, this]
  · have : a * b < 0 := mul_neg_of_neg_of_pos h1 h2
    have hb' : ¬ b < 0 := not_lt.mpr (le_of_lt h2)
    simp [h1, hb', this]
  · have : a * b < 0 := mul_neg_of_pos_of_neg h1 h2
    have ha' : ¬ a < 0 := not_lt.mpr (le_of_lt h1)
    simp [h2, ha', this]
  · have : ¬ (a * b < 0) := not_lt.mpr (le_of_lt (mul_pos h1 h2))
    have ha' : ¬ a < 0 := not_lt.mpr (le_of_lt h1)
    have hb' : ¬ b < 0 := not_lt.mpr (le_of_lt h2)
    simp [ha', hb', this]

theorem isInt_apply (o : Operator) (ho : o ≠ .divide) (x y : JSNum) (a b : Int)
    (hx : IsInt x a) (hy : IsInt y b) (ha : a.natAbs < 2 ^ 53) (hb : b.natAbs < 2 ^ 53)
    (hab : (o.evalInt a b).natAbs < 2 ^ 53) : IsInt (o.apply x y) (o.evalInt a b) := by
  cases o with
  | plus => exact isInt_add x y a b hx hy ha hb hab
  | minus => exact isInt_sub x y a b hx hy ha hb hab
  | times => exact isInt_mul x y a b hx hy hab
  | divide => exact absurd rfl ho

/-! ## parseFloat and the result text on integers -/

theorem toDigits_mem_digitChar (n : Nat) :
    ∀ c ∈ Nat.toDigits 10 n, ∃ d, d < 10 ∧ c = Nat.digitChar d := by
  induction n using Nat.strong_induction_on with
  | _ n ih =>
    by_cases h : n < 10
    · rw [toDigits_lt_ten n h]
      intro c hc
      simp only [List.mem_singleton] at hc
      exact ⟨n, h, hc⟩
    · rw [toDigits_ge_ten n (by omega)]
      intro c hc
      rcases List.mem_append.mp hc with hc | hc
      · exact ih (n / 10) (by omega) c hc
      · simp only [List.mem_singleton] at hc
        exact ⟨n % 10, by omega, hc⟩

theorem digitChar_facts (d : Nat) (h : d < 10) :
    isStrWhiteSpace (Nat.digitChar d) = false ∧ Nat.digitChar d ≠ '-' ∧
      Nat.digitChar d ≠ '+' ∧ Nat.digitChar d ≠ 'I' := by
  interval_cases d <;> decide

theorem parseUnsigned_digits (neg : Bool) (n : Nat) (hn : n < 2 ^ 53) :
    parseUnsigned neg (Nat.toDigits 10 n) = fin neg (n * unit) := by
  obtain ⟨c, r, hcr⟩ : ∃ c r, Nat.toDigits 10 n = c :: r := by
    cases hd : Nat.toDigits 10 n with
    | nil => exact absurd hd (toDigits_ne_nil n)
    | cons c r => exact ⟨c, r, rfl⟩
  obtain ⟨d, hd, hcd⟩ := toDigits_mem_digitChar n c (by rw [hcr]; exact List.mem_cons_self _ _)
  have hI : c ≠ 'I' := by rw [hcd]; exact (digitChar_facts d hd).2.2.2
  have hpre : "Infinity".data.isPrefixOf (Nat.toDigits 10 n) = false := by
    rw [hcr]
    show (('I' == c) && _) = false
    have : ('I' == c) = false := by simpa using fun h => hI h.symm
    rw [this]; rfl
  have htw := takeWhile_all Char.isDigit _ (toDigits_all_digit n)
  unfold parseUnsigned
  rw [hpre]
  simp only [Bool.false_eq_true, if_false, htw.1, htw.2]
  have hemp : (Nat.toDigits 10 n).isEmpty = false := by rw [hcr]; rfl
  rw [hemp]
  simp only [Bool.false_eq_true, if_false, digitsVal_toDigits]
  exact ofDecimal_int neg n hn

theorem parseFloat_nat (n : Nat) (hn : n < 2 ^ 53) :
    parseFloat (String.mk (Nat.toDigits 10 n)) = fin false (n * unit) := by
  obtain ⟨c, r, hcr⟩ : ∃ c r, Nat.toDigits 10 n = c :: r := by
    cases hd : Nat.toDigits 10 n with
    | nil => exact absurd hd (toDigits_ne_nil n)
    | cons c r => exact ⟨c, r, rfl⟩
  obtain ⟨d, hd, hcd⟩ := toDigits_mem_digitChar n c (by rw [hcr]; exact List.mem_cons_self _ _)
  have hf := digitChar_facts d hd
  rw [← hcd] at hf
  have hdrop : (c :: r).dropWhile isStrWhiteSpace = c :: r := by
    simp [List.dropWhile, hf.1]
  unfold parseFloat
  simp only [hcr, hdrop]
  split
  · rename_i heq; injection heq with h1 _; exact absurd h1 hf.2.1
  · rename_i heq; injection heq with h1 _; exact absurd h1 hf.2.2.1
  · rw [← hcr]; exact parseUnsigned_digits false n hn

theorem parseFloat_int (z : Int) (hz : z.natAbs < 2 ^ 53) :
    IsInt (parseFloat (intNumeral z)) z := by
  unfold intNumeral
  by_cases h : z < 0
  · rw [if_pos h]
    have : parseFloat (String.mk (['-'] ++ Nat.toDigits 10 z.natAbs))
        = parseUnsigned true (Nat.toDigits 10 z.natAbs) := rfl
    rw [this, parseUnsigned_digits true _ hz]
    exact ⟨true, rfl, fun _ => by simp [h]⟩
  · rw [if_neg h, List.nil_append, parseFloat_nat _ hz]
    exact ⟨false, rfl, fun _ => by simp [h]⟩

theorem tiny_fin : ∃ T, ofDecimal false 1 (-9) = fin false T ∧ T < unit :=
  ⟨roundScaled (1 * unit) (10 ^ 9), by decide, by decide⟩

theorem resultText_int (x : JSNum) (z : Int) (hx : IsInt x z) (hz : z.natAbs ≤ 999999999999) :
    resultText x = intNumeral z := by
  obtain ⟨s, rfl, hs⟩ := hx
  obtain ⟨T, hT, hTu⟩ := tiny_fin
  have hbig : ofNat 999999999999 = fin false (999999999999 * unit) :=
    ofDecimal_int false _ (by norm_num)
  have h1 : (abs (fin s (z.natAbs * unit))).gt (ofNat 999999999999) = false := by
    rw [hbig]
    simp only [JSNum.abs, gt, lt, decide_eq_false_iff_not, not_lt]
    exact Nat.mul_le_mul_right _ hz
  have h2 : ((abs (fin s (z.natAbs * unit))).lt (ofDecimal false 1 (-9)) &&
      !(fin s (z.natAbs * unit)).isZero) = false := by
    rw [hT]
    by_cases h0 : z.natAbs = 0
    · rw [h0]; simp [isZero]
    · have : ¬ z.natAbs * unit < T := by
        have : unit ≤ z.natAbs * unit := Nat.le_mul_of_pos_left unit (by omega)
        omega
      simp [JSNum.abs, lt, this]
  unfold resultText
  rw [h1, h2]
  simp only [Bool.or_self, Bool.false_eq_true, if_false]
  unfold JSNum.toString intNumeral
  congr 1
  by_cases h0 : z = 0
  · subst h0; cases s <;> rfl
  · have hpos : 0 < z.natAbs := Int.natAbs_pos.mpr h0
    obtain ⟨m, hm⟩ : ∃ m, z.natAbs * unit = m + 1 :=
      ⟨z.natAbs * unit - 1, by have := Nat.mul_pos hpos unit_pos; omega⟩
    have hlay := shortest_int z.natAbs hpos (by
      have : (999999999999 : Nat) < 10 ^ 12 := by norm_num
      omega)
    rw [hm] at hlay ⊢
    show (if s then ['-'] else []) ++ layout (shortest (m + 1)).1 (shortest (m + 1)).2 = _
    rw [hlay, hs h0]
    by_cases hneg : z < 0 <;> simp [hneg]

/-! ## Left-to-right evaluation (C2) -/

theorem typeChars_append (cs : List Char) :
    ∀ (s : CalculatorTool) (c : Char) (r : List Char), s.shouldResetDisplay = false →
      s.display.data = c :: r → c ≠ '0' → (c :: r).length + cs.length ≤ 12 →
      cs.foldl (fun t x => inputNumber t (String.singleton x)) s
        = { s with display := String.mk (c :: r ++ cs) } := by
  induction cs with
  | nil =>
    intro s c r _ hd _ _
    simp only [List.foldl_nil, List.append_nil]
    rw [← hd]
  | cons x cs ih =>
    intro s c r hr hd hc hlen
    have hne : s.display ≠ "0" := string_ne_zero_of_head _ c r hd hc
    have hl : s.display.length < 12 := by
      have : s.display.length = (c :: r).length := by rw [← hd]; rfl
      simp only [List.length_cons] at hlen this ⊢
      omega
    have hstep : inputNumber s (String.singleton x)
        = { s with display := s.display ++ String.singleton x } := by
      simp [inputNumber, hr, hne, hl]
    rw [List.foldl_cons, hstep,
      ih { s with display := s.display ++ String.singleton x } c (r ++ [x]) hr
        (by simp [String.data_append, hd, String.singleton]) hc
        (by simp only [List.length_cons, List.length_append, List.length_nil] at hlen ⊢; omega)]
    simp

/-- Typing the numeral of `n` when the next digit starts a fresh number. -/
theorem typeNat_fresh (s : CalculatorTool) (n : Nat) (hn : n < 10 ^ 12)
    (hs : s.shouldResetDisplay = true ∨ s.display = "0") :
    typeNat s n = { s with display := String.mk (Nat.toDigits 10 n),
                           shouldResetDisplay := false } := by
  unfold typeNat
  have hstep : ∀ x : Char, inputNumber s (String.singleton x)
      = { s with display := String.singleton x, shouldResetDisplay := false } := by
    intro x
    rcases hs with hs | hs <;> simp [inputNumber, hs]
  rcases Nat.eq_zero_or_pos n with h0 | h0
  · subst h0
    show inputNumber s (String.singleton '0') = _
    rw [hstep]; rfl
  · obtain ⟨c, r, hcr, hc⟩ := toDigits_head_ne_zero n h0
    have hlen := toDigits_length_le 11 n hn
    rw [hcr] at hlen ⊢
    rw [List.foldl_cons, hstep,
      typeChars_append r _ c [] rfl rfl hc
        (by simp only [List.length_cons, List.length_nil] at hlen ⊢; omega)]
    rfl

theorem symbol_truthy (o : Operator) : truthy (some o.symbol) = true := by
  cases o <;> decide

theorem calculate_apply (s : CalculatorTool) (o : Operator) (ho : o ≠ .divide) (p : JSNum)
    (hop : s.currentOperation = some o.symbol) (hp : s.previousValue = some p) :
    calculate s = storeResult s (o.apply p (parseFloat s.display)) := by
  unfold calculate
  rw [hop, hp]
  cases o with
  | plus => simp [Operator.symbol, Operator.apply]
  | minus => simp [Operator.symbol, Operator.apply]
  | times => simp [Operator.symbol, Operator.apply]
  | divide => exact absurd rfl ho

theorem isInt_ofNat (n : Nat) : IsInt (fin false (n * unit)) (n : Int) :=
  ⟨false, by simp, fun _ => by simp⟩

/-- One fold of a pending integer operation with a typed right operand. -/
theorem calculate_int (t : CalculatorTool) (o : Operator) (ho : o ≠ .divide) (p : JSNum)
    (zp : Int) (n : Nat) (hop : t.currentOperation = some o.symbol)
    (hp : t.previousValue = some p) (hpi : IsInt p zp) (hzp : zp.natAbs < 2 ^ 53)
    (hd : t.display = String.mk (Nat.toDigits 10 n)) (hn : n < 2 ^ 53)
    (hr : (o.evalInt zp n).natAbs ≤ 999999999999) :
    calculate t = { t with display := intNumeral (o.evalInt zp n), previousValue := none,
                           currentOperation := none, shouldResetDisplay := true } := by
  rw [calculate_apply t o ho p hop hp, hd, parseFloat_nat n hn]
  have hx := isInt_apply o ho p (fin false (n * unit)) zp n hpi (isInt_ofNat n) hzp
    (by simpa using hn) (by
      have : (999999999999 : Nat) < 2 ^ 53 := by norm_num
      omega)
  unfold storeResult
  rw [resultText_int _ _ hx hr]

/-- Claim C2: evaluation is left to right with no operator precedence. For
natural numbers `a`, `b`, `c` of at most 12 digits and operators `o1`, `o2`
among `+`, `-`, `×` with `a o1 b` and `(a o1 b) o2 c` of absolute value at most
999999999999, the sequence clear, type `a`, `o1`, type `b`, `o2`, type `c`, `=`
leaves the display equal to the plain decimal numeral of `(a o1 b) o2 c`. -/
theorem left_to_right_evaluation (s : CalculatorTool) (a b c : Nat) (o1 o2 : Operator)
    (ha : a < 10 ^ 12) (hb : b < 10 ^ 12) (hc : c < 10 ^ 12)
    (h1 : o1 ≠ .divide) (h2 : o2 ≠ .divide)
    (hab : (o1.evalInt a b).natAbs ≤ 999999999999)
    (habc : (o2.evalInt (o1.evalInt a b) c).natAbs ≤ 999999999999) :
    (calculate (typeNat (setOperation (typeNat (setOperation (typeNat (allClear s) a)
        o1.symbol) b) o2.symbol) c)).display
      = intNumeral (o2.evalInt (o1.evalInt a b) c) := by
  have h53 : (10 : Nat) ^ 12 < 2 ^ 53 := by norm_num
  have hbig : (999999999999 : Nat) < 2 ^ 53 := by norm_num
  rw [typeNat_fresh (allClear s) a ha (Or.inr rfl)]
  have e2 : ∀ t : CalculatorTool, t.currentOperation = none →
      t.display = String.mk (Nat.toDigits 10 a) →
      setOperation t o1.symbol
        = { t with
            previousValue := some (fin false (a * unit))
            currentOperation := some o1.symbol
            shouldResetDisplay := true } := by
    intro t ht hd
    simp [setOperation, ht, truthy, hd, parseFloat_nat a (by omega)]
  rw [e2 _ rfl rfl, typeNat_fresh _ b hb (Or.inl rfl)]
  have e5 : ∀ t : CalculatorTool, t.currentOperation = some o1.symbol →
      t.previousValue = some (fin false (a * unit)) → t.shouldResetDisplay = false →
      t.display = String.mk (Nat.toDigits 10 b) →
      setOperation t o2.symbol
        = { t with
            display := intNumeral (o1.evalInt a b)
            previousValue := some (parseFloat (intNumeral (o1.evalInt a b)))
            currentOperation := some o2.symbol
            shouldResetDisplay := true } := by
    intro t hop hp hr hd
    have e4 := calculate_int t o1 h1 (fin false (a * unit)) a b hop hp (isInt_ofNat a)
      (by simpa using (by omega : a < 2 ^ 53)) hd (by omega) hab
    unfold setOperation
    simp only [hop, hr, symbol_truthy, Bool.not_false, Bool.and_self, if_true]
    rw [e4]
  rw [e5 _ rfl rfl rfl rfl, typeNat_fresh _ c hc (Or.inl rfl)]
  rw [calculate_int _ o2 h2 (parseFloat (intNumeral (o1.evalInt a b))) (o1.evalInt a b) c rfl rfl
    (parseFloat_int _ (by omega)) (by omega) rfl (by omega) habc]

/-- Witness for C2: `2 + 3 × 4 =` shows `20`, not `14`. -/
theorem left_to_right_evaluation_witness :
    (calculate (typeNat (setOperation (typeNat (setOperation (typeNat (allClear initial) 2)
        "+") 3) "×") 4)).display = "20" :=
  left_to_right_evaluation initial 2 3 4 .plus .times (by norm_num) (by norm_num) (by norm_num)
    (by decide) (by decide) (by decide) (by decide)

/-! ## The single operations (C11 to C17, C20) -/

/-- Claim C11: `inputNumber(d)` replaces the display by `d` and clears
`shouldResetDisplay` when the flag is set or the display is `"0"`, whatever the
display length; otherwise it appends `d` when the display is shorter than 12
and leaves the state unchanged when it is not; `previousValue` and
`currentOperation` never change. -/
theorem inputNumber_spec (s : CalculatorTool) (d : Fin 10) :
    (s.shouldResetDisplay = true ∨ s.display = "0" →
      inputNumber s (digitString d)
        = { s with display := digitString d, shouldResetDisplay := false }) ∧
    (s.shouldResetDisplay = false → s.display ≠ "0" → s.display.length < 12 →
      inputNumber s (digitString d) = { s with display := s.display ++ digitString d }) ∧
    (s.shouldResetDisplay = false → s.display ≠ "0" → 12 ≤ s.display.length →
      inputNumber s (digitString d) = s) ∧
    (inputNumber s (digitString d)).previousValue = s.previousValue ∧
    (inputNumber s (digitString d)).currentOperation = s.currentOperation := by
  refine ⟨?_, ?_, ?_, inputNumber_previousValue _ _, inputNumber_currentOperation _ _⟩
  · rintro (h | h) <;> simp [inputNumber, h]
  · intro hr h0 hl; simp [inputNumber, hr, h0, hl]
  · intro hr h0 hl
    have : ¬ s.display.length < 12 := by omega
    simp [inputNumber, hr, h0, this]

/-- Witness for C11: a reset replaces a 13-character display, a short display
is appended to, a 12-character display is left alone. -/
theorem inputNumber_spec_witness :
    inputNumber { initial with display := "111111111111.", shouldResetDisplay := true }
        (digitString 7)
      = { initial with display := "7" } ∧
    inputNumber { initial with display := "12" } (digitString 7)
      = { initial with display := "127" } ∧
    inputNumber { initial with display := "123456789012" } (digitString 7)
      = { initial with display := "123456789012" } :=
  ⟨(inputNumber_spec _ 7).1 (Or.inl rfl),
   (inputNumber_spec _ 7).2.1 rfl (by decide) (by decide),
   (inputNumber_spec _ 7).2.2.1 rfl (by decide) (by decide)⟩

theorem inputDecimal_of_reset (s : CalculatorTool) (h : s.shouldResetDisplay = true) :
    inputDecimal s = { s with display := "0.", shouldResetDisplay := false } := by
  simp [inputDecimal, h]

theorem inputDecimal_of_no_point (s : CalculatorTool) (hr : s.shouldResetDisplay = false)
    (hp : '.' ∉ s.display.data) : inputDecimal s = { s with display := s.display ++ "." } := by
  simp [inputDecimal, hr, hp]

theorem inputDecimal_of_point (s : CalculatorTool) (hr : s.shouldResetDisplay = false)
    (hp : '.' ∈ s.display.data) : inputDecimal s = s := by
  simp [inputDecimal, hr, hp]

/-- Claim C12: `inputDecimal()` sets the display to `"0."` and clears
`shouldResetDisplay` when the flag is set; otherwise it appends `.` when the
display has none and leaves the state unchanged when it has one. -/
theorem inputDecimal_spec (s : CalculatorTool) :
    (s.shouldResetDisplay = true →
      inputDecimal s = { s with display := "0.", shouldResetDisplay := false }) ∧
    (s.shouldResetDisplay = false → '.' ∉ s.display.data →
      inputDecimal s = { s with display := s.display ++ "." }) ∧
    (s.shouldResetDisplay = false → '.' ∈ s.display.data → inputDecimal s = s) :=
  ⟨inputDecimal_of_reset s, inputDecimal_of_no_point s, inputDecimal_of_point s⟩

/-- Witness for C12: the three cases at `"42"` with the flag set, `"42"` and `"4.2"`. -/
theorem inputDecimal_spec_witness :
    inputDecimal { initial with display := "42", shouldResetDisplay := true }
      = { initial with display := "0." } ∧
    inputDecimal { initial with display := "42" } = { initial with display := "42." } ∧
    inputDecimal { initial with display := "4.2" } = { initial with display := "4.2" } :=
  ⟨(inputDecimal_spec _).1 rfl, (inputDecimal_spec _).2.1 rfl (by decide),
   (inputDecimal_spec _).2.2 rfl (by decide)⟩

/-- Claim C13: `inputDecimal` is idempotent on every state. -/
theorem inputDecimal_idempotent (s : CalculatorTool) :
    inputDecimal (inputDecimal s) = inputDecimal s := by
  by_cases hr : s.shouldResetDisplay = true
  · rw [inputDecimal_of_reset s hr]
    exact inputDecimal_of_point _ rfl (by show '.' ∈ "0.".data; decide)
  · have hr' : s.shouldResetDisplay = false := by simpa using hr
    by_cases hp : '.' ∈ s.display.data
    · rw [inputDecimal_of_point s hr' hp, inputDecimal_of_point s hr' hp]
    · rw [inputDecimal_of_no_point s hr' hp]
      exact inputDecimal_of_point _ hr' (by simp [String.data_append])

/-- Claim C15: with no operator pending, `calculate()` changes nothing. -/
theorem calculate_without_operation (s : CalculatorTool) (h : s.currentOperation = none) :
    calculate s = s := by
  unfold calculate
  rw [h]

/-- Witness for C15: the state after typing `4 2`. -/
theorem calculate_without_operation_witness :
    calculate (run [.digit 4, .digit 2]) = run [.digit 4, .digit 2] :=
  calculate_without_operation _ (by decide)

theorem calculate_empty_operation (s : CalculatorTool) (h : s.currentOperation = some "") :
    calculate s = s := by
  unfold calculate
  rw [h]
  split
  · rename_i op prev h1 _
    injection h1 with h1
    subst h1
    simp
  · rfl

theorem setOperation_fold (s : CalculatorTool) (operation : String)
    (hop : s.currentOperation ≠ none) (hr : s.shouldResetDisplay = false) :
    setOperation s operation
      = { (calculate s) with
          previousValue := some (parseFloat (calculate s).display)
          currentOperation := some operation
          shouldResetDisplay := true } := by
  obtain ⟨op, hop'⟩ := Option.ne_none_iff_exists'.mp hop
  by_cases he : op = ""
  · subst he
    rw [calculate_empty_operation s hop']
    simp [setOperation, hop', truthy]
  · have ht : truthy s.currentOperation = true := by simp [hop', truthy, he]
    simp [setOperation, ht, hr]

theorem setOperation_idle (s : CalculatorTool) (operation : String)
    (h : s.currentOperation = none ∨ s.shouldResetDisplay = true) :
    setOperation s operation
      = { s with
          previousValue := some (parseFloat s.display)
          currentOperation := some operation
          shouldResetDisplay := true } := by
  rcases h with h | h
  · simp [setOperation, h, truthy]
  · simp [setOperation, h]

/-- Claim C14: `setOperation(op)` first folds the pending operation with
`calculate()` exactly when an operator is pending and `shouldResetDisplay` is
false, and then stores `parseFloat` of the display, the operator and
`shouldResetDisplay = true`; without a fold the display is unchanged. -/
theorem setOperation_spec (s : CalculatorTool) (o : Operator) :
    (s.currentOperation ≠ none → s.shouldResetDisplay = false →
      setOperation s o.symbol
        = { (calculate s) with
            previousValue := some (parseFloat (calculate s).display)
            currentOperation := some o.symbol
            shouldResetDisplay := true }) ∧
    (s.currentOperation = none ∨ s.shouldResetDisplay = true →
      setOperation s o.symbol
        = { s with
            previousValue := some (parseFloat s.display)
            currentOperation := some o.symbol
            shouldResetDisplay := true }) ∧
    (setOperation s o.symbol).previousValue
      = some (parseFloat (setOperation s o.symbol).display) ∧
    (setOperation s o.symbol).currentOperation = some o.symbol ∧
    (setOperation s o.symbol).shouldResetDisplay = true :=
  ⟨setOperation_fold s o.symbol, setOperation_idle s o.symbol, rfl, rfl, rfl⟩

/-- Witness for C14: `×` after `3 + 4` folds to `7`; `×` right after `3 +` only
replaces the operator. -/
theorem setOperation_spec_witness :
    setOperation (run [.digit 3, .operation .plus, .digit 4]) "×"
      = { initial with
          display := "7"
          previousValue := some (ofNat 7)
          currentOperation := some "×"
          shouldResetDisplay := true } ∧
    setOperation (run [.digit 3, .operation .plus]) "×"
      = { initial with
          display := "3"
          previousValue := some (ofNat 3)
          currentOperation := some "×"
          shouldResetDisplay := true } :=
  ⟨((setOperation_spec (run [.digit 3, .operation .plus, .digit 4]) .times).1
      (by decide) (by decide)).trans (by decide),
   ((setOperation_spec (run [.digit 3, .operation .plus]) .times).2.1
      (Or.inr (by decide))).trans (by decide)⟩

theorem calculate_apply_all (s : CalculatorTool) (o : Operator) (p : JSNum)
    (hop : s.currentOperation = some o.symbol) (hp : s.previousValue = some p)
    (hz : o = .divide → (parseFloat s.display).isZero = false) :
    calculate s = storeResult s (o.apply p (parseFloat s.display)) := by
  cases o with
  | plus => exact calculate_apply s .plus (by decide) p hop hp
  | minus => exact calculate_apply s .minus (by decide) p hop hp
  | times => exact calculate_apply s .times (by decide) p hop hp
  | divide =>
    unfold calculate
    rw [hop, hp]
    simp [Operator.symbol, Operator.apply, hz rfl]

/-- Claim C16: with one of the four operators pending and `previousValue` set,
unless the operation is a division by a zero right operand, `calculate()` ends
with `previousValue` and `currentOperation` null, `shouldResetDisplay` true and
the display holding the text of `previousValue <op> parseFloat(display)`:
its `toExponential(6)` beyond 999999999999 or below 1e-9, its `toString()`
otherwise. -/
theorem calculate_success (s : CalculatorTool) (o : Operator) (p : JSNum)
    (hop : s.currentOperation = some o.symbol) (hp : s.previousValue = some p)
    (hz : o = .divide → (parseFloat s.display).isZero = false) :
    calculate s
      = { s with
          display := resultText (o.apply p (parseFloat s.display))
          previousValue := none
          currentOperation := none
          shouldResetDisplay := true } :=
  calculate_apply_all s o p hop hp hz

/-- Witness for C16: `8 ÷ 2 =`. -/
theorem calculate_success_witness :
    calculate (run [.digit 8, .operation .divide, .digit 2])
      = { (run [.digit 8, .operation .divide, .digit 2]) with
          display := resultText (div (ofNat 8) (parseFloat "2"))
          previousValue := none
          currentOperation := none
          shouldResetDisplay := true } :=
  calculate_success (run [.digit 8, .operation .divide, .digit 2]) .divide (ofNat 8)
    (by decide) (by decide) (fun _ => by decide)

/-- Claim C17, as stated, fails: the display after a successful `calculate()`
is not the `formatResult` of the specification. `1000 + 234` shows `1234`, not
`1,234`; `999999999 + 1` shows `1000000000`, not `1.000000e+9`; `1 ÷ 3` shows
`0.3333333333333333`, not `0.3333333333`. -/
theorem display_is_not_formatResult :
    (run [.digit 1, .digit 0, .digit 0, .digit 0, .operation .plus, .digit 2, .digit 3,
        .digit 4, .equals]).display = "1234" ∧
    specFormatResult (add (parseFloat "1000") (parseFloat "234")) = "1,234" ∧
    (run (List.replicate 9 (.digit 9) ++ [.operation .plus, .digit 1, .equals])).display
      = "1000000000" ∧
    specFormatResult (add (parseFloat "999999999") (parseFloat "1")) = "1.000000e+9" ∧
    (run [.digit 1, .operation .divide, .digit 3, .equals]).display = "0.3333333333333333" ∧
    specFormatResult (div (parseFloat "1") (parseFloat "3")) = "0.3333333333" := by
  decide

/-- Claim C17, amended: after every successful `calculate()` the display is the
result's `toExponential(6)` when its absolute value is above 999999999999 or
is non-zero and below 1e-9, and its plain `toString()` otherwise, with no
grouping and no rounding to 10 decimals. -/
theorem display_after_calculate (s : CalculatorTool) (o : Operator) (p : JSNum)
    (hop : s.currentOperation = some o.symbol) (hp : s.previousValue = some p)
    (hz : o = .divide → (parseFloat s.display).isZero = false) :
    (calculate s).display
      = if (abs (o.apply p (parseFloat s.display))).gt (ofNat 999999999999) ||
            ((abs (o.apply p (parseFloat s.display))).lt (ofDecimal false 1 (-9)) &&
              !(o.apply p (parseFloat s.display)).isZero)
        then toExponential6 (o.apply p (parseFloat s.display))
        else JSNum.toString (o.apply p (parseFloat s.display)) := by
  rw [calculate_apply_all s o p hop hp hz]
  rfl

/-- Witness for the amended C17: `1000 + 234 =` shows `1234`. -/
theorem display_after_calculate_witness :
    (calculate (run [.digit 1, .digit 0, .digit 0, .digit 0, .operation .plus, .digit 2,
        .digit 3, .digit 4])).display = "1234" :=
  (display_after_calculate _ .plus (ofNat 1000) (by decide) (by decide)
    (fun h => by cases h)).trans (by decide)

theorem toggleSign_of_zero (s : CalculatorTool) (h : s.display = "0") : toggleSign s = s := by
  simp [toggleSign, h]

theorem toggleSign_of_minus (s : CalculatorTool) (rest : List Char) (h0 : s.display ≠ "0")
    (h : s.display.data = '-' :: rest) :
    toggleSign s = { s with display := String.mk rest } := by
  unfold toggleSign
  simp only [bne_iff_ne, ne_eq, h0, not_false_eq_true, if_true]
  rw [h]
  rfl

theorem toggleSign_of_other (s : CalculatorTool) (h0 : s.display ≠ "0")
    (h : s.display.data.head? ≠ some '-') :
    toggleSign s = { s with display := String.mk ('-' :: s.display.data) } := by
  unfold toggleSign
  simp only [bne_iff_ne, ne_eq, h0, not_false_eq_true, if_true]
  split
  · rename_i rest hr
    rw [hr] at h
    exact absurd rfl h
  · rfl

theorem string_eq_of_data (t : String) (cs : List Char) (h : t.data = cs) : t = String.mk cs := by
  rw [← h]

/-- On a display that is neither `"0"` nor `"-0"` and does not begin with two
minus signs, two applications of `toggleSign` give back the same state. -/
theorem toggleSign_twice_of_plain (s : CalculatorTool) (h0 : s.display ≠ "0")
    (h1 : s.display ≠ "-0") (h2 : "--".data.isPrefixOf s.display.data = false) :
    toggleSign (toggleSign s) = s := by
  cases hd : s.display.data with
  | nil =>
    rw [toggleSign_of_other s h0 (by rw [hd]; simp), hd,
      toggleSign_of_minus _ [] (by show String.mk ['-'] ≠ "0"; decide) rfl]
    show { s with display := String.mk [] } = s
    rw [← hd]
  | cons c rest =>
    by_cases hc : c = '-'
    · subst hc
      rw [toggleSign_of_minus s rest h0 hd]
      have hne : (String.mk rest) ≠ "0" := by
        intro h
        apply h1
        rw [string_eq_of_data _ _ hd]
        have : rest = ['0'] := congrArg String.data h
        rw [this]
      have hhead : rest.head? ≠ some '-' := by
        intro h
        cases rest with
        | nil => simp at h
        | cons x r =>
          simp only [List.head?_cons, Option.some.injEq] at h
          rw [hd, h] at h2
          simp [List.isPrefixOf] at h2
      rw [toggleSign_of_other _ hne hhead]
      show { s with display := String.mk ('-' :: rest) } = s
      rw [← hd]
    · rw [toggleSign_of_other s h0 (by rw [hd]; simpa using hc), hd,
        toggleSign_of_minus _ (c :: rest) (by
          intro h
          have : '-' :: c :: rest = ['0'] := congrArg String.data h
          simp at this) rfl]
      show { s with display := String.mk (c :: rest) } = s
      rw [← hd]

/-- Claim C20: `toggleSign()` leaves the state unchanged when the display is
`"0"`; otherwise it removes the first character when that is `-` and prepends
`-` when it is not; `previousValue`, `currentOperation` and
`shouldResetDisplay` never change. -/
theorem toggleSign_spec (s : CalculatorTool) :
    (s.display = "0" → toggleSign s = s) ∧
    (s.display ≠ "0" → ∀ rest, s.display.data = '-' :: rest →
      toggleSign s = { s with display := String.mk rest }) ∧
    (s.display ≠ "0" → s.display.data.head? ≠ some '-' →
      toggleSign s = { s with display := String.mk ('-' :: s.display.data) }) ∧
    (toggleSign s).previousValue = s.previousValue ∧
    (toggleSign s).currentOperation = s.currentOperation ∧
    (toggleSign s).shouldResetDisplay = s.shouldResetDisplay :=
  ⟨toggleSign_of_zero s, fun h0 rest h => toggleSign_of_minus s rest h0 h,
   toggleSign_of_other s, toggleSign_previousValue s, toggleSign_currentOperation s,
   toggleSign_shouldResetDisplay s⟩

/-- Witness for C20: the displays `"0"`, `"-7"` and `"7"`. -/
theorem toggleSign_spec_witness :
    toggleSign initial = initial ∧
    toggleSign { initial with display := "-7" } = { initial with display := "7" } ∧
    toggleSign { initial with display := "7" } = { initial with display := "-7" } :=
  ⟨(toggleSign_spec initial).1 rfl,
   (toggleSign_spec { initial with display := "-7" }).2.1 (by decide) ['7'] rfl,
   (toggleSign_spec { initial with display := "7" }).2.2.1 (by decide) (by decide)⟩

/-! ## Rounding to the nearest double: error bounds -/

theorem excessStep_max (q acc i : Nat) (hi : 0 < i)
    (h : ∀ t, t < 4096 → 2 ^ 52 ≤ q / 2 ^ t → t ≤ acc + (2 * i - 1)) :
    ∀ t, t < 4096 → 2 ^ 52 ≤ q / 2 ^ t → t ≤ excessStep q acc i + (i - 1) := by
  intro t ht hP
  have := h t ht hP
  unfold excessStep
  split_ifs with hc
  · omega
  · by_contra hlt
    apply hc
    have hle : 2 ^ (acc + i) ≤ 2 ^ t := Nat.pow_le_pow_right (by norm_num) (by omega)
    exact le_trans hP (Nat.div_le_div_left hle (by positivity))

/-- The binary search of `excessBits` finds the largest shift. -/
theorem excessBits_max (q t : Nat) (ht : t < 4096) (hP : 2 ^ 52 ≤ q / 2 ^ t) :
    t ≤ excessBits q := by
  have h0 : ∀ t, t < 4096 → 2 ^ 52 ≤ q / 2 ^ t → t ≤ 0 + (2 * 2048 - 1) := by
    intro t ht _; omega
  have h1 := excessStep_max q _ 2048 (by norm_num) h0
  have h2 := excessStep_max q _ 1024 (by norm_num) h1
  have h3 := excessStep_max q _ 512 (by norm_num) h2
  have h4 := excessStep_max q _ 256 (by norm_num) h3
  have h5 := excessStep_max q _ 128 (by norm_num) h4
  have h6 := excessStep_max q _ 64 (by norm_num) h5
  have h7 := excessStep_max q _ 32 (by norm_num) h6
  have h8 := excessStep_max q _ 16 (by norm_num) h7
  have h9 := excessStep_max q _ 8 (by norm_num) h8
  have h10 := excessStep_max q _ 4 (by norm_num) h9
  have h11 := excessStep_max q _ 2 (by norm_num) h10
  have h12 := excessStep_max q _ 1 (by norm_num) h11
  exact h12 t ht hP

theorem roundDiv_bounds (N D : Nat) (hD : 0 < D) :
    2 * (roundDiv N D * D) ≤ 2 * N + D ∧ 2 * N ≤ 2 * (roundDiv N D * D) + D := by
  have hN : D * (N / D) + N % D = N := Nat.div_add_mod N D
  have hr : N % D < D := Nat.mod_lt N hD
  have e1 : N / D * D = D * (N / D) := Nat.mul_comm _ _
  have e2 : (N / D + 1) * D = D * (N / D) + D := by rw [Nat.add_mul, Nat.one_mul, e1]
  unfold roundDiv
  split_ifs with h1 h2 h3
  · rw [e1]; omega
  · rw [e2]; omega
  · rw [e1]; omega
  · rw [e2]; omega

theorem roundDiv_ge (N D : Nat) : N / D ≤ roundDiv N D := by
  unfold roundDiv
  split_ifs <;> omega

theorem roundScaled_dvd (N D : Nat) : 2 ^ excessBits (N / D) ∣ roundScaled N D :=
  Dvd.intro_left _ rfl

theorem roundScaled_bounds (N D : Nat) (hD : 0 < D) :
    2 * (roundScaled N D * D) ≤ 2 * N + D * 2 ^ excessBits (N / D) ∧
    2 * N ≤ 2 * (roundScaled N D * D) + D * 2 ^ excessBits (N / D) := by
  have h := roundDiv_bounds N (D * 2 ^ excessBits (N / D)) (Nat.mul_pos hD (by positivity))
  have e : roundScaled N D * D
      = roundDiv N (D * 2 ^ excessBits (N / D)) * (D * 2 ^ excessBits (N / D)) := by
    unfold roundScaled; ring
  rw [e]
  exact h

theorem roundScaled_ge (N D : Nat) (h : 1 ≤ excessBits (N / D)) :
    2 ^ 52 * 2 ^ excessBits (N / D) ≤ roundScaled N D := by
  rcases excessBits_inv (N / D) with h0 | h0
  · omega
  · unfold roundScaled
    apply Nat.mul_le_mul_right
    rw [Nat.div_div_eq_div_mul] at h0
    exact le_trans h0 (roundDiv_ge _ _)

theorem roundScaled_zero (D : Nat) (hD : 0 < D) : roundScaled 0 D = 0 := by
  have : excessBits (0 / D) = 0 := by rw [Nat.zero_div]; decide
  unfold roundScaled roundDiv
  rw [this]
  simp [hD]

/-- A sum within half a grid step of an even multiple of the step rounds to it. -/
theorem roundDiv_near (S M g : Nat) (hg : 0 < g) (hM : 2 * g ∣ M)
    (h1 : 2 * S ≤ 2 * M + g) (h2 : 2 * M ≤ 2 * S + g) : roundDiv S g * g = M := by
  obtain ⟨t, ht⟩ := hM
  rcases Nat.lt_or_ge S M with hlt | hge
  · -- S below M
    have ht1 : 1 ≤ t := by
      rcases Nat.eq_zero_or_pos t with h | h
      · rw [h] at ht; omega
      · exact h
    obtain ⟨e, he⟩ : ∃ e, M = S + e := ⟨M - S, by omega⟩
    have he0 : 0 < e := by omega
    have heg : 2 * e ≤ g := by omega
    have hgt : g * (2 * t - 1) + g = M := by
      have h1 : 2 * t - 1 + 1 = 2 * t := by omega
      calc g * (2 * t - 1) + g = g * (2 * t - 1 + 1) := by ring
        _ = g * (2 * t) := by rw [h1]
        _ = M := by rw [ht]; ring
    have hS : S = g * (2 * t - 1) + (g - e) := by omega
    have hq : S / g = 2 * t - 1 := by
      rw [hS, Nat.mul_add_div hg, Nat.div_eq_of_lt (by omega)]; rfl
    have hr : S % g = g - e := by
      rw [hS, Nat.mul_add_mod, Nat.mod_eq_of_lt (by omega)]
    have hodd : (2 * t - 1) % 2 = 1 := by omega
    have hres : roundDiv S g = 2 * t := by
      unfold roundDiv
      rw [hq, hr]
      split_ifs <;> omega
    rw [hres, ht]; ring
  · obtain ⟨e, he⟩ : ∃ e, S = M + e := ⟨S - M, by omega⟩
    have heg : 2 * e ≤ g := by omega
    have hS : S = g * (2 * t) + e := by rw [he, ht]; ring
    have hq : S / g = 2 * t := by
      rw [hS, Nat.mul_add_div hg, Nat.div_eq_of_lt (by omega)]; rfl
    have hr : S % g = e := by
      rw [hS, Nat.mul_add_mod, Nat.mod_eq_of_lt (by omega)]
    have hres : roundDiv S g = 2 * t := by
      unfold roundDiv
      rw [hq, hr]
      split_ifs <;> omega
    rw [hres, ht]; ring

theorem excessBits_zero : excessBits 0 = 0 := by decide

theorem refine_bound (S M g h : Nat) (hh : 0 < h) (hS : h ∣ S) (hM : h ∣ M) (hg : 2 * h ∣ g)
    (b : 2 * S ≤ 2 * M + g + h) : 2 * S ≤ 2 * M + g := by
  obtain ⟨σ, rfl⟩ := hS
  obtain ⟨μ, rfl⟩ := hM
  obtain ⟨p, rfl⟩ := hg
  have e1 : 2 * (h * σ) = h * (2 * σ) := by ring
  have e2 : 2 * (h * μ) + 2 * h * p + h = h * (2 * μ + 2 * p + 1) := by ring
  have e3 : 2 * (h * μ) + 2 * h * p = h * (2 * μ + 2 * p) := by ring
  rw [e1, e2] at b
  have := Nat.le_of_mul_le_mul_left b hh
  rw [e1, e3]
  exact Nat.mul_le_mul_left h (by omega)

theorem pow_two_succ_dvd (a b : Nat) (h : a < b) : 2 * 2 ^ a ∣ 2 ^ b := by
  have : 2 * 2 ^ a = 2 ^ (a + 1) := by ring
  rw [this]
  exact Nat.pow_dvd_pow 2 (by omega)

/-- The sum of two correctly rounded operands rounds to the exact sum of the
operands when that sum is a multiple of `2^1063` units (a dyadic number with
at most 11 fractional bits) below `2^41`. -/
theorem sum_rounds_exact (N1 D1 N2 D2 M : Nat) (hD1 : 0 < D1) (hD2 : 0 < D2)
    (hsum : M * (D1 * D2) = N1 * D2 + N2 * D1) (hM : 2 ^ 1063 ∣ M)
    (hx : N1 = 0 ∨ 1 ≤ excessBits (N1 / D1)) (hy : N2 = 0 ∨ 1 ≤ excessBits (N2 / D2))
    (hbound : roundScaled N1 D1 + roundScaled N2 D2 < 2 ^ 1115) :
    roundScaled (roundScaled N1 D1 + roundScaled N2 D2) 1 = M := by
  obtain ⟨bx1, bx2⟩ := roundScaled_bounds N1 D1 hD1
  obtain ⟨by1, by2⟩ := roundScaled_bounds N2 D2 hD2
  have dx := roundScaled_dvd N1 D1
  have dy := roundScaled_dvd N2 D2
  generalize hsx : excessBits (N1 / D1) = sx at *
  generalize hsy : excessBits (N2 / D2) = sy at *
  generalize ha : roundScaled N1 D1 = a at *
  generalize hb : roundScaled N2 D2 = b at *
  -- the shift of the sum
  have hs' : excessBits (a + b) ≤ 1062 := by
    rcases excessBits_inv (a + b) with h | h
    · omega
    · by_contra hgt
      have h1 : 2 ^ 52 * 2 ^ excessBits (a + b) ≤ a + b :=
        (Nat.le_div_iff_mul_le (by positivity)).mp h
      have h2 : 2 ^ 1063 ≤ 2 ^ excessBits (a + b) :=
        Nat.pow_le_pow_right (by norm_num) (by omega)
      have h3 : (2 : Nat) ^ 52 * 2 ^ 1063 = 2 ^ 1115 := by rw [← pow_add]
      have h4 : 2 ^ 52 * 2 ^ 1063 ≤ 2 ^ 52 * 2 ^ excessBits (a + b) :=
        Nat.mul_le_mul_left _ h2
      omega
  have shift_le : ∀ (N D s c : Nat), excessBits (N / D) = s → roundScaled N D = c →
      c ≤ a + b → (N = 0 ∨ 1 ≤ s) → s ≤ excessBits (a + b) ∧ (1 ≤ s → 2 ^ 52 * 2 ^ s ≤ c) := by
    intro N D s c hs hc hle h0
    by_cases h1 : 1 ≤ s
    · have hge : 2 ^ 52 * 2 ^ s ≤ c := by
        rw [← hs, ← hc]; exact roundScaled_ge N D (by rw [hs]; exact h1)
      have hlt : s < 1063 := by
        by_contra hgt
        have h2 : 2 ^ 1063 ≤ 2 ^ s := Nat.pow_le_pow_right (by norm_num) (by omega)
        have h3 : (2 : Nat) ^ 52 * 2 ^ 1063 = 2 ^ 1115 := by rw [← pow_add]
        have h4 : 2 ^ 52 * 2 ^ 1063 ≤ 2 ^ 52 * 2 ^ s := Nat.mul_le_mul_left _ h2
        omega
      refine ⟨excessBits_max (a + b) s (by omega) ?_, fun _ => hge⟩
      exact (Nat.le_div_iff_mul_le (by positivity)).mpr (le_trans hge hle)
    · exact ⟨by omega, fun h => absurd h h1⟩
  obtain ⟨hsx', hax⟩ := shift_le N1 D1 sx a hsx ha (Nat.le_add_right _ _) hx
  obtain ⟨hsy', hby⟩ := shift_le N2 D2 sy b hsy hb (Nat.le_add_left _ _) hy
  -- the error of the sum
  have e1 : (2 * N1 + D1 * 2 ^ sx) * D2 + (2 * N2 + D2 * 2 ^ sy) * D1
      = (2 * M + 2 ^ sx + 2 ^ sy) * (D1 * D2) := by
    have : (2 * N1 + D1 * 2 ^ sx) * D2 + (2 * N2 + D2 * 2 ^ sy) * D1
        = 2 * (N1 * D2 + N2 * D1) + (2 ^ sx + 2 ^ sy) * (D1 * D2) := by ring
    rw [this, ← hsum]; ring
  have e2 : (2 * (a * D1) + D1 * 2 ^ sx) * D2 + (2 * (b * D2) + D2 * 2 ^ sy) * D1
      = (2 * (a + b) + 2 ^ sx + 2 ^ sy) * (D1 * D2) := by ring
  have hDD : 0 < D1 * D2 := Nat.mul_pos hD1 hD2
  have up : 2 * (a + b) ≤ 2 * M + 2 ^ sx + 2 ^ sy := by
    apply Nat.le_of_mul_le_mul_right _ hDD
    rw [← e1]
    calc 2 * (a + b) * (D1 * D2) = 2 * (a * D1) * D2 + 2 * (b * D2) * D1 := by ring
      _ ≤ (2 * N1 + D1 * 2 ^ sx) * D2 + (2 * N2 + D2 * 2 ^ sy) * D1 :=
        Nat.add_le_add (Nat.mul_le_mul_right _ bx1) (Nat.mul_le_mul_right _ by1)
  have down : 2 * M ≤ 2 * (a + b) + 2 ^ sx + 2 ^ sy := by
    apply Nat.le_of_mul_le_mul_right _ hDD
    rw [← e2]
    calc 2 * M * (D1 * D2) = 2 * N1 * D2 + 2 * N2 * D1 := by rw [Nat.mul_assoc, hsum]; ring
      _ ≤ (2 * (a * D1) + D1 * 2 ^ sx) * D2 + (2 * (b * D2) + D2 * 2 ^ sy) * D1 :=
        Nat.add_le_add (Nat.mul_le_mul_right _ bx2) (Nat.mul_le_mul_right _ by2)
  generalize hs : excessBits (a + b) = s at *
  have hMs : 2 * 2 ^ s ∣ M := Dvd.dvd.trans (pow_two_succ_dvd s 1063 (by omega)) hM
  have hMd : ∀ t, t ≤ s → 2 ^ t ∣ M := fun t ht =>
    Dvd.dvd.trans (Nat.pow_dvd_pow 2 (by omega)) hM
  have hSd : ∀ t, t ≤ sx → t ≤ sy → 2 ^ t ∣ a + b := fun t h1 h2 =>
    Dvd.dvd.add (Dvd.dvd.trans (Nat.pow_dvd_pow 2 h1) dx)
      (Dvd.dvd.trans (Nat.pow_dvd_pow 2 h2) dy)
  have key : 2 * (a + b) ≤ 2 * M + 2 ^ s ∧ 2 * M ≤ 2 * (a + b) + 2 ^ s := by
    by_cases hcx : sx < s
    · by_cases hcy : sy < s
      · have h1 := pow_two_succ_dvd sx s hcx
        have h2 := pow_two_succ_dvd sy s hcy
        have p1 : 2 * 2 ^ sx ≤ 2 ^ s := Nat.le_of_dvd (by positivity) h1
        have p2 : 2 * 2 ^ sy ≤ 2 ^ s := Nat.le_of_dvd (by positivity) h2
        constructor <;> omega
      · have hsy_eq : sy = s := by omega
        subst hsy_eq
        have hg := pow_two_succ_dvd sx sy hcx
        exact ⟨refine_bound _ _ _ (2 ^ sx) (by positivity) (hSd sx le_rfl (by omega))
            (hMd sx (by omega)) hg (by omega),
          refine_bound _ _ _ (2 ^ sx) (by positivity) (hMd sx (by omega))
            (hSd sx le_rfl (by omega)) hg (by omega)⟩
    · have hsx_eq : sx = s := by omega
      subst hsx_eq
      by_cases hcy : sy < sx
      · have hg := pow_two_succ_dvd sy sx hcy
        exact ⟨refine_bound _ _ _ (2 ^ sy) (by positivity) (hSd sy (by omega) le_rfl)
            (hMd sy (by omega)) hg (by omega),
          refine_bound _ _ _ (2 ^ sy) (by positivity) (hMd sy (by omega))
            (hSd sy (by omega) le_rfl) hg (by omega)⟩
      · have hsy_eq : sy = sx := by omega
        subst hsy_eq
        by_cases h0 : 1 ≤ sy
        · exfalso
          have h1 := hax h0
          have h2 := hby h0
          have h3 : 2 ^ 52 * 2 ^ (sy + 1) ≤ a + b := by
            have : (2 : Nat) ^ (sy + 1) = 2 ^ sy + 2 ^ sy := by ring
            rw [this, Nat.mul_add]; omega
          have := excessBits_max (a + b) (sy + 1) (by omega)
            ((Nat.le_div_iff_mul_le (by positivity)).mpr h3)
          omega
        · have hz : sy = 0 := by omega
          subst hz
          have hN1 : N1 = 0 := by rcases hx with h | h; exact h; omega
          have hN2 : N2 = 0 := by rcases hy with h | h; exact h; omega
          subst hN1; subst hN2
          rw [roundScaled_zero D1 hD1] at ha
          rw [roundScaled_zero D2 hD2] at hb
          subst ha; subst hb
          have hM0 : M = 0 := by
            simp only [Nat.zero_mul, Nat.add_zero] at hsum
            rcases Nat.mul_eq_zero.mp hsum with h | h
            · exact h
            · omega
          subst hM0
          constructor <;> omega
  have := roundDiv_near (a + b) M (2 ^ s) (by positivity) hMs key.1 key.2
  unfold roundScaled
  simp only [Nat.div_one, Nat.one_mul, hs]
  exact this

/-! ## Typed decimal numerals -/

theorem digit_list_facts : ∀ c ∈ "0123456789".data,
    c.isDigit = true ∧ isStrWhiteSpace c = false ∧ c ≠ '-' ∧ c ≠ '+' ∧ c ≠ 'I' ∧
      c.toNat - 48 ≤ 9 := by
  decide

theorem digitChar_mem (d : Fin 10) : Nat.digitChar d.val ∈ "0123456789".data := by
  revert d; decide

theorem inputNumber_typed (s : CalculatorTool) (d : Fin 10) (h : IsTypedNumeral s.display) :
    IsTypedNumeral (inputNumber s (digitString d)).display := by
  unfold inputNumber
  split_ifs with h1 h2
  · exact ⟨[Nat.digitChar d.val], [], by simp,
      fun c hc => by rw [List.mem_singleton.mp hc]; exact digitChar_mem d,
      by simp, by simp, Or.inl rfl⟩
  · obtain ⟨A, B, hA, hAd, hBd, hlen, hd | hd⟩ := h
    · have hl : A.length < 12 := by
        have : s.display.length = A.length := by rw [← hd]; rfl
        omega
      refine ⟨A ++ [Nat.digitChar d.val], [], by simp, ?_, by simp, by simp; omega, Or.inl ?_⟩
      · intro c hc
        rcases List.mem_append.mp hc with hc | hc
        · exact hAd c hc
        · rw [List.mem_singleton.mp hc]; exact digitChar_mem d
      · show (s.display ++ digitString d).data = _
        rw [String.data_append, hd, digitString_data]
    · have hl : A.length + 1 + B.length < 12 := by
        have : s.display.length = (A ++ '.' :: B).length := by rw [← hd]; rfl
        simp only [List.length_append, List.length_cons] at this
        omega
      refine ⟨A, B ++ [Nat.digitChar d.val], hA, hAd, ?_, by simp; omega, Or.inr ?_⟩
      · intro c hc
        rcases List.mem_append.mp hc with hc | hc
        · exact hBd c hc
        · rw [List.mem_singleton.mp hc]; exact digitChar_mem d
      · show (s.display ++ digitString d).data = _
        rw [String.data_append, hd, digitString_data]
        simp
  · exact h

theorem inputDecimal_typed (s : CalculatorTool) (h : IsTypedNumeral s.display) :
    IsTypedNumeral (inputDecimal s).display := by
  unfold inputDecimal
  split_ifs with h1 h2
  · exact ⟨['0'], [], by simp, by decide, by simp, by simp, Or.inr rfl⟩
  · obtain ⟨A, B, hA, hAd, hBd, hlen, hd | hd⟩ := h
    · refine ⟨A, [], hA, hAd, by simp, by simp; omega, Or.inr ?_⟩
      show (s.display ++ ".").data = _
      rw [String.data_append, hd]
    · exfalso
      have : '.' ∈ s.display.data := by rw [hd]; simp
      simp [this] at h2
  · exact h

theorem typing_typed (keys : List Key) (hk : ∀ k ∈ keys, k.isTyping = true) :
    ∀ s : CalculatorTool, IsTypedNumeral s.display →
      IsTypedNumeral (keys.foldl press s).display ∧
      (keys.foldl press s).previousValue = s.previousValue ∧
      (keys.foldl press s).currentOperation = s.currentOperation := by
  induction keys with
  | nil => intro s h; exact ⟨h, rfl, rfl⟩
  | cons k keys ih =>
    intro s h
    have hk0 := hk k (List.mem_cons_self _ _)
    have hrest := ih (fun k' hk' => hk k' (List.mem_cons_of_mem _ hk'))
    cases k with
    | digit d =>
      obtain ⟨h1, h2, h3⟩ := hrest (press s (.digit d)) (inputNumber_typed s d h)
      exact ⟨h1, h2.trans (inputNumber_previousValue _ _),
        h3.trans (inputNumber_currentOperation _ _)⟩
    | decimal =>
      obtain ⟨h1, h2, h3⟩ := hrest (press s .decimal) (inputDecimal_typed s h)
      exact ⟨h1, h2.trans (inputDecimal_previousValue _),
        h3.trans (inputDecimal_currentOperation _)⟩
    | operation o => exact absurd hk0 (by simp [Key.isTyping])
    | equals => exact absurd hk0 (by simp [Key.isTyping])
    | sign => exact absurd hk0 (by simp [Key.isTyping])
    | percent => exact absurd hk0 (by simp [Key.isTyping])
    | clear => exact absurd hk0 (by simp [Key.isTyping])

theorem digitsVal_lt (ds : List Char) (h : ∀ c ∈ ds, c ∈ "0123456789".data) :
    digitsVal ds < 10 ^ ds.length := by
  induction ds using List.reverseRecOn with
  | nil => simp [digitsVal]
  | append_singleton ds c ih =>
    have h1 := ih (fun x hx => h x (List.mem_append_left _ hx))
    have h2 := (digit_list_facts c (h c (by simp))).2.2.2.2.2
    rw [digitsVal_append, List.length_append, List.length_singleton, pow_succ]
    omega

theorem ofDecimal_places (neg : Bool) (c f : Nat) :
    ofDecimal neg c (0 - (f : Int)) = ofMag neg (roundScaled (c * unit) (10 ^ f)) := by
  cases f with
  | zero =>
    show ofMag neg (roundScaled (c * 10 ^ 0 * unit) 1) = _
    simp
  | succ k =>
    have : (0 : Int) - ((k + 1 : Nat) : Int) = Int.negSucc k := by
      rw [Int.negSucc_eq]; push_cast; ring
    rw [this]
    rfl

theorem digits_isDigit (A : List Char) (hA : ∀ c ∈ A, c ∈ "0123456789".data) :
    ∀ c ∈ A, c.isDigit = true := fun c hc => (digit_list_facts c (hA c hc)).1

theorem filter_digits (A : List Char) (hA : ∀ c ∈ A, c.isDigit = true) :
    A.filter Char.isDigit = A := List.filter_eq_self.mpr hA

/-- The mantissa and the number of decimal places of a typed numeral. -/
theorem typed_parts (t : String) (h : IsTypedNumeral t) :
    ∃ A B : List Char, A ≠ [] ∧ (∀ c ∈ A, c ∈ "0123456789".data) ∧
      (∀ c ∈ B, c ∈ "0123456789".data) ∧ A.length + B.length ≤ 12 ∧
      (t.data = A ∧ B = [] ∨ t.data = A ++ '.' :: B) ∧
      decimalMantissa t = digitsVal (A ++ B) ∧ decimalPlaces t = B.length := by
  obtain ⟨A, B, hA, hAd, hBd, hlen, hd | hd⟩ := h
  · refine ⟨A, [], hA, hAd, by simp, by simp; omega, Or.inl ⟨hd, rfl⟩, ?_, ?_⟩
    · unfold decimalMantissa
      rw [hd, filter_digits A (digits_isDigit A hAd), List.append_nil]
    · unfold decimalPlaces
      rw [hd, (takeWhile_all _ A (digits_isDigit A hAd)).2]
      rfl
  · refine ⟨A, B, hA, hAd, hBd, hlen, Or.inr hd, ?_, ?_⟩
    · unfold decimalMantissa
      rw [hd, List.filter_append, filter_digits A (digits_isDigit A hAd),
        List.filter_cons_of_neg (by decide), filter_digits B (digits_isDigit B hBd)]
    · unfold decimalPlaces
      rw [hd, (takeWhile_append_stop _ A B '.' (digits_isDigit A hAd) not_isDigit_point).2]
      rfl

theorem typed_bounds (t : String) (h : IsTypedNumeral t) :
    decimalMantissa t < 10 ^ 12 ∧ decimalPlaces t ≤ 11 := by
  obtain ⟨A, B, hA, hAd, hBd, hlen, _, hm, hp⟩ := typed_parts t h
  have hApos : 1 ≤ A.length := by
    cases A with
    | nil => exact absurd rfl hA
    | cons a r => simp
  constructor
  · rw [hm]
    have := digitsVal_lt (A ++ B) (fun c hc => by
      rcases List.mem_append.mp hc with hc | hc
      · exact hAd c hc
      · exact hBd c hc)
    refine lt_of_lt_of_le this (Nat.pow_le_pow_right (by norm_num) ?_)
    rw [List.length_append]; exact hlen
  · rw [hp]; omega

theorem parseFloat_typed (t : String) (h : IsTypedNumeral t) :
    parseFloat t
      = ofMag false (roundScaled (decimalMantissa t * unit) (10 ^ decimalPlaces t)) := by
  obtain ⟨A, B, hA, hAd, hBd, hlen, hd, hm, hp⟩ := typed_parts t h
  obtain ⟨a, r, har⟩ : ∃ a r, A = a :: r := by
    cases A with
    | nil => exact absurd rfl hA
    | cons a r => exact ⟨a, r, rfl⟩
  have hf := digit_list_facts a (hAd a (by rw [har]; exact List.mem_cons_self _ _))
  have hAdig := digits_isDigit A hAd
  have hBdig := digits_isDigit B hBd
  -- the shape of the characters
  obtain ⟨rest, hdata⟩ : ∃ rest, t.data = a :: rest := by
    rcases hd with ⟨hd, _⟩ | hd
    · exact ⟨r, by rw [hd, har]⟩
    · exact ⟨r ++ '.' :: B, by rw [hd, har]; rfl⟩
  have hdrop : t.data.dropWhile isStrWhiteSpace = t.data := by
    rw [hdata]; simp [List.dropWhile, hf.2.1]
  have hpre : "Infinity".data.isPrefixOf t.data = false := by
    rw [hdata]
    show (('I' == a) && _) = false
    have : ('I' == a) = false := by simpa using fun h => hf.2.2.2.2.1 h.symm
    rw [this]; rfl
  have hmain : parseUnsigned false t.data
      = ofDecimal false (digitsVal (A ++ B)) (0 - (B.length : Int)) := by
    unfold parseUnsigned
    rw [hpre]
    simp only [Bool.false_eq_true, if_false]
    rcases hd with ⟨hd, hB⟩ | hd
    · rw [hd, (takeWhile_all _ A hAdig).1, (takeWhile_all _ A hAdig).2, hB]
      have hemp : A.isEmpty = false := by rw [har]; rfl
      simp [hemp, exponentPart]
    · rw [hd, (takeWhile_append_stop _ A B '.' hAdig not_isDigit_point).1,
        (takeWhile_append_stop _ A B '.' hAdig not_isDigit_point).2]
      have hemp : A.isEmpty = false := by rw [har]; rfl
      simp only [(takeWhile_all _ B hBdig).1, (takeWhile_all _ B hBdig).2, hemp,
        Bool.false_eq_true, false_and, if_false, exponentPart]
  have hpf : parseFloat t = parseUnsigned false t.data := by
    unfold parseFloat
    rw [hdrop]
    split
    · rename_i heq; rw [hdata] at heq; injection heq with h1 _; exact absurd h1 hf.2.2.1
    · rename_i heq; rw [hdata] at heq; injection heq with h1 _; exact absurd h1 hf.2.2.2.1
    · rfl
  rw [hpf, hmain, ofDecimal_places, hm, hp]

/-! ## Exact decimal addition (C18) -/

theorem ofMag_le (s : Bool) (m : Nat) (h : m ≤ maxMag) : ofMag s m = fin s m := by
  unfold ofMag
  rw [if_neg (by omega)]

theorem pow12_lt : (10 : Nat) ^ 12 < 2 ^ 52 := by norm_num

theorem operand_grid (c f : Nat) (hc : c < 10 ^ 12) :
    2 ^ excessBits (c * unit / 10 ^ f) ≤ unit := by
  rcases excessBits_inv (c * unit / 10 ^ f) with h | h
  · rw [h]; exact unit_pos
  · have h1 : 2 ^ 52 * 2 ^ excessBits (c * unit / 10 ^ f) ≤ c * unit / 10 ^ f :=
      (Nat.le_div_iff_mul_le (by positivity)).mp h
    have h2 : c * unit / 10 ^ f ≤ c * unit := Nat.div_le_self _ _
    have h3 : c * unit ≤ 2 ^ 52 * unit :=
      Nat.mul_le_mul_right _ (le_of_lt (lt_trans hc pow12_lt))
    exact Nat.le_of_mul_le_mul_left (le_trans h1 (le_trans h2 h3)) (by positivity)

theorem operand_bound (c f : Nat) (hc : c < 10 ^ 12) :
    roundScaled (c * unit) (10 ^ f) ≤ 10 ^ 12 * unit := by
  have hD : 0 < 10 ^ f := by positivity
  obtain ⟨b1, _⟩ := roundScaled_bounds (c * unit) (10 ^ f) hD
  have hg := operand_grid c f hc
  generalize roundScaled (c * unit) (10 ^ f) = a at *
  generalize 2 ^ excessBits (c * unit / 10 ^ f) = g at *
  have h1 : 2 * (a * 10 ^ f) ≤ 2 * (c * unit) * 10 ^ f + 10 ^ f * unit := by
    have e1 : 2 * (c * unit) ≤ 2 * (c * unit) * 10 ^ f := Nat.le_mul_of_pos_right _ hD
    have e2 : 10 ^ f * g ≤ 10 ^ f * unit := Nat.mul_le_mul_left _ hg
    omega
  have h2 : (2 * a) * 10 ^ f ≤ ((2 * c + 1) * unit) * 10 ^ f := by
    calc (2 * a) * 10 ^ f = 2 * (a * 10 ^ f) := by ring
      _ ≤ 2 * (c * unit) * 10 ^ f + 10 ^ f * unit := h1
      _ = ((2 * c + 1) * unit) * 10 ^ f := by ring
  have h3 : 2 * a ≤ (2 * c + 1) * unit := Nat.le_of_mul_le_mul_right h2 hD
  have h4 : (2 * c + 1) * unit ≤ 2 * (10 ^ 12 * unit) := by
    have : 2 * c + 1 ≤ 2 * 10 ^ 12 := by omega
    calc (2 * c + 1) * unit ≤ (2 * 10 ^ 12) * unit := Nat.mul_le_mul_right _ this
      _ = 2 * (10 ^ 12 * unit) := by ring
  omega

theorem operand_shift (c f : Nat) (hf : f ≤ 11) :
    c * unit = 0 ∨ 1 ≤ excessBits (c * unit / 10 ^ f) := by
  rcases Nat.eq_zero_or_pos c with h | h
  · left; rw [h]; simp
  · right
    refine excessBits_max _ 1 (by norm_num) ?_
    rw [Nat.div_div_eq_div_mul, Nat.le_div_iff_mul_le (by positivity)]
    have h1 : (10 : Nat) ^ f ≤ 10 ^ 11 := Nat.pow_le_pow_right (by norm_num) hf
    have h2 : 2 ^ 52 * (10 ^ 11 * 2 ^ 1) ≤ unit := by unfold unit; norm_num
    have h3 : unit ≤ c * unit := Nat.le_mul_of_pos_left _ h
    calc 2 ^ 52 * (10 ^ f * 2 ^ 1) ≤ 2 ^ 52 * (10 ^ 11 * 2 ^ 1) :=
          Nat.mul_le_mul_left _ (Nat.mul_le_mul_right _ h1)
      _ ≤ unit := h2
      _ ≤ c * unit := h3

theorem dvd_of_scaled (C M f : Nat) (hf : f ≤ 11) (h : C * unit = M * 10 ^ f) :
    2 ^ 1063 ∣ M := by
  have hu : unit = 2 ^ (1074 - f) * 2 ^ f := by
    unfold unit; rw [← pow_add]; congr 1; omega
  have h10 : (10 : Nat) ^ f = 5 ^ f * 2 ^ f := by rw [← Nat.mul_pow]
  rw [hu, h10, ← Nat.mul_assoc, ← Nat.mul_assoc] at h
  have h2 : C * 2 ^ (1074 - f) = M * 5 ^ f := Nat.eq_of_mul_eq_mul_right (by positivity) h
  have hd : 2 ^ (1074 - f) ∣ M * 5 ^ f := Dvd.intro_left _ h2
  have hco : Nat.Coprime (2 ^ (1074 - f)) (5 ^ f) :=
    Nat.Coprime.pow _ _ (by norm_num)
  have := hco.dvd_of_dvd_mul_right hd
  exact Dvd.dvd.trans (Nat.pow_dvd_pow 2 (by omega)) this

theorem sum_dvd (c1 f1 c2 f2 M : Nat) (hf1 : f1 ≤ 11) (hf2 : f2 ≤ 11)
    (hsum : (c1 * 10 ^ f2 + c2 * 10 ^ f1) * unit = M * 10 ^ (f1 + f2)) : 2 ^ 1063 ∣ M := by
  rcases le_total f1 f2 with h | h
  · obtain ⟨d, rfl⟩ : ∃ d, f2 = f1 + d := ⟨f2 - f1, by omega⟩
    have e : 10 ^ f1 * ((c1 * 10 ^ d + c2) * unit) = 10 ^ f1 * (M * 10 ^ (f1 + d)) := by
      calc 10 ^ f1 * ((c1 * 10 ^ d + c2) * unit)
            = (c1 * 10 ^ (f1 + d) + c2 * 10 ^ f1) * unit := by rw [pow_add]; ring
        _ = M * 10 ^ (f1 + (f1 + d)) := hsum
        _ = 10 ^ f1 * (M * 10 ^ (f1 + d)) := by rw [pow_add 10 f1 (f1 + d)]; ring
    exact dvd_of_scaled _ M (f1 + d) hf2 (Nat.eq_of_mul_eq_mul_left (by positivity) e)
  · obtain ⟨d, rfl⟩ : ∃ d, f1 = f2 + d := ⟨f1 - f2, by omega⟩
    have e : 10 ^ f2 * ((c1 + c2 * 10 ^ d) * unit) = 10 ^ f2 * (M * 10 ^ (f2 + d)) := by
      calc 10 ^ f2 * ((c1 + c2 * 10 ^ d) * unit)
            = (c1 * 10 ^ f2 + c2 * 10 ^ (f2 + d)) * unit := by rw [pow_add]; ring
        _ = M * 10 ^ (f2 + d + f2) := hsum
        _ = 10 ^ f2 * (M * 10 ^ (f2 + d)) := by rw [pow_add 10 (f2 + d) f2]; ring
    exact dvd_of_scaled _ M (f2 + d) hf1 (Nat.eq_of_mul_eq_mul_left (by positivity) e)

/-- Adding the doubles of two typed numerals gives the double of their exact
sum when that sum is a multiple of `2^-1074`. -/
theorem add_typed_exact (c1 f1 c2 f2 M : Nat) (hc1 : c1 < 10 ^ 12) (hf1 : f1 ≤ 11)
    (hc2 : c2 < 10 ^ 12) (hf2 : f2 ≤ 11)
    (hsum : (c1 * 10 ^ f2 + c2 * 10 ^ f1) * unit = M * 10 ^ (f1 + f2)) :
    add (ofMag false (roundScaled (c1 * unit) (10 ^ f1)))
        (ofMag false (roundScaled (c2 * unit) (10 ^ f2))) = fin false M := by
  have hmax : 2 * (10 ^ 12 * unit) ≤ maxMag := by unfold maxMag unit; norm_num
  have h1115 : 2 * (10 ^ 12 * unit) < 2 ^ 1115 := by unfold unit; norm_num
  have ha := operand_bound c1 f1 hc1
  have hb := operand_bound c2 f2 hc2
  have hexact := sum_rounds_exact (c1 * unit) (10 ^ f1) (c2 * unit) (10 ^ f2) M
    (by positivity) (by positivity)
    (by rw [← pow_add, ← hsum]; ring)
    (sum_dvd c1 f1 c2 f2 M hf1 hf2 hsum) (operand_shift c1 f1 hf1) (operand_shift c2 f2 hf2)
    (by omega)
  have hM : M ≤ maxMag := by
    have hP : 0 < 10 ^ (f1 + f2) := by positivity
    have e1 : c1 * 10 ^ f2 ≤ c1 * 10 ^ (f1 + f2) :=
      Nat.mul_le_mul_left _ (Nat.pow_le_pow_right (by norm_num) (by omega))
    have e2 : c2 * 10 ^ f1 ≤ c2 * 10 ^ (f1 + f2) :=
      Nat.mul_le_mul_left _ (Nat.pow_le_pow_right (by norm_num) (by omega))
    have e3 : M * 10 ^ (f1 + f2) ≤ ((c1 + c2) * unit) * 10 ^ (f1 + f2) := by
      rw [← hsum]
      calc (c1 * 10 ^ f2 + c2 * 10 ^ f1) * unit
            ≤ (c1 * 10 ^ (f1 + f2) + c2 * 10 ^ (f1 + f2)) * unit :=
              Nat.mul_le_mul_right _ (Nat.add_le_add e1 e2)
        _ = ((c1 + c2) * unit) * 10 ^ (f1 + f2) := by ring
    have e4 : M ≤ (c1 + c2) * unit := Nat.le_of_mul_le_mul_right e3 hP
    have e5 : (c1 + c2) * unit ≤ 2 * (10 ^ 12 * unit) := by
      calc (c1 + c2) * unit ≤ (2 * 10 ^ 12) * unit := Nat.mul_le_mul_right _ (by omega)
        _ = 2 * (10 ^ 12 * unit) := by ring
    omega
  rw [ofMag_le false _ (by omega), ofMag_le false _ (by omega)]
  simp only [add, if_true]
  rw [hexact, ofMag_le false M hM]

theorem zero_typed_numeral : IsTypedNumeral "0" :=
  ⟨['0'], [], by simp, by decide, by simp, by simp, Or.inl rfl⟩

theorem resultText_plain (x : JSNum) (h : inPlainRange x = true) :
    resultText x = JSNum.toString x := by
  unfold inPlainRange at h
  unfold resultText
  generalize ((abs x).gt (ofNat 999999999999) ||
    ((abs x).lt (ofDecimal false 1 (-9)) && !x.isZero)) = c at h ⊢
  cases c
  · rfl
  · exact absurd h (by decide)

/-- Claim C18: `1 . 5 + 2 =` from the cleared state shows `3.5`; and for any
two numerals typed with the digit and decimal-point keys around `+`, when the
exact sum of their decimal values is `M * 2^-1074` (a double) within the range
that `calculate` shows plainly, `=` leaves the display equal to
`Number::toString` of that double, its shortest decimal string. -/
theorem decimal_addition :
    (run [.clear, .digit 1, .decimal, .digit 5, .operation .plus, .digit 2, .equals]).display
      = "3.5" ∧
    ∀ (s : CalculatorTool) (kx ky : List Key) (M : Nat),
      (∀ k ∈ kx, k.isTyping = true) → (∀ k ∈ ky, k.isTyping = true) →
      (decimalMantissa (kx.foldl press (allClear s)).display *
          10 ^ decimalPlaces (ky.foldl press
            (setOperation (kx.foldl press (allClear s)) "+")).display +
        decimalMantissa (ky.foldl press
            (setOperation (kx.foldl press (allClear s)) "+")).display *
          10 ^ decimalPlaces (kx.foldl press (allClear s)).display) * unit
      = M * 10 ^ (decimalPlaces (kx.foldl press (allClear s)).display +
          decimalPlaces (ky.foldl press
            (setOperation (kx.foldl press (allClear s)) "+")).display) →
      inPlainRange (fin false M) = true →
      (calculate (ky.foldl press (setOperation (kx.foldl press (allClear s)) "+"))).display
        = JSNum.toString (fin false M) := by
  refine ⟨by decide, ?_⟩
  intro s kx ky M hkx hky hsum hrange
  obtain ⟨tx, px, ox⟩ := typing_typed kx hkx (allClear s) zero_typed_numeral
  have hop : (allClear s).currentOperation = none := rfl
  rw [hop] at ox
  generalize kx.foldl press (allClear s) = sx at *
  have hset := setOperation_idle sx "+" (Or.inl ox)
  have tset : IsTypedNumeral (setOperation sx "+").display := by rw [hset]; exact tx
  obtain ⟨ty, py, oy⟩ := typing_typed ky hky (setOperation sx "+") tset
  have hprev : (setOperation sx "+").previousValue = some (parseFloat sx.display) := by
    rw [hset]
  have hoper : (setOperation sx "+").currentOperation = some "+" := by rw [hset]
  rw [hprev] at py
  rw [hoper] at oy
  generalize ky.foldl press (setOperation sx "+") = sy at *
  rw [calculate_apply sy .plus (by decide) (parseFloat sx.display) oy py]
  show resultText (add (parseFloat sx.display) (parseFloat sy.display)) = _
  rw [parseFloat_typed _ tx, parseFloat_typed _ ty,
    add_typed_exact _ _ _ _ M (typed_bounds _ tx).1 (typed_bounds _ tx).2
      (typed_bounds _ ty).1 (typed_bounds _ ty).2 hsum]
  exact resultText_plain _ hrange

/-- Witness for C18: typing `1 . 5`, `+`, `2`, `=`; the sum 3.5 is `7 * 2^1073`
units of `2^-1074`, and the display is `"3.5"`. -/
theorem decimal_addition_witness :
    (calculate ([Key.digit 2].foldl press (setOperation
        ([Key.digit 1, Key.decimal, Key.digit 5].foldl press (allClear initial)) "+"))).display
      = JSNum.toString (fin false (7 * 2 ^ 1073)) ∧
    JSNum.toString (fin false (7 * 2 ^ 1073)) = "3.5" :=
  ⟨decimal_addition.2 initial [.digit 1, .decimal, .digit 5] [.digit 2] (7 * 2 ^ 1073)
    (by decide) (by decide) (by decide) (by decide), by decide⟩

/-! ## Percentage, clearing and re-opening (C21, C22, C23) -/

/-- Claim C21: `percentage()` replaces the display by the `toString()` text of
`parseFloat(display) / 100`, sets `shouldResetDisplay` and leaves the stored
operand and the pending operator as they were; with the display `"50"` the new
display is `"0.5"`. This holds in every state. -/
theorem percentage_spec :
    (∀ s : CalculatorTool,
      (percentage s).display = JSNum.toString (div (parseFloat s.display) (ofNat 100)) ∧
      (percentage s).shouldResetDisplay = true ∧
      (percentage s).previousValue = s.previousValue ∧
      (percentage s).currentOperation = s.currentOperation) ∧
    (percentage (run [.digit 5, .digit 0])).display = "0.5" ∧
    (percentage (run [.digit 7, .operation .plus, .digit 5, .digit 0]))
      = { display := "0.5", previousValue := some (ofNat 7), currentOperation := some "+",
          waitingForNewNumber := false, shouldResetDisplay := true } := by
  refine ⟨fun s => ⟨rfl, rfl, rfl, rfl⟩, by decide, by decide⟩

theorem press_waiting (s : CalculatorTool) (k : Key) :
    (press s k).waitingForNewNumber = s.waitingForNewNumber := by
  cases k with
  | digit d => simp only [press, inputNumber]; split_ifs <;> rfl
  | decimal => simp only [press, inputDecimal]; split_ifs <;> rfl
  | operation o =>
    simp only [press, setOperation]
    split_ifs
    · unfold calculate
      split
      · split_ifs <;> rfl
      · rfl
    · rfl
  | equals =>
    simp only [press]
    unfold calculate
    split
    · split_ifs <;> rfl
    · rfl
  | sign =>
    simp only [press, toggleSign]
    split_ifs
    · split <;> rfl
    · rfl
  | percent => rfl
  | clear => rfl

theorem reachable_waiting (s : CalculatorTool) (h : Reachable s) :
    s.waitingForNewNumber = false := by
  induction h with
  | init => rfl
  | step k _ ih => rw [press_waiting, ih]

/-- Claim C22: in every state `allClear()` leaves `display = "0"`,
`previousValue = null`, `currentOperation = null` and `shouldResetDisplay =
false`, the values the constructor sets; after any sequence of button presses
the cleared state is the constructed state. -/
theorem allClear_spec :
    (∀ s : CalculatorTool,
      (allClear s).display = "0" ∧ (allClear s).previousValue = none ∧
      (allClear s).currentOperation = none ∧ (allClear s).shouldResetDisplay = false ∧
      (allClear s).display = initial.display ∧
      (allClear s).previousValue = initial.previousValue ∧
      (allClear s).currentOperation = initial.currentOperation ∧
      (allClear s).shouldResetDisplay = initial.shouldResetDisplay) ∧
    (∀ keys : List Key, allClear (run keys) = initial) := by
  refine ⟨fun s => ⟨rfl, rfl, rfl, rfl, rfl, rfl, rfl, rfl⟩, fun keys => ?_⟩
  have h := reachable_waiting _ (reachable_run keys)
  simp only [allClear, initial]
  rw [h]

/-- Claim C23, as stated, fails: after `5`, `+` the widget is closed and
opened again, and none of the four fields has the value `allClear()` would
give it. -/
theorem open_does_not_reset :
    (CalculatorWidget.openModal (CalculatorWidget.closeModal
        (widgetAfter [.digit 5, .operation .plus]))).tool
      = { display := "5", previousValue := some (ofNat 5), currentOperation := some "+",
          waitingForNewNumber := false, shouldResetDisplay := true } ∧
    ¬ ((CalculatorWidget.openModal (CalculatorWidget.closeModal
          (widgetAfter [.digit 5, .operation .plus]))).tool.display = "0" ∨
       (CalculatorWidget.openModal (CalculatorWidget.closeModal
          (widgetAfter [.digit 5, .operation .plus]))).tool.previousValue = none ∨
       (CalculatorWidget.openModal (CalculatorWidget.closeModal
          (widgetAfter [.digit 5, .operation .plus]))).tool.currentOperation = none ∨
       (CalculatorWidget.openModal (CalculatorWidget.closeModal
          (widgetAfter [.digit 5, .operation .plus]))).tool.shouldResetDisplay = false) := by
  decide

/-- Claim C23, amended: `open()`, also after `closeModal()`, leaves every field
of the calculator as it was; it marks the modal active and writes the text
`updateDisplay()` computes from the unchanged display. -/
theorem open_preserves_state (w : CalculatorWidget) :
    (CalculatorWidget.openModal w).tool = w.tool ∧
    (CalculatorWidget.openModal (CalculatorWidget.closeModal w)).tool = w.tool ∧
    (CalculatorWidget.openModal w).modalActive = true ∧
    (CalculatorWidget.openModal w).shownText = displayText w.tool.display :=
  ⟨rfl, rfl, rfl, rfl⟩

/-! ## The error state (C26, C30) -/

theorem error_append (s : CalculatorTool) (num : String) (hd : s.display = "Error")
    (hr : s.shouldResetDisplay = false) :
    (inputNumber s num).display = "Error" ++ num := by
  have h0 : (("Error" : String) == "0") = false := by decide
  have hl : ("Error" : String).length < 12 := by decide
  unfold inputNumber
  rw [hr, hd, h0, if_neg (by decide), if_pos hl]

/-- Claim C26: when `calculate()` has taken its division-by-zero branch
(display `"Error"`, `shouldResetDisplay = false`), `inputNumber(d)` appends to
the display, which becomes `"Error"` followed by `d`. -/
theorem digit_after_error (s : CalculatorTool) (prev : JSNum) (d : Fin 10)
    (hop : s.currentOperation = some "÷") (hprev : s.previousValue = some prev)
    (hz : (parseFloat s.display).isZero = true) :
    (calculate s).display = "Error" ∧ (calculate s).shouldResetDisplay = false ∧
    (inputNumber (calculate s) (digitString d)).display = "Error" ++ digitString d := by
  have h := calculate_divide_zero s prev hop hprev hz
  refine ⟨by rw [h], by rw [h], ?_⟩
  exact error_append _ _ (by rw [h]) (by rw [h])

/-- Witness for C26: `7 ÷ 0 =` and then the digit `5`. -/
theorem digit_after_error_witness :
    (calculate (run [.digit 7, .operation .divide, .digit 0])).display = "Error" ∧
    (calculate (run [.digit 7, .operation .divide, .digit 0])).shouldResetDisplay = false ∧
    (inputNumber (calculate (run [.digit 7, .operation .divide, .digit 0]))
      (digitString 5)).display = "Error" ++ digitString 5 :=
  digit_after_error (run [.digit 7, .operation .divide, .digit 0]) (ofNat 7) 5
    (by decide) (by decide) (by decide)

/-- Claim C30: when the operator `÷` is pending (in a reachable state, or in
any state whose `previousValue` is set), `shouldResetDisplay` is false and the
display parses to zero, `setOperation(op)` ends with display `"Error"`,
`currentOperation = op`, `previousValue = parseFloat("Error")`, which is `NaN`
and not `null`, and `shouldResetDisplay = true`; a following `inputNumber(d)`
leaves the display equal to `d`. -/
theorem chained_divide_by_zero (s : CalculatorTool) (operation : String) (d : Fin 10)
    (hs : Reachable s ∨ s.previousValue ≠ none)
    (hop : s.currentOperation = some "÷") (hr : s.shouldResetDisplay = false)
    (hz : (parseFloat s.display).isZero = true) :
    (setOperation s operation).display = "Error" ∧
    (setOperation s operation).currentOperation = some operation ∧
    (setOperation s operation).previousValue = some (parseFloat "Error") ∧
    parseFloat "Error" = nan ∧
    (setOperation s operation).shouldResetDisplay = true ∧
    (inputNumber (setOperation s operation) (digitString d)).display = digitString d := by
  have hp : s.previousValue ≠ none := by
    rcases hs with hs | hs
    · exact (reachable_iff s hs).mp (by rw [hop]; simp)
    · exact hs
  obtain ⟨prev, hprev⟩ := Option.ne_none_iff_exists'.mp hp
  have hc := calculate_divide_zero s prev hop hprev hz
  have hf := setOperation_fold s operation (by rw [hop]; simp) hr
  rw [hc] at hf
  rw [hf]
  refine ⟨rfl, rfl, rfl, by decide, rfl, ?_⟩
  simp [inputNumber]

/-- Witness for C30: `7 ÷ 0 +` and then the digit `5`. -/
theorem chained_divide_by_zero_witness :
    (setOperation (run [.digit 7, .operation .divide, .digit 0]) "+").display = "Error" ∧
    (setOperation (run [.digit 7, .operation .divide, .digit 0]) "+").currentOperation
      = some "+" ∧
    (setOperation (run [.digit 7, .operation .divide, .digit 0]) "+").previousValue
      = some (parseFloat "Error") ∧
    parseFloat "Error" = nan ∧
    (setOperation (run [.digit 7, .operation .divide, .digit 0]) "+").shouldResetDisplay
      = true ∧
    (inputNumber (setOperation (run [.digit 7, .operation .divide, .digit 0]) "+")
      (digitString 5)).display = digitString 5 :=
  chained_divide_by_zero (run [.digit 7, .operation .divide, .digit 0]) "+" 5
    (Or.inl (reachable_run _)) (by decide) (by decide) (by decide)

/-! ## Two operators in a row (C29) -/

/-- Claim C29: in every state, `setOperation(op1)` followed by
`setOperation(op2)` gives the state `setOperation(op2)` alone gives: the second
call evaluates nothing and stores the same left operand. -/
theorem setOperation_twice (s : CalculatorTool) (op1 op2 : String) :
    setOperation (setOperation s op1) op2 = setOperation s op2 := by
  simp [setOperation]

/-! ## The search history (C28) -/

/-- Claim C28: for a history without duplicates, a query `q` and a limit of at
least one, `addToSearchHistory(q)` produces `q` followed by the other elements
of the history in their order, cut to the limit; the result has `q` at its
head and exactly once, has no duplicates and is no longer than the limit. -/
theorem addToSearchHistory_spec (limit : Nat) (h : List String) (q : String)
    (hnd : h.Nodup) (hl : 1 ≤ limit) :
    addToSearchHistory limit h q = (q :: h.filter (fun x => decide (x ≠ q))).take limit ∧
    (addToSearchHistory limit h q).head? = some q ∧
    (addToSearchHistory limit h q).count q = 1 ∧
    (addToSearchHistory limit h q).Nodup ∧
    (addToSearchHistory limit h q).length ≤ limit := by
  have hf : h.filter (fun item => item != q) = h.filter (fun x => decide (x ≠ q)) := by
    congr 1; funext x; by_cases hx : x = q <;> simp [hx]
  obtain ⟨m, rfl⟩ : ∃ m, limit = m + 1 := ⟨limit - 1, by omega⟩
  have hq : q ∉ (h.filter (fun item => item != q)).take m := by
    intro hm
    have := List.mem_of_mem_take hm
    simp at this
  have hnd2 : ((h.filter (fun item => item != q)).take m).Nodup :=
    (hnd.sublist (List.filter_sublist _)).sublist (List.take_sublist _ _)
  unfold addToSearchHistory
  rw [List.take_succ_cons]
  refine ⟨by rw [hf, List.take_succ_cons], rfl, ?_, List.nodup_cons.mpr ⟨hq, hnd2⟩, ?_⟩
  · rw [List.count_cons_self, List.count_eq_zero_of_not_mem hq]
  · simp only [List.length_cons, List.length_take]
    omega

/-- Witness for C28: the query `"b"` added to the history `a, b, c` with limit 3. -/
theorem addToSearchHistory_spec_witness :
    addToSearchHistory 3 ["a", "b", "c"] "b"
        = ("b" :: ["a", "b", "c"].filter (fun x => decide (x ≠ "b"))).take 3 ∧
    (addToSearchHistory 3 ["a", "b", "c"] "b").head? = some "b" ∧
    (addToSearchHistory 3 ["a", "b", "c"] "b").count "b" = 1 ∧
    (addToSearchHistory 3 ["a", "b", "c"] "b").Nodup ∧
    (addToSearchHistory 3 ["a", "b", "c"] "b").length ≤ 3 :=
  addToSearchHistory_spec 3 ["a", "b", "c"] "b" (by decide) (by decide)

/-! ## Exceptions and the text `Error` (C27) -/

theorem number_text_head (s : Bool) (b : List Char)
    (h : isDecimalBody b = true ∨ isExponentialBody b = true) :
    (if s then ['-'] else []) ++ b ≠ "Error".data := by
  have hb : ∃ c r, b = c :: r ∧ c.isDigit = true := by
    rcases h with h | h
    · exact isDecimalBody_head b h
    · exact isExponentialBody_head b h
  obtain ⟨c, r, hb, hc⟩ := hb
  rw [hb]
  cases s
  · intro he
    injection he with h1 _
    rw [h1] at hc
    exact absurd hc (by decide)
  · intro he
    injection he with h1 _
    exact absurd h1 (by decide)

theorem toString_ne_error (x : JSNum) : JSNum.toString x ≠ "Error" := by
  intro h
  have hd : (JSNum.toString x).data = "Error".data := by rw [h]
  revert hd
  cases x with
  | nan => decide
  | inf s => cases s <;> decide
  | fin s m =>
    cases m with
    | zero => cases s <;> decide
    | succ m =>
      have hs := shortestFrom_digits (m + 1) (decExp (m + 1)) 17 1
      exact number_text_head s _ (layout_body (shortest (m + 1)).1 (shortest (m + 1)).2 hs.1 hs.2)

theorem toExponential6_ne_error (x : JSNum) : toExponential6 x ≠ "Error" := by
  intro h
  have hd : (toExponential6 x).data = "Error".data := by rw [h]
  revert hd
  cases x with
  | nan => decide
  | inf s => cases s <;> decide
  | fin s m =>
    cases m with
    | zero => cases s <;> decide
    | succ m =>
      exact number_text_head s _ (Or.inr (exponent_layout_body
        (Nat.toDigits 10 (expParts (m + 1)).1) (expParts (m + 1)).2
        (toDigits_ne_nil _) (toDigits_all_digit _)))

theorem resultText_ne_error (x : JSNum) : resultText x ≠ "Error" := by
  unfold resultText
  split_ifs
  · exact toExponential6_ne_error x
  · exact toString_ne_error x

theorem resultTextTry_ok (r : JSNum) : resultTextTry r = Except.ok (resultText r) := by
  unfold resultTextTry resultText
  split_ifs <;> rfl

theorem storeResultOrCatch_eq (s : CalculatorTool) (r : JSNum) :
    storeResultOrCatch s r = storeResult s r := by
  unfold storeResultOrCatch
  rw [resultTextTry_ok]
  rfl

/-- Claim C27: the `try` block of `calculate()` raises no exception, so the
method with its `catch` branch is the method without it, and `calculate()`
stores the display `"Error"` only by its division-by-zero branch: when the
display is `"Error"` after `calculate()`, either the call changed nothing or
the pending operator was `÷` with a stored operand and a display parsing to
zero. The other operations are total functions of the state. -/
theorem calculate_never_throws :
    (∀ r : JSNum, resultTextTry r = Except.ok (resultText r)) ∧
    (∀ s : CalculatorTool, calculateWithCatch s = calculate s) ∧
    (∀ s : CalculatorTool, (calculate s).display = "Error" →
      calculate s = s ∨
      (s.currentOperation = some "÷" ∧ s.previousValue ≠ none ∧
        (parseFloat s.display).isZero = true)) := by
  refine ⟨resultTextTry_ok, fun s => ?_, fun s h => ?_⟩
  · unfold calculateWithCatch calculate
    simp only [storeResultOrCatch_eq]
  · cases hop : s.currentOperation with
    | none => left; unfold calculate; rw [hop]
    | some op =>
      cases hprev : s.previousValue with
      | none => left; unfold calculate; rw [hop, hprev]
      | some prev =>
        unfold calculate at h ⊢
        rw [hop, hprev] at h ⊢
        dsimp only at h ⊢
        split_ifs at h ⊢ with h1 h2 h3 h4 h5 h6
        · exact Or.inl rfl
        · exact absurd h (resultText_ne_error _)
        · exact absurd h (resultText_ne_error _)
        · exact absurd h (resultText_ne_error _)
        · exact Or.inr ⟨by rw [h5], by simp, h6⟩
        · exact absurd h (resultText_ne_error _)
        · exact Or.inl rfl

/-- Witness for C27: `calculate()` after `7 ÷ 0` stores `"Error"`, and the
state it started from had `÷` pending and a display parsing to zero. -/
theorem calculate_never_throws_witness :
    calculate (run [.digit 7, .operation .divide, .digit 0])
        = run [.digit 7, .operation .divide, .digit 0] ∨
      ((run [.digit 7, .operation .divide, .digit 0]).currentOperation = some "÷" ∧
        (run [.digit 7, .operation .divide, .digit 0]).previousValue ≠ none ∧
        (parseFloat (run [.digit 7, .operation .divide, .digit 0]).display).isZero = true) :=
  calculate_never_throws.2.2 (run [.digit 7, .operation .divide, .digit 0]) (by decide)

/-! ## The rendered text (C24, C25) -/

theorem large_value_exponential (display : String) (h1 : isNumericString display = true)
    (h2 : display ≠ "") (h3 : (abs (parseFloat display)).ge (ofNat 1000000000) = true) :
    displayText display = toExponential6 (parseFloat display) := by
  have h2b : (display != "") = true := by simpa using h2
  unfold displayText
  rw [h1, h2b, h3]
  rfl

/-- Claim C24 at its failing inputs: the product of the typed `0.00000001` and
`0.0000001` is stored as `"1.000000e-15"`, a non-zero value below `1e-9`, and
`updateDisplay()` renders it as `"0"`; the typed `0.0000000005` is rendered as
`"5e-10"`, without the six fractional digits. A value of at least `1e9`, such
as `1234567890`, is rendered by `toExponential(6)`. -/
theorem tiny_result_rendered_zero :
    (run [.digit 0, .decimal, .digit 0, .digit 0, .digit 0, .digit 0, .digit 0, .digit 0,
          .digit 0, .digit 1, .operation .times, .digit 0, .decimal, .digit 0, .digit 0,
          .digit 0, .digit 0, .digit 0, .digit 0, .digit 1, .equals]).display
        = "1.000000e-15" ∧
    isNumericString "1.000000e-15" = true ∧
    (parseFloat "1.000000e-15").isZero = false ∧
    (abs (parseFloat "1.000000e-15")).lt (ofDecimal false 1 (-9)) = true ∧
    displayText "1.000000e-15" = "0" ∧
    displayText "0.0000000005" = "5e-10" ∧
    displayText "1234567890" = "1.234568e+9" := by
  decide

theorem dropWhile_none (p : Char → Bool) (l : List Char) (h : ∀ c ∈ l, p c = false) :
    l.dropWhile p = l := by
  cases l with
  | nil => rfl
  | cons a r => exact List.dropWhile_cons_of_neg (by rw [h a (List.mem_cons_self _ _)]; simp)

theorem trimWhiteSpace_none (l : List Char) (h : ∀ c ∈ l, isStrWhiteSpace c = false) :
    trimWhiteSpace l = l := by
  unfold trimWhiteSpace
  rw [dropWhile_none _ l h, dropWhile_none _ l.reverse (fun c hc => h c (List.mem_reverse.mp hc)),
    List.reverse_reverse]

theorem isStrUnsignedDecimal_digits (n : Nat) :
    isStrUnsignedDecimal (Nat.toDigits 10 n) = true := by
  unfold isStrUnsignedDecimal
  rw [(takeWhile_all _ _ (toDigits_all_digit n)).2, (takeWhile_all _ _ (toDigits_all_digit n)).1]
  have := toDigits_ne_nil n
  cases hd : Nat.toDigits 10 n with
  | nil => exact absurd hd this
  | cons a r => simp [isExponentPartOrEmpty]

theorem toDigits_no_space (n : Nat) : ∀ c ∈ Nat.toDigits 10 n, isStrWhiteSpace c = false := by
  intro c hc
  obtain ⟨d, hd, rfl⟩ := toDigits_mem_digitChar n c hc
  exact (digitChar_facts d hd).1

theorem isNumericString_intNumeral (z : Int) : isNumericString (intNumeral z) = true := by
  have hws : ∀ c ∈ (intNumeral z).data, isStrWhiteSpace c = false := by
    intro c hc
    unfold intNumeral at hc
    rcases List.mem_append.mp hc with hc | hc
    · split_ifs at hc
      · rw [List.mem_singleton.mp hc]; decide
      · exact absurd hc (List.not_mem_nil _)
    · exact toDigits_no_space _ c hc
  unfold isNumericString
  rw [trimWhiteSpace_none _ hws]
  unfold intNumeral
  by_cases h : z < 0
  · simp only [if_pos h, List.singleton_append, isStrUnsignedDecimal_digits, Bool.or_true]
  · simp only [if_neg h, List.nil_append]
    obtain ⟨c, r, hcr⟩ : ∃ c r, Nat.toDigits 10 z.natAbs = c :: r := by
      cases hd : Nat.toDigits 10 z.natAbs with
      | nil => exact absurd hd (toDigits_ne_nil _)
      | cons c r => exact ⟨c, r, rfl⟩
    obtain ⟨d, hd, hcd⟩ := toDigits_mem_digitChar _ c (by rw [hcr]; exact List.mem_cons_self _ _)
    have hf := digitChar_facts d hd
    have hu := isStrUnsignedDecimal_digits z.natAbs
    rw [hcr] at hu ⊢
    have : (match c :: r with
        | '+' :: r => isStrUnsignedDecimal r
        | '-' :: r => isStrUnsignedDecimal r
        | cs => isStrUnsignedDecimal cs) = isStrUnsignedDecimal (c :: r) := by
      split
      · rename_i heq; injection heq with h1 _; rw [hcd] at h1; exact absurd h1 hf.2.2.1
      · rename_i heq; injection heq with h1 _; rw [hcd] at h1; exact absurd h1 hf.2.1
      · rfl
    rw [this, hu, Bool.or_true]

theorem parseFloat_intNumeral (z : Int) (hz : z.natAbs < 2 ^ 53) :
    parseFloat (intNumeral z) = fin (decide (z < 0)) (z.natAbs * unit) := by
  unfold intNumeral
  by_cases h : z < 0
  · rw [if_pos h]
    have : parseFloat (String.mk (['-'] ++ Nat.toDigits 10 z.natAbs))
        = parseUnsigned true (Nat.toDigits 10 z.natAbs) := rfl
    rw [this, parseUnsigned_digits true _ hz]
    simp [h]
  · rw [if_neg h, List.nil_append, parseFloat_nat _ hz]
    simp [h]

theorem groupReversed_filter : ∀ (n : Nat) (l : List Char), l.length ≤ n →
    (groupReversed l).filter (fun c => c != ',') = l.filter (fun c => c != ',') := by
  intro n
  induction n using Nat.strong_induction_on with
  | _ n ih =>
    intro l hl
    match l with
    | [] => rfl
    | [_] => rfl
    | [_, _] => rfl
    | [_, _, _] => rfl
    | a :: b :: c :: d :: rest =>
      have hr := ih (rest.length + 1) (by simp only [List.length_cons] at hl; omega)
        (d :: rest) (by simp)
      unfold groupReversed
      simp only [List.filter_cons]
      rw [hr]
      simp [List.filter_cons]

theorem groupThousands_filter (ds : List Char) (h : ∀ c ∈ ds, c.isDigit = true) :
    (groupThousands ds).filter (fun c => c != ',') = ds := by
  unfold groupThousands
  rw [List.filter_reverse, groupReversed_filter _ _ (le_refl _), ← List.filter_reverse,
    List.reverse_reverse]
  apply List.filter_eq_self.mpr
  intro c hc
  have := h c hc
  simp only [bne_iff_ne, ne_eq]
  intro hcc
  rw [hcc] at this
  exact absurd this (by decide)

theorem displayText_intNumeral (n : Int) (hn : n.natAbs < 10 ^ 9) :
    displayText (intNumeral n)
      = String.mk ((if n < 0 then ['-'] else []) ++ groupThousands (Nat.toDigits 10 n.natAbs)) := by
  have h53 : n.natAbs < 2 ^ 53 := lt_trans hn (by norm_num)
  have hne : (intNumeral n != "") = true := by
    have hd : (intNumeral n).data ≠ [] := by
      unfold intNumeral
      simp [toDigits_ne_nil]
    simp only [bne_iff_ne, ne_eq]
    intro he
    rw [he] at hd
    exact hd rfl
  have hbig : ofNat 1000000000 = fin false (1000000000 * unit) :=
    ofDecimal_int false _ (by norm_num)
  have hge : (abs (fin (decide (n < 0)) (n.natAbs * unit))).ge (ofNat 1000000000) = false := by
    rw [hbig]
    have : n.natAbs * unit < 1000000000 * unit :=
      Nat.mul_lt_mul_of_pos_right (by simpa using hn) unit_pos
    simp [JSNum.abs, ge, lt, this]
  have hint : (fin (decide (n < 0)) (n.natAbs * unit)).isInteger = true := by
    simp [isInteger]
  have hround : roundHalfUp (n.natAbs * unit * 1000) unit = n.natAbs * 1000 := by
    have e : n.natAbs * unit * 1000 = n.natAbs * 1000 * unit := by ring
    unfold roundHalfUp
    rw [e, Nat.mul_mod_left, Nat.mul_div_cancel _ unit_pos]
    simp [unit_pos]
  unfold displayText
  rw [isNumericString_intNumeral, hne, parseFloat_intNumeral n h53, hge, hint]
  simp only [Bool.and_self, if_true, Bool.false_eq_true, if_false]
  unfold JSNum.toLocaleString
  simp only [hround, Nat.mul_mod_left, Nat.mul_div_cancel _ (by norm_num : 0 < 1000), if_true,
    List.append_nil, decide_eq_true_eq]

/-- Claim C25: for every integer `n` with `|n| < 1e9`, the text
`updateDisplay()` renders (in the `en-US` locale) for the display holding the
decimal numeral of `n` is that numeral with thousands grouping separators, and
removing the separators from the text gives the numeral back, which parses to
`n`. -/
theorem integer_rendering (n : Int) (hn : n.natAbs < 10 ^ 9) :
    displayText (intNumeral n)
      = String.mk ((if n < 0 then ['-'] else []) ++
          groupThousands (Nat.toDigits 10 n.natAbs)) ∧
    removeSeparators (displayText (intNumeral n)) = intNumeral n ∧
    IsInt (parseFloat (removeSeparators (displayText (intNumeral n)))) n := by
  have h53 : n.natAbs < 2 ^ 53 := lt_trans hn (by norm_num)
  have hrem : removeSeparators (displayText (intNumeral n)) = intNumeral n := by
    rw [displayText_intNumeral n hn]
    unfold removeSeparators intNumeral
    congr 1
    show List.filter _ (_ ++ _) = _
    rw [List.filter_append, groupThousands_filter _ (toDigits_all_digit _)]
    congr 1
    split_ifs <;> rfl
  refine ⟨displayText_intNumeral n hn, hrem, ?_⟩
  rw [hrem]
  exact parseFloat_int n h53

/-- Witness for C25: the display `1234567` is rendered as `1,234,567`. -/
theorem integer_rendering_witness :
    displayText "1234567" = "1,234,567" ∧
    (displayText (intNumeral 1234567)
      = String.mk ((if (1234567 : Int) < 0 then ['-'] else []) ++
          groupThousands (Nat.toDigits 10 (1234567 : Int).natAbs)) ∧
    removeSeparators (displayText (intNumeral 1234567)) = intNumeral 1234567 ∧
    IsInt (parseFloat (removeSeparators (displayText (intNumeral 1234567)))) 1234567) :=
  ⟨by decide, integer_rendering 1234567 (by decide)⟩

/-! ## The sign button twice (C19) -/

theorem ofDecimal_zero (p : Int) : ofDecimal false 0 p = fin false 0 := by
  cases p with
  | ofNat k =>
    show ofMag false (roundScaled (0 * 10 ^ k * unit) 1) = _
    rw [Nat.zero_mul, Nat.zero_mul, roundScaled_zero 1 (by norm_num)]
    rfl
  | negSucc k =>
    show ofMag false (roundScaled (0 * unit) (10 ^ (k + 1))) = _
    rw [Nat.zero_mul, roundScaled_zero _ (by positivity)]
    rfl

theorem toDigits_eq_zero (n : Nat) (h : Nat.toDigits 10 n = ['0']) : n = 0 := by
  by_contra hn
  obtain ⟨c, r, hcr, hc⟩ := toDigits_head_ne_zero n (Nat.pos_of_ne_zero hn)
  rw [h] at hcr
  injection hcr with h1 _
  exact hc h1.symm

theorem candidates_head_pos (mag k : Nat) (hk : 1 ≤ k) (hm : unit ≤ mag) :
    (candidates mag 1 k).headD 0 ≠ 0 := by
  obtain ⟨j, rfl⟩ : ∃ j, k = j + 1 := ⟨k - 1, by omega⟩
  have hp : (((j + 1 : Nat) : Int) - 1) = Int.ofNat j := by simp
  have hq : 0 < mag * 10 ^ j / unit := by
    apply Nat.div_pos _ unit_pos
    exact le_trans hm (Nat.le_mul_of_pos_right _ (by positivity))
  unfold candidates
  rw [hp]
  simp only [scaleDec]
  split_ifs <;> simp only [List.headD_cons] <;> omega

theorem shortestFrom_ne_zero (mag : Nat) (h0 : 0 < mag) (hm : unit ≤ mag) :
    ∀ fuel k : Nat, 1 ≤ k → (shortestFrom mag 1 fuel k).1 ≠ ['0'] := by
  intro fuel
  induction fuel with
  | zero =>
    intro k hk h
    exact candidates_head_pos mag k hk hm (toDigits_eq_zero _ h)
  | succ fuel ih =>
    intro k hk
    unfold shortestFrom
    cases hrt : roundTrip mag 1 k with
    | none => exact ih (k + 1) (by omega)
    | some s =>
      simp only
      split_ifs with hs
      · decide
      · intro h
        have hz := toDigits_eq_zero s h
        subst hz
        unfold roundTrip at hrt
        have := List.find?_some hrt
        simp only [decide_eq_true_eq] at this
        rw [ofDecimal_zero] at this
        injection this with _ h2
        omega

theorem shortestFrom_exponent (mag : Nat) (n : Int) :
    ∀ fuel k : Nat, (shortestFrom mag n fuel k).2 = n ∨
      (shortestFrom mag n fuel k).1 = ['1'] := by
  intro fuel
  induction fuel with
  | zero => intro k; exact Or.inl rfl
  | succ fuel ih =>
    intro k
    unfold shortestFrom
    split
    · split_ifs
      · exact Or.inr rfl
      · exact Or.inl rfl
    · exact ih (k + 1)

theorem layout_eq_zero (ds : List Char) (n : Int) (hne : ds ≠ [])
    (h : layout ds n = ['0']) : ds = ['0'] ∧ n = 1 := by
  have hlen : 1 ≤ ds.length := by
    cases ds with
    | nil => exact absurd rfl hne
    | cons a r => simp
  unfold layout at h
  split_ifs at h with h1 h2 h3 h4
  · have hl := congrArg List.length h
    simp only [List.length_append, List.length_replicate, List.length_singleton] at hl
    have hd : ds.length = 1 := by omega
    have hn : n = 1 := by omega
    refine ⟨?_, hn⟩
    rw [hn, hd] at h
    simpa using h
  · have : '.' ∈ ['0'] := by rw [← h]; simp
    simp at this
  · injection h with _ h5
    exact absurd h5 (by simp)
  · have : 'e' ∈ ['0'] := by rw [← h]; simp [expSuffix]
    simp at this
  · have : '.' ∈ ['0'] := by rw [← h]; simp
    simp at this

theorem layout_shortest_ne_zero (m : Nat) :
    layout (shortest (m + 1)).1 (shortest (m + 1)).2 ≠ ['0'] := by
  intro h
  have hs := shortestFrom_digits (m + 1) (decExp (m + 1)) 17 1
  obtain ⟨hd, hn⟩ := layout_eq_zero _ _ hs.1 h
  have hexp : decExp (m + 1) = 1 := by
    rcases shortestFrom_exponent (m + 1) (decExp (m + 1)) 17 1 with he | he
    · rw [← he]; exact hn
    · rw [hd] at he
      exact absurd he (by decide)
  have hu : unit ≤ m + 1 := by
    by_contra hlt
    unfold decExp at hexp
    rw [if_neg hlt] at hexp
    omega
  have := shortestFrom_ne_zero (m + 1) (by omega) hu 17 1 (le_refl _)
  apply this
  rw [← hexp]
  exact hd

theorem number_chars_ne_minus_zero (s : Bool) (b : List Char)
    (hb : isDecimalBody b = true ∨ isExponentialBody b = true) (h0 : b ≠ ['0']) :
    (if s then ['-'] else []) ++ b ≠ "-0".data := by
  have hh : ∃ c r, b = c :: r ∧ c.isDigit = true := by
    rcases hb with hb | hb
    · exact isDecimalBody_head b hb
    · exact isExponentialBody_head b hb
  obtain ⟨c, r, hcr, hc⟩ := hh
  cases s
  · intro he
    rw [hcr] at he
    injection he with h1 _
    rw [h1] at hc
    exact absurd hc (by decide)
  · intro he
    injection he with _ h2
    exact h0 h2

theorem toString_ne_minus_zero (x : JSNum) : JSNum.toString x ≠ "-0" := by
  intro h
  have hd : (JSNum.toString x).data = "-0".data := by rw [h]
  revert hd
  cases x with
  | nan => decide
  | inf s => cases s <;> decide
  | fin s m =>
    cases m with
    | zero => cases s <;> decide
    | succ m =>
      have hs := shortestFrom_digits (m + 1) (decExp (m + 1)) 17 1
      exact number_chars_ne_minus_zero s _
        (layout_body (shortest (m + 1)).1 (shortest (m + 1)).2 hs.1 hs.2)
        (layout_shortest_ne_zero m)

theorem toExponential6_ne_minus_zero (x : JSNum) : toExponential6 x ≠ "-0" := by
  intro h
  have hd : (toExponential6 x).data = "-0".data := by rw [h]
  revert hd
  cases x with
  | nan => decide
  | inf s => cases s <;> decide
  | fin s m =>
    cases m with
    | zero => cases s <;> decide
    | succ m =>
      have hb := exponent_layout_body (Nat.toDigits 10 (expParts (m + 1)).1)
        (expParts (m + 1)).2 (toDigits_ne_nil _) (toDigits_all_digit _)
      refine number_chars_ne_minus_zero s _ (Or.inr hb) ?_
      intro h0
      rw [h0] at hb
      exact absurd hb (by decide)

theorem resultText_ne_minus_zero (x : JSNum) : resultText x ≠ "-0" := by
  unfold resultText
  split_ifs
  · exact toExponential6_ne_minus_zero x
  · exact toString_ne_minus_zero x

theorem calculate_ne_minus_zero (s : CalculatorTool) (h : s.display ≠ "-0") :
    (calculate s).display ≠ "-0" := by
  unfold calculate
  split
  · split_ifs
    · exact h
    · exact resultText_ne_minus_zero _
    · exact resultText_ne_minus_zero _
    · exact resultText_ne_minus_zero _
    · show ("Error" : String) ≠ "-0"
      decide
    · exact resultText_ne_minus_zero _
    · exact h
  · exact h

theorem not_code_minus : isCodeDisplay "-" = false := by decide

theorem press_ne_minus_zero (s : CalculatorTool) (k : Key)
    (hshape : isCodeDisplay s.display = true) (h : s.display ≠ "-0") :
    (press s k).display ≠ "-0" := by
  cases k with
  | digit d =>
    show (inputNumber s (digitString d)).display ≠ "-0"
    unfold inputNumber
    split_ifs
    · intro he
      have := congrArg String.data he
      rw [digitString_data] at this
      exact absurd (congrArg List.length this) (by simp)
    · intro he
      have hd : s.display.data ++ [Nat.digitChar d.val] = ['-'] ++ ['0'] :=
        congrArg String.data he
      have hlen : s.display.data.length = ['-'].length := by
        have := congrArg List.length hd
        simpa using this
      have hdata : s.display.data = ['-'] := (List.append_inj hd hlen).1
      have hs : s.display = "-" := string_eq_of_data _ _ hdata
      rw [hs, not_code_minus] at hshape
      exact absurd hshape (by simp)
    · exact h
  | decimal =>
    show (inputDecimal s).display ≠ "-0"
    unfold inputDecimal
    split_ifs
    · show ("0." : String) ≠ "-0"
      decide
    · intro he
      have hd : s.display.data ++ ['.'] = ['-'] ++ ['0'] := congrArg String.data he
      have hlen : s.display.data.length = ['-'].length := by
        have := congrArg List.length hd
        simpa using this
      have := (List.append_inj hd hlen).2
      exact absurd this (by decide)
    · exact h
  | operation o =>
    show (setOperation s o.symbol).display ≠ "-0"
    unfold setOperation
    split_ifs
    · exact calculate_ne_minus_zero s h
    · exact h
  | equals => exact calculate_ne_minus_zero s h
  | sign =>
    show (toggleSign s).display ≠ "-0"
    by_cases h0 : s.display = "0"
    · rw [toggleSign_of_zero s h0, h0]; decide
    · cases hd : s.display.data with
      | nil =>
        rw [toggleSign_of_other s h0 (by rw [hd]; simp), hd]
        show String.mk ['-'] ≠ "-0"
        decide
      | cons c rest =>
        by_cases hc : c = '-'
        · subst hc
          rw [toggleSign_of_minus s rest h0 hd]
          intro he
          have hr : rest = ['-', '0'] := congrArg String.data he
          unfold isCodeDisplay at hshape
          rw [hd, unsigned_minus, hr] at hshape
          exact absurd hshape (by decide)
        · rw [toggleSign_of_other s h0 (by rw [hd]; simpa using hc), hd]
          intro he
          have hr : '-' :: c :: rest = ['-', '0'] := congrArg String.data he
          injection hr with _ hr2
          apply h0
          rw [string_eq_of_data _ _ hd, hr2]
  | percent => exact toString_ne_minus_zero _
  | clear =>
    show ("0" : String) ≠ "-0"
    decide

theorem reachable_ne_minus_zero (s : CalculatorTool) (h : Reachable s) :
    s.display ≠ "-0" := by
  induction h with
  | init => decide
  | step k hs ih => exact press_ne_minus_zero _ k (reachable_shape _ hs).1 ih

theorem code_display_single_minus (t : String) (h : isCodeDisplay t = true) :
    "--".data.isPrefixOf t.data = false := by
  unfold isCodeDisplay at h
  cases hd : t.data with
  | nil => rfl
  | cons c r =>
    by_cases hc : c = '-'
    · subst hc
      rw [hd, unsigned_minus] at h
      obtain ⟨x, y, hxy, hx⟩ := isCodeBody_head r h
      rw [hxy]
      simp [List.isPrefixOf, hx]
      exact fun h1 => hx h1.symm
    · simp [List.isPrefixOf, hc]
      intro h1
      exact absurd h1.symm hc

/-- Claim C19: in every state the calculator can be in whose display is not
`"0"`, two applications of `toggleSign` give back the same state: the display
is restored to exactly the original string and every other field is unchanged. -/
theorem toggleSign_involution (s : CalculatorTool) (hr : Reachable s)
    (h0 : s.display ≠ "0") : toggleSign (toggleSign s) = s :=
  toggleSign_twice_of_plain s h0 (reachable_ne_minus_zero s hr)
    (code_display_single_minus _ (reachable_shape s hr).1)

/-- Witness for C19: the display `"-12.5"`, typed as `1 2 . 5 ±`, and the
display `"12.5"` before the sign button. -/
theorem toggleSign_involution_witness :
    (run [.digit 1, .digit 2, .decimal, .digit 5, .sign]).display = "-12.5" ∧
    toggleSign (toggleSign (run [.digit 1, .digit 2, .decimal, .digit 5, .sign]))
      = run [.digit 1, .digit 2, .decimal, .digit 5, .sign] :=
  ⟨by decide, toggleSign_involution _ (reachable_run _) (by decide)⟩

end Lumira
